import Mathlib

/-!
# Timing wheel (`src/timewheel/timewheel.go`)

A shallow embedding of the Go package `timewheel`.

Modelling conventions

* `time.Duration` is a count of nanoseconds, an `Int`.  `Duration.Seconds` is
  `float64(sec) + float64(nsec) / 1e9` with `sec = d / Second` and
  `nsec = d % Second`; both conversions are exact for every `int64` duration,
  and the quotient and the sum are rounded to the nearest `float64`, ties to
  even.  A `float64` is modelled as the exact fraction it stands for
  (`float64Of`); `int(...)` truncates it toward zero.  For a delay of at least
  `2^24` seconds the rounded sum can reach the next whole second:
  `int(d.Seconds())` is `16777217` for `d = 16777216999999999`.
* Go `int` values are `Int`.  Go `/` and `%` truncate toward zero, so they are
  `Int.tdiv` and `Int.tmod`; a zero divisor panics.  No sum in the package can
  leave the `int` range: `delaySeconds < 2^34` and `currentPos < slotNum`, the
  length of an allocated slice.
* `interface{}` keys are `Option κ` (`none` is `nil`) for a key type `κ` with
  decidable equality; payloads are values of a type `δ`; a job is a value of a
  type `ι`, and a `nil` job is `none`.
* `map[interface{}]int` is a function `Option κ → Option Int`.
* A `*list.List` is a `List` of tasks, front first.  `[]*list.List` is a list
  of such lists; indexing outside `0 ≤ i < len` panics.
* A panic is the result `none`.  The event loop of `Start` runs on one
  goroutine, so a panic in a handler ends the loop.
* `go tw.job(task.data)` is recorded as the dispatched task in a log; the
  payload handed to the job is the `data` field of the logged task.
* The ticker and the three channels only deliver events to the loop of
  `Start`; the loop is modelled by `run` over the sequence of events in the
  order in which the loop receives them.
-/

namespace timewheel

variable {κ δ ι : Type}

/-- Go `time.Second`, in nanoseconds. -/
def Second : Int := 1000000000

/-- Go `math.MaxInt64`, the largest `time.Duration`. -/
def maxDuration : Int := 9223372036854775807

/-- The quotient `a / b` rounded to the nearest integer, a tie to the even
one. -/
def roundHalfEven (a b : Nat) : Nat :=
  let q := a / b
  let r := a % b
  if 2 * r < b then q else if b < 2 * r then q + 1 else if q % 2 = 0 then q else q + 1

/-- For `1 ≤ n ≤ fuel`, the exponent `e` with `2^e ≤ n < 2^(e+1)`. -/
def log2Fuel : Nat → Nat → Nat
  | 0, _ => 0
  | fuel + 1, n => if n < 2 then 0 else log2Fuel fuel (n / 2) + 1

/-- For `1 ≤ n`, the exponent `e` with `2^e ≤ n < 2^(e+1)`. -/
def log2 (n : Nat) : Nat := log2Fuel n n

/-- The `float64` nearest to the quotient `n / d` (IEEE 754 round to nearest,
ties to even), as the fraction `(m, 2^j)` it stands for.  For
`2^e ≤ n / d < 2^(e+1)` the result is a multiple of `2^(e-52)`: a significand of
53 bits.  Exponents outside the `float64` range do not occur for quotients of
`int64` values. -/
def float64Of (n d : Nat) : Nat × Nat :=
  if n = 0 then (0, 1)
  else if d ≤ n then
    let e := log2 (n / d)
    (roundHalfEven (n * 2 ^ (52 - e)) (d * 2 ^ (e - 52)) * 2 ^ (e - 52), 2 ^ (52 - e))
  else
    let k := log2 ((d - 1) / n) + 1
    (roundHalfEven (n * 2 ^ (52 + k)) d, 2 ^ (52 + k))

/-- Go `Duration.Seconds` for a duration `d ≥ 0`, as a fraction:
`sec := d / Second; nsec := d % Second; return float64(sec) + float64(nsec)/1e9`.
The quotient `q` is rounded, then the sum `sec + q`. -/
def durationSeconds (d : Nat) : Nat × Nat :=
  let sec := d / 1000000000
  let nsec := d % 1000000000
  let q := float64Of nsec 1000000000
  float64Of (sec * q.2 + q.1) q.2

/-- Go `int(d.Seconds())`: the `float64` of `Duration.Seconds`, truncated toward
zero.  For `d < 0` both `sec` and `nsec` are negative or zero and rounding is
symmetric in the sign. -/
def seconds (d : Int) : Int :=
  if 0 ≤ d then (((durationSeconds d.toNat).1 / (durationSeconds d.toNat).2 : Nat) : Int)
  else -(((durationSeconds (-d).toNat).1 / (durationSeconds (-d).toNat).2 : Nat) : Int)

/-- Whole seconds of a duration by integer division by `10^9`, truncated toward
zero: the reading of `int(d.Seconds())` that the specification stipulates for
its truncation rule. -/
def secondsTrunc (d : Int) : Int := d.tdiv Second

/-- Go `type Task struct`. -/
structure Task (κ δ : Type) where
  delay : Int
  circle : Int
  key : Option κ
  data : δ
  cyclic : Bool
deriving DecidableEq

/-- Go `type TimeWheel struct`, without the ticker and the channels. -/
structure TimeWheel (κ δ ι : Type) where
  interval : Int
  slots : List (List (Task κ δ))
  timer : Option κ → Option Int
  currentPos : Int
  slotNum : Int
  job : Option ι

/-- Go `slots[i]` as a read: `none` is the index-out-of-range panic. -/
def slotAt (slots : List (List (Task κ δ))) (i : Int) : Option (List (Task κ δ)) :=
  if 0 ≤ i then slots[i.toNat]? else none

/-- Replace the list held at index `i` (used only at an index that `slotAt` accepts). -/
def setSlot (slots : List (List (Task κ δ))) (i : Int) (l : List (Task κ δ)) :
    List (List (Task κ δ)) :=
  slots.set i.toNat l

/-- Go `m[k] = v`. -/
def mapSet [DecidableEq κ] (m : Option κ → Option Int) (k : Option κ) (v : Int) :
    Option κ → Option Int :=
  fun x => if x = k then some v else m x

/-- Go `delete(m, k)`. -/
def mapDelete [DecidableEq κ] (m : Option κ → Option Int) (k : Option κ) :
    Option κ → Option Int :=
  fun x => if x = k then none else m x

/-- Go `New`: `none` is the `nil` wheel.  `initSlots` fills every slot with an
empty list. -/
def New (interval : Int) (slotNum : Int) (job : Option ι) : Option (TimeWheel κ δ ι) :=
  if interval ≤ 0 ∨ slotNum ≤ 0 ∨ job.isNone then none
  else some
    { interval := interval
      slots := List.replicate slotNum.toNat []
      timer := fun _ => none
      currentPos := 0
      slotNum := slotNum
      job := job }

/-- The body of Go `getPositionAndCircle` over a reading `toSeconds` of
`int(d.Seconds())`, returning `(pos, circle)`; `none` is the
integer-divide-by-zero panic. -/
def getPositionAndCircleWith (toSeconds : Int → Int) (tw : TimeWheel κ δ ι) (d : Int) :
    Option (Int × Int) :=
  let delaySeconds := toSeconds d
  let intervalSeconds := toSeconds tw.interval
  if intervalSeconds = 0 then none
  else if tw.slotNum = 0 then none
  else
    let circle := (delaySeconds.tdiv intervalSeconds).tdiv tw.slotNum
    let pos := (tw.currentPos + delaySeconds.tdiv intervalSeconds).tmod tw.slotNum
    some (pos, circle)

/-- Go `getPositionAndCircle`, returning `(pos, circle)`; `none` is the
integer-divide-by-zero panic. -/
def getPositionAndCircle (tw : TimeWheel κ δ ι) (d : Int) : Option (Int × Int) :=
  getPositionAndCircleWith seconds tw d

/-- The tick count `delaySeconds / intervalSeconds` that Go
`getPositionAndCircle` computes for the delay `d`. -/
def delayTicks (tw : TimeWheel κ δ ι) (d : Int) : Int :=
  (seconds d).tdiv (seconds tw.interval)

/-- Go `getPreviousTickIndex`. -/
def getPreviousTickIndex (tw : TimeWheel κ δ ι) : Int :=
  if 0 = tw.currentPos then tw.slotNum - 1 else tw.currentPos - 1

/-- Go `addTask`. -/
def addTask [DecidableEq κ] (tw : TimeWheel κ δ ι) (task : Task κ δ) :
    Option (TimeWheel κ δ ι) :=
  match getPositionAndCircle tw task.delay with
  | none => none
  | some (p, c) =>
    let task1 := { task with circle := c }
    match slotAt tw.slots p with
    | none => none
    | some l =>
      some { tw with
        slots := setSlot tw.slots p (l ++ [task1])
        timer := if task1.key ≠ none then mapSet tw.timer task1.key p else tw.timer }

/-- Go `AddTask`, followed by the loop receiving the task and calling `addTask`.
A negative delay returns before anything is sent. -/
def AddTask [DecidableEq κ] (tw : TimeWheel κ δ ι) (delay : Int) (cyclic : Bool)
    (key : Option κ) (data : δ) : Option (TimeWheel κ δ ι) :=
  if delay < 0 then some tw
  else addTask tw { delay := delay, circle := 0, key := key, data := data, cyclic := cyclic }

/-- The loop of Go `removeTask` over the list `l = pre ++ rest`, with `e` at
the head of `rest`.  When `e` matches, `l.Remove(e)` detaches it, and
`e.Next()` of a detached element is `nil` (container/list clears the element's
`list` and `next`), so the loop ends there. -/
def removeLoop [DecidableEq κ] (key : Option κ) (timer : Option κ → Option Int) :
    List (Task κ δ) → List (Task κ δ) → (Option κ → Option Int) × List (Task κ δ)
  | pre, [] => (timer, pre)
  | pre, t :: rest =>
    if t.key = key then (mapDelete timer t.key, pre ++ rest)
    else removeLoop key timer (pre ++ [t]) rest

/-- Go `removeTask`. -/
def removeTask [DecidableEq κ] (tw : TimeWheel κ δ ι) (key : Option κ) :
    Option (TimeWheel κ δ ι) :=
  match tw.timer key with
  | none => some tw
  | some position =>
    match slotAt tw.slots position with
    | none => none
    | some l =>
      let r := removeLoop key tw.timer [] l
      some { tw with slots := setSlot tw.slots position r.2, timer := r.1 }

/-- Go `RemoveTask`, followed by the loop receiving the key and calling
`removeTask`.  A `nil` key returns before anything is sent. -/
def RemoveTask [DecidableEq κ] (tw : TimeWheel κ δ ι) (key : Option κ) :
    Option (TimeWheel κ δ ι) :=
  if key = none then some tw else removeTask tw key

/-- The loop of Go `scanAndRunTask(l)` where `l` is the list held at index `p`
of `tw.slots`.  During the loop `l = pre ++ rest` with `e` at the head of
`rest`; the entry `p` of `tw.slots` is written back when the loop ends.
The result is the wheel (`none` after a panic) and the tasks whose job was
started, in order.

* `task.circle > 0`: the task stays, with `circle` one less.
* otherwise the job is started, `e` is removed, the key (if not `nil`) is
  deleted from `timer`; a cyclic task is pushed to the front of
  `slots[getPreviousTickIndex() + 1]`, which is `l` itself when that index is
  `p`, and its key is set in `timer` again. -/
def scanLoop [DecidableEq κ] (p : Int) :
    TimeWheel κ δ ι → List (Task κ δ) → List (Task κ δ) →
      Option (TimeWheel κ δ ι) × List (Task κ δ)
  | tw, pre, [] => (some { tw with slots := setSlot tw.slots p pre }, [])
  | tw, pre, t :: rest =>
    if t.circle > 0 then
      scanLoop p tw (pre ++ [{ t with circle := t.circle - 1 }]) rest
    else
      let timer1 := if t.key ≠ none then mapDelete tw.timer t.key else tw.timer
      if t.cyclic then
        let position := getPreviousTickIndex tw + 1
        let timer2 := if t.key ≠ none then mapSet timer1 t.key position else timer1
        if position = p then
          let r := scanLoop p { tw with timer := timer2 } (t :: pre) rest
          (r.1, t :: r.2)
        else
          match slotAt tw.slots position with
          | none => (none, [t])
          | some q =>
            let r := scanLoop p
              { tw with slots := setSlot tw.slots position (t :: q), timer := timer2 } pre rest
            (r.1, t :: r.2)
      else
        let r := scanLoop p { tw with timer := timer1 } pre rest
        (r.1, t :: r.2)

/-- Go `scanAndRunTask(l)` for the list `l` held at index `p` of `tw.slots`. -/
def scanAndRunTask [DecidableEq κ] (tw : TimeWheel κ δ ι) (p : Int) (l : List (Task κ δ)) :
    Option (TimeWheel κ δ ι) × List (Task κ δ) :=
  scanLoop p tw [] l

/-- The cursor update at the head of Go `ticketHandle`. -/
def advance (tw : TimeWheel κ δ ι) : TimeWheel κ δ ι :=
  { tw with currentPos := if tw.currentPos = tw.slotNum - 1 then 0 else tw.currentPos + 1 }

/-- Go `ticketHandle`: the wheel after the tick (`none` after a panic) and the
tasks whose job was started. -/
def ticketHandle [DecidableEq κ] (tw : TimeWheel κ δ ι) :
    Option (TimeWheel κ δ ι) × List (Task κ δ) :=
  let tw1 := advance tw
  match slotAt tw1.slots tw1.currentPos with
  | none => (none, [])
  | some l => scanAndRunTask tw1 tw1.currentPos l

/-- An event received by the loop of Go `Start`. -/
inductive Op (κ δ : Type) where
  | add (delay : Int) (cyclic : Bool) (key : Option κ) (data : δ)
  | remove (key : Option κ)
  | tick

/-- One iteration of the loop of Go `Start`. -/
def step [DecidableEq κ] (tw : TimeWheel κ δ ι) :
    Op κ δ → Option (TimeWheel κ δ ι) × List (Task κ δ)
  | Op.add delay cyclic key data => (AddTask tw delay cyclic key data, [])
  | Op.remove key => (RemoveTask tw key, [])
  | Op.tick => ticketHandle tw

/-- The loop of Go `Start` over a sequence of events: the final wheel (`none`
when a handler panicked) and, for each event handled, the tasks whose job it
started.  After a panic no further event is handled. -/
def run [DecidableEq κ] : TimeWheel κ δ ι → List (Op κ δ) →
    Option (TimeWheel κ δ ι) × List (List (Task κ δ))
  | tw, [] => (some tw, [])
  | tw, op :: ops =>
    match step tw op with
    | (none, log) => (none, [log])
    | (some tw1, log) =>
      let r := run tw1 ops
      (r.1, log :: r.2)

/-- The number of tasks resident in the ring. -/
def total (tw : TimeWheel κ δ ι) : Nat :=
  (tw.slots.map List.length).sum

/-- The position and circle arithmetic in the words of the specification:
`delayTicks = floor(delay / interval)`, `circle = floor(delayTicks / slotNum)`,
`pos = (currentPos + delayTicks) mod slotNum`. -/
def positionAndCircle (currentPos delay interval slotNum : Int) : Int × Int :=
  let delayTicks := delay / interval
  ((currentPos + delayTicks) % slotNum, delayTicks / slotNum)

/-- The wheel of the scenarios of the specification: five slots, one second
per tick, cursor at `0`, nothing scheduled. -/
def wheel5 : TimeWheel String Nat Unit :=
  { interval := Second
    slots := [[], [], [], [], []]
    timer := fun _ => none
    currentPos := 0
    slotNum := 5
    job := some () }

/-- A five-slot wheel ticking every one and a half seconds. -/
def wheelFractional : TimeWheel String Nat Unit :=
  { wheel5 with interval := 1500000000 }

/-- The shape invariant of a wheel built by `New`: positive interval and slot
count, one list per slot, cursor inside the ring. -/
def WF (tw : TimeWheel κ δ ι) : Prop :=
  0 < tw.interval ∧ 0 < tw.slotNum ∧ (tw.slots.length : Int) = tw.slotNum ∧
    0 ≤ tw.currentPos ∧ tw.currentPos < tw.slotNum

instance (tw : TimeWheel κ δ ι) : Decidable (WF tw) := by
  unfold WF; infer_instance

/-- The five-slot one-second wheel with the cursor at slot 3. -/
def wheel5At3 : TimeWheel String Nat Unit :=
  { wheel5 with currentPos := 3 }

/-- The handling of `n` consecutive ticks. -/
def ticks (n : Nat) : List (Op κ δ) := List.replicate n Op.tick

/-- The tasks that a scan of a slot leaves in place: those with `circle > 0`,
in order, each with `circle` one less. -/
def kept (l : List (Task κ δ)) : List (Task κ δ) :=
  (l.filter (fun t => decide (0 < t.circle))).map (fun t => { t with circle := t.circle - 1 })

/-- The tasks whose job a scan of a slot starts: those without `circle > 0`,
in order. -/
def due (l : List (Task κ δ)) : List (Task κ δ) :=
  l.filter (fun t => decide (¬ 0 < t.circle))

/-- The key index after `delete(timer, task.key)` for each task of `l` whose
key is not `nil`, in order. -/
def deleteKeys [DecidableEq κ] (m : Option κ → Option Int) (l : List (Task κ δ)) :
    Option κ → Option Int :=
  l.foldl (fun m t => if t.key ≠ none then mapDelete m t.key else m) m

/-- Three non-cyclic tasks: one a revolution away, two due. -/
def slotScan : List (Task String Nat) :=
  [⟨6000000000, 1, some "a", 1, false⟩, ⟨1000000000, 0, some "b", 2, false⟩,
    ⟨1000000000, 0, none, 3, false⟩]

/-- The five-slot wheel with the tasks of `slotScan` in slot 1. -/
def wheelScan : TimeWheel String Nat Unit :=
  { wheel5 with
    slots := [[], slotScan, [], [], []]
    timer := fun k => if k = some "a" ∨ k = some "b" then some 1 else none }

/-- The number of `AddTask` events in a sequence. -/
def addCount : List (Op κ δ) → Nat
  | [] => 0
  | Op.add _ _ _ _ :: ops => addCount ops + 1
  | _ :: ops => addCount ops

/-- An `AddTask` with a delay that is not negative, or a `RemoveTask`. -/
def isAddOrRemove : Op κ δ → Bool
  | Op.add delay _ _ _ => decide (0 ≤ delay)
  | Op.remove _ => true
  | Op.tick => false

/-- A removal is successful when its key is in the key index at the moment
the loop handles it; `successfulRemovals tw ops` counts the successful
removals while the loop handles `ops` from the wheel `tw`. -/
def successfulRemovals [DecidableEq κ] : TimeWheel κ δ ι → List (Op κ δ) → Nat
  | _, [] => 0
  | tw, op :: ops =>
    (match op with
      | Op.remove key => if (tw.timer key).isSome then 1 else 0
      | _ => 0) +
    (match (step tw op).1 with
      | none => 0
      | some tw1 => successfulRemovals tw1 ops)

/-- Every key of the key index points at a slot that holds a task with that
key, and `nil` is not in the key index. -/
def KeyInv (tw : TimeWheel κ δ ι) : Prop :=
  tw.timer none = none ∧
    ∀ k p, tw.timer k = some p → ∃ l, slotAt tw.slots p = some l ∧ ∃ t ∈ l, t.key = k

/-- The number of tasks of a list that carry the key `k`. -/
def cnt [DecidableEq κ] (k : Option κ) (l : List (Task κ δ)) : Nat :=
  l.countP (fun t => decide (t.key = k))

/-- No slot holds a task with key `k`. -/
def NoKeyAt [DecidableEq κ] (k : Option κ) (slots : List (List (Task κ δ))) : Prop :=
  ∀ i l, slotAt slots i = some l → cnt k l = 0

/-- Every slot holds at most one task with key `k`, and a slot that holds one
is the slot that the key index gives for `k`. -/
def OneKeyAt [DecidableEq κ] (k : Option κ) (slots : List (List (Task κ δ)))
    (timer : Option κ → Option Int) : Prop :=
  ∀ i l, slotAt slots i = some l → cnt k l ≤ 1 ∧ (0 < cnt k l → timer k = some i)

/-- The number of `AddTask` events of a sequence that pass the key `k`. -/
def addsOf [DecidableEq κ] (k : Option κ) : List (Op κ δ) → Nat
  | [] => 0
  | Op.add _ _ key _ :: ops => (if key = k then 1 else 0) + addsOf k ops
  | _ :: ops => addsOf k ops

/-- The slot that a due cyclic task is pushed to is the scanned slot `p`, or
lies outside the ring. -/
def PosOK (tw : TimeWheel κ δ ι) (p : Int) : Prop :=
  getPreviousTickIndex tw + 1 = p ∨ slotAt tw.slots (getPreviousTickIndex tw + 1) = none

/-- No resident task is cyclic. -/
def NoCyclic (tw : TimeWheel κ δ ι) : Prop :=
  ∀ l ∈ tw.slots, ∀ t ∈ l, t.cyclic = false

instance (tw : TimeWheel κ δ ι) : Decidable (NoCyclic tw) := by
  unfold NoCyclic; infer_instance

/-- The number of ticks that bring the cursor from `cur` onto slot `pos` the
next time, in a ring of `n` slots (between `1` and `n`). -/
def dist (cur pos n : Int) : Int :=
  if cur < pos then pos - cur else pos - cur + n

/-- The wheel `twx` is the wheel `tw` with the task `x` added at the tail of
slot `pos`; the key indexes agree except possibly at the key of `x`. -/
def Extra (x : Task κ δ) (pos : Int) (tw twx : TimeWheel κ δ ι) : Prop :=
  ∃ l, slotAt tw.slots pos = some l ∧ twx.slots = setSlot tw.slots pos (l ++ [x]) ∧
    twx.interval = tw.interval ∧ twx.currentPos = tw.currentPos ∧
    twx.slotNum = tw.slotNum ∧ twx.job = tw.job ∧
    (∀ k, k ≠ x.key → twx.timer k = tw.timer k) ∧ twx.timer none = tw.timer none

/-- The wheel `twx` has the ring and cursor of `tw`; the key indexes agree
except that `key`, when it is not `nil`, is absent from the key index of
`twx`. -/
def Same (key : Option κ) (tw twx : TimeWheel κ δ ι) : Prop :=
  twx.slots = tw.slots ∧ twx.interval = tw.interval ∧ twx.currentPos = tw.currentPos ∧
    twx.slotNum = tw.slotNum ∧ twx.job = tw.job ∧
    (∀ k, k ≠ key → twx.timer k = tw.timer k) ∧ twx.timer none = tw.timer none ∧
    (key ≠ none → twx.timer key = none)

/-- The five-slot one-second wheel with the cursor at slot 4 and a due cyclic
task in slot 0. -/
def wheelCyclicDue : TimeWheel String Nat Unit :=
  { wheel5 with
    slots := [[⟨5000000000, 0, some "c", 1, true⟩], [], [], [], []]
    timer := fun k => if k = some "c" then some 0 else none
    currentPos := 4 }

/-- A one-slot one-second wheel with a due cyclic task in its only slot. -/
def wheelOneSlot : TimeWheel String Nat Unit :=
  { wheel5 with
    slots := [[⟨1000000000, 0, none, 1, true⟩]]
    slotNum := 1 }

/-- A five-slot wheel ticking every half second, as `New` builds it. -/
def wheelHalfSecond : TimeWheel String Nat Unit :=
  { wheel5 with interval := 500000000 }

/-- The key index `timer` is not stale with respect to the ring `slots`:
every key of the index points at a slot that holds a task with that key, and
`nil` is not in the index. -/
def KeyInvAt (slots : List (List (Task κ δ))) (timer : Option κ → Option Int) : Prop :=
  timer none = none ∧
    ∀ k p, timer k = some p → ∃ l, slotAt slots p = some l ∧ ∃ t ∈ l, t.key = k

/-- An event other than an `AddTask` with a negative delay. -/
def delayOK : Op κ δ → Bool
  | Op.add delay _ _ _ => decide (0 ≤ delay)
  | _ => true

/-- A cyclic task and two tasks under the key `"a"`, seven ticks, and a
removal of `"a"`. -/
def opsCyclicAndDuplicates : List (Op String Nat) :=
  Op.add 2000000000 true (some "c") 1 :: Op.add 3000000000 false (some "a") 2 ::
    Op.add 4000000000 false (some "a") 3 :: ticks 7 ++ [Op.remove (some "a")]

/-- The wheel that the loop reaches from `wheel5` over `opsCyclicAndDuplicates`. -/
def wheelAfterOps : TimeWheel String Nat Unit :=
  (run wheel5 opsCyclicAndDuplicates).1.getD wheel5

/-- The tick, counted from the add, on which a non-cyclic task with delay `d`
is due: with `k = delayTicks tw d`, the tick count of the code, tick `k` when
`k mod slotNum ≠ 0` and tick `k + slotNum` when `k mod slotNum = 0`. -/
def firingTick (tw : TimeWheel κ δ ι) (d : Int) : Nat :=
  (if delayTicks tw d % tw.slotNum = 0 then delayTicks tw d + tw.slotNum
    else delayTicks tw d).toNat

/-- The loop of Go `scanAndRunTask` as a function of the key index and of the
scanned list alone, for the list held at index `p`.  `ok` tells whether the
re-insert index `getPreviousTickIndex() + 1` is `p`; when it is not, the index
lies outside the ring (`PosOK`) and a due cyclic task makes the loop panic.
The result is the key index and the list at index `p` after the loop (`none`
after a panic), and the tasks whose job was started, in order. -/
def scanPure [DecidableEq κ] (ok : Bool) (p : Int) :
    (Option κ → Option Int) → List (Task κ δ) → List (Task κ δ) →
      Option ((Option κ → Option Int) × List (Task κ δ)) × List (Task κ δ)
  | tm, pre, [] => (some (tm, pre), [])
  | tm, pre, t :: rest =>
    if t.circle > 0 then
      scanPure ok p tm (pre ++ [{ t with circle := t.circle - 1 }]) rest
    else
      let timer1 := if t.key ≠ none then mapDelete tm t.key else tm
      if t.cyclic then
        if ok then
          let timer2 := if t.key ≠ none then mapSet timer1 t.key p else timer1
          let r := scanPure ok p timer2 (t :: pre) rest
          (r.1, t :: r.2)
        else (none, [t])
      else
        let r := scanPure ok p timer1 pre rest
        (r.1, t :: r.2)

/-- Whether the re-insert index `getPreviousTickIndex() + 1` of the next tick
is the slot that the tick scans. -/
def reinsertOK (tw : TimeWheel κ δ ι) : Bool :=
  decide (getPreviousTickIndex (advance tw) + 1 = (advance tw).currentPos)

/-- The five-slot one-second wheel with a cyclic task resident in slot 2. -/
def wheelCyclicSlot2 : TimeWheel String Nat Unit :=
  { wheel5 with
    slots := [[], [], [⟨2000000000, 0, some "c", 1, true⟩], [], []]
    timer := fun k => if k = some "c" then some 2 else none }

/-- An event other than an `AddTask`. -/
def notAdd : Op κ δ → Bool
  | Op.add _ _ _ _ => false
  | _ => true

/-- The number of ticks in a sequence of events. -/
def tickCount : List (Op κ δ) → Nat
  | [] => 0
  | Op.tick :: ops => tickCount ops + 1
  | _ :: ops => tickCount ops

/-- The task `x` is the last task of slot `pos`, and when the key index maps
the key of `x` to `pos`, a task with that key stands before `x` in the slot. -/
def Shadowed (x : Task κ δ) (pos : Int) (tw : TimeWheel κ δ ι) : Prop :=
  ∃ l, slotAt tw.slots pos = some (l ++ [x]) ∧
    (tw.timer x.key = some pos → ∃ t ∈ l, t.key = x.key)

/-- The five-slot one-second wheel with a task under the key `"a"` resident in
slot 4. -/
def wheelKeySlot4 : TimeWheel String Nat Unit :=
  { wheel5 with
    slots := [[], [], [], [], [⟨4000000000, 0, some "a", 0, false⟩]]
    timer := fun k => if k = some "a" then some 4 else none }

/-! ## Arithmetic of `getPositionAndCircle` -/

theorem ediv_ediv_mul (a b c : Int) (hb : 0 < b) (hc : 0 < c) : a / b / c = a / (b * c) := by
  apply le_antisymm
  · rw [Int.le_ediv_iff_mul_le (Int.mul_pos hb hc)]
    have h1 : a / b / c * c ≤ a / b := Int.ediv_mul_le _ (ne_of_gt hc)
    have h2 : a / b * b ≤ a := Int.ediv_mul_le _ (ne_of_gt hb)
    calc a / b / c * (b * c) = (a / b / c * c) * b := by ring
      _ ≤ (a / b) * b := Int.mul_le_mul_of_nonneg_right h1 (le_of_lt hb)
      _ ≤ a := h2
  · rw [Int.le_ediv_iff_mul_le hc, Int.le_ediv_iff_mul_le hb]
    have h := Int.ediv_mul_le a (ne_of_gt (Int.mul_pos hb hc))
    calc a / (b * c) * c * b = a / (b * c) * (b * c) := by ring
      _ ≤ a := h

theorem roundHalfEven_ge (a b : Nat) : a / b ≤ roundHalfEven a b := by
  unfold roundHalfEven
  simp only
  split
  · exact le_rfl
  · split
    · omega
    · split <;> omega

theorem roundHalfEven_le (a b : Nat) (hb : 0 < b) : 2 * (roundHalfEven a b * b) ≤ 2 * a + b := by
  have h := Nat.div_add_mod a b
  have hm := Nat.mod_lt a hb
  have e : (a / b + 1) * b = b * (a / b) + b := by ring
  have e0 : a / b * b = b * (a / b) := by ring
  unfold roundHalfEven
  simp only
  split
  · rw [e0]; omega
  · split
    · rw [e]; omega
    · split
      · rw [e0]; omega
      · rw [e]; omega

theorem roundHalfEven_one (a : Nat) : roundHalfEven a 1 = a := by
  unfold roundHalfEven
  simp only [Nat.mod_one, Nat.div_one, Nat.mul_zero]
  rw [if_pos (by norm_num)]

theorem log2Fuel_spec : ∀ (fuel n : Nat), n ≤ fuel → 1 ≤ n →
    2 ^ log2Fuel fuel n ≤ n ∧ n < 2 ^ (log2Fuel fuel n + 1) := by
  intro fuel
  induction fuel with
  | zero => intro n h1 h2; omega
  | succ fuel ih =>
    intro n h1 h2
    simp only [log2Fuel]
    split
    · simp; omega
    · have := ih (n / 2) (by omega) (by omega)
      rw [pow_succ, pow_succ]
      omega

theorem log2_spec {n : Nat} (h : 1 ≤ n) : 2 ^ log2 n ≤ n ∧ n < 2 ^ (log2 n + 1) :=
  log2Fuel_spec n n le_rfl h

theorem log2_lt {n e : Nat} (h : 1 ≤ n) (hn : n < 2 ^ e) : log2 n < e := by
  have h1 := (log2_spec h).1
  have h2 : 2 ^ log2 n < 2 ^ e := lt_of_le_of_lt h1 hn
  exact (Nat.pow_lt_pow_iff_right (by norm_num)).mp h2

theorem float64Of_snd_pos (n d : Nat) : 0 < (float64Of n d).2 := by
  unfold float64Of
  split
  · simp
  · split <;> simp

/-- A quotient that is at least one rounds to at least one. -/
theorem float64Of_ge_one {n d : Nat} (hd : 0 < d) (h : d ≤ n) :
    (float64Of n d).2 ≤ (float64Of n d).1 := by
  have hn : n ≠ 0 := by omega
  have hq : 1 ≤ n / d := (Nat.one_le_div_iff hd).mpr h
  have hl := (log2_spec hq).1
  have hmul : d * 2 ^ log2 (n / d) ≤ n := by
    have := Nat.mul_le_mul_left d hl
    exact le_trans this (Nat.mul_div_le n d)
  simp only [float64Of, if_neg hn, if_pos h]
  by_cases he : log2 (n / d) ≤ 52
  · have e0 : log2 (n / d) - 52 = 0 := by omega
    rw [e0, pow_zero, mul_one, mul_one]
    refine le_trans ?_ (roundHalfEven_ge _ _)
    rw [Nat.le_div_iff_mul_le hd]
    calc 2 ^ (52 - log2 (n / d)) * d ≤ 2 ^ (52 - log2 (n / d)) * n :=
          Nat.mul_le_mul_left _ h
      _ = n * 2 ^ (52 - log2 (n / d)) := by ring
  · have e0 : 52 - log2 (n / d) = 0 := by omega
    rw [e0, pow_zero, mul_one]
    have hp : 0 < d * 2 ^ (log2 (n / d) - 52) := Nat.mul_pos hd (by positivity)
    have h1 : 1 ≤ n / (d * 2 ^ (log2 (n / d) - 52)) := by
      rw [Nat.one_le_div_iff hp]
      refine le_trans ?_ hmul
      exact Nat.mul_le_mul_left d (Nat.pow_le_pow_right (by norm_num) (by omega))
    have h2 := le_trans h1 (roundHalfEven_ge n (d * 2 ^ (log2 (n / d) - 52)))
    have h3 : 0 < 2 ^ (log2 (n / d) - 52) := by positivity
    calc 1 ≤ 1 * 1 := by norm_num
      _ ≤ _ := Nat.mul_le_mul h2 h3

theorem seconds_nonneg {d : Int} (hd : 0 ≤ d) : 0 ≤ seconds d := by
  unfold seconds
  rw [if_pos hd]
  exact Int.ofNat_nonneg _

theorem seconds_pos {d : Int} (hd : Second ≤ d) : 0 < seconds d := by
  have h0 : (0:Int) ≤ d := le_trans (by decide) hd
  unfold seconds
  rw [if_pos h0]
  have hN : 1000000000 ≤ d.toNat := by unfold Second at hd; omega
  have hsec : 1 ≤ d.toNat / 1000000000 := (Nat.one_le_div_iff (by norm_num)).mpr hN
  have hq := float64Of_snd_pos (d.toNat % 1000000000) 1000000000
  have h1 : (durationSeconds d.toNat).2 ≤ (durationSeconds d.toNat).1 := by
    unfold durationSeconds
    simp only
    apply float64Of_ge_one hq
    calc (float64Of (d.toNat % 1000000000) 1000000000).2
        = 1 * (float64Of (d.toNat % 1000000000) 1000000000).2 := by ring
      _ ≤ d.toNat / 1000000000 * (float64Of (d.toNat % 1000000000) 1000000000).2 :=
          Nat.mul_le_mul_right _ hsec
      _ ≤ _ := Nat.le_add_right _ _
  have h2 : 0 < (durationSeconds d.toNat).2 := by
    unfold durationSeconds
    exact float64Of_snd_pos _ _
  have : 1 ≤ (durationSeconds d.toNat).1 / (durationSeconds d.toNat).2 :=
    (Nat.one_le_div_iff h2).mpr h1
  omega

/-- The rounded quotient `nsec / 10^9` stays below `1 - 2^-30`. -/
theorem float64Of_nsec {nsec : Nat} (h : nsec < 1000000000) :
    (float64Of nsec 1000000000).1 * 1073741824 < (float64Of nsec 1000000000).2 * 1073741823 := by
  unfold float64Of
  split
  · simp
  · rw [if_neg (by omega)]
    simp only
    generalize log2 ((1000000000 - 1) / nsec) + 1 = k
    have hQ : 2 ^ 52 ≤ 2 ^ (52 + k) := Nat.pow_le_pow_right (by norm_num) (by omega)
    have hR := roundHalfEven_le (nsec * 2 ^ (52 + k)) 1000000000 (by norm_num)
    have hn : nsec * 2 ^ (52 + k) ≤ 999999999 * 2 ^ (52 + k) :=
      Nat.mul_le_mul_right _ (by omega)
    generalize roundHalfEven (nsec * 2 ^ (52 + k)) 1000000000 = R at hR ⊢
    generalize nsec * 2 ^ (52 + k) = a at hR hn
    generalize 2 ^ (52 + k) = Q at hQ hn ⊢
    norm_num at hQ
    omega

theorem round_upper (R M dd q1 sec : Nat) (hM : 536870912 ≤ M)
    (hq : q1 * 1073741824 < dd * 1073741823)
    (hR : 2 * (R * dd) ≤ 2 * ((sec * dd + q1) * M) + dd) : R < (sec + 1) * M := by
  by_contra hc
  have hc2 : (sec + 1) * M ≤ R := Nat.le_of_not_lt hc
  have h1 : (sec + 1) * M * dd ≤ R * dd := Nat.mul_le_mul_right _ hc2
  have h2 : 2 * (M * dd) ≤ 2 * (q1 * M) + dd := by
    have e1 : (sec + 1) * M * dd = sec * dd * M + M * dd := by ring
    have e2 : (sec * dd + q1) * M = sec * dd * M + q1 * M := by ring
    rw [e1] at h1
    rw [e2] at hR
    omega
  have h3 : q1 * 1073741824 * M + M ≤ dd * 1073741823 * M := by
    have : (q1 * 1073741824 + 1) * M ≤ dd * 1073741823 * M := Nat.mul_le_mul_right _ hq
    have e : (q1 * 1073741824 + 1) * M = q1 * 1073741824 * M + M := by ring
    omega
  have h4 : 536870912 * dd ≤ M * dd := Nat.mul_le_mul_right _ hM
  have e3 : q1 * 1073741824 * M = 1073741824 * (q1 * M) := by ring
  have e4 : dd * 1073741823 * M = 1073741823 * (M * dd) := by ring
  rw [e3, e4] at h3
  omega

theorem durationSeconds_exact {d : Nat} (h : d < 16777216 * 1000000000) :
    (durationSeconds d).1 / (durationSeconds d).2 = d / 1000000000 := by
  have hsec : d / 1000000000 < 16777216 := by
    rw [Nat.div_lt_iff_lt_mul (by norm_num)]; exact h
  have hns : d % 1000000000 < 1000000000 := Nat.mod_lt _ (by norm_num)
  have hq := float64Of_nsec hns
  have hq2 := float64Of_snd_pos (d % 1000000000) 1000000000
  unfold durationSeconds
  simp only
  generalize d / 1000000000 = sec at hsec ⊢
  generalize (float64Of (d % 1000000000) 1000000000).1 = q1 at hq ⊢
  generalize (float64Of (d % 1000000000) 1000000000).2 = dd at hq hq2 ⊢
  have hq1 : q1 < dd := by omega
  have hdiv : (sec * dd + q1) / dd = sec := by
    rw [Nat.add_comm, Nat.add_mul_div_right _ _ hq2, Nat.div_eq_of_lt hq1, Nat.zero_add]
  unfold float64Of
  split
  · rename_i h0
    have : sec * dd = 0 := by omega
    rcases Nat.mul_eq_zero.mp this with h1 | h1
    · simp [h1]
    · omega
  · rename_i h0
    split
    · rename_i hle
      simp only [hdiv]
      have hs1 : 1 ≤ sec := by
        by_contra hc
        have : sec = 0 := by omega
        subst this
        omega
      have he : log2 sec < 24 := log2_lt hs1 (by norm_num; exact hsec)
      have e0 : log2 sec - 52 = 0 := by omega
      rw [e0, pow_zero, mul_one, mul_one]
      have hM : 536870912 ≤ 2 ^ (52 - log2 sec) := by
        calc 536870912 = 2 ^ 29 := by norm_num
          _ ≤ 2 ^ (52 - log2 sec) := Nat.pow_le_pow_right (by norm_num) (by omega)
      generalize 2 ^ (52 - log2 sec) = M at hM ⊢
      have hM0 : 0 < M := by omega
      have hR := roundHalfEven_le ((sec * dd + q1) * M) dd hq2
      have hG := roundHalfEven_ge ((sec * dd + q1) * M) dd
      generalize roundHalfEven ((sec * dd + q1) * M) dd = R at hR hG ⊢
      have hup := round_upper R M dd q1 sec hM hq hR
      have hlo : sec * M ≤ R := by
        refine le_trans ?_ hG
        rw [Nat.le_div_iff_mul_le hq2]
        have : sec * M * dd ≤ (sec * dd + q1) * M := by
          have e : (sec * dd + q1) * M = sec * M * dd + q1 * M := by ring
          omega
        exact this
      apply le_antisymm
      · have : R / M < sec + 1 := by
          rw [Nat.div_lt_iff_lt_mul hM0]; exact hup
        omega
      · rw [Nat.le_div_iff_mul_le hM0]; exact hlo
    · rename_i hlt
      have hs0 : sec = 0 := by
        by_contra hc
        have h1 : 1 ≤ sec := by omega
        have : 1 * dd ≤ sec * dd := Nat.mul_le_mul_right _ h1
        omega
      subst hs0
      simp only
      generalize log2 ((dd - 1) / (0 * dd + q1)) + 1 = k
      have hM : 536870912 ≤ 2 ^ (52 + k) := by
        calc 536870912 = 2 ^ 29 := by norm_num
          _ ≤ 2 ^ (52 + k) := Nat.pow_le_pow_right (by norm_num) (by omega)
      generalize 2 ^ (52 + k) = M at hM ⊢
      have hR := roundHalfEven_le ((0 * dd + q1) * M) dd hq2
      generalize roundHalfEven ((0 * dd + q1) * M) dd = R at hR ⊢
      have hup := round_upper R M dd q1 0 hM hq hR
      apply Nat.div_eq_of_lt
      omega

theorem durationSeconds_whole {s : Nat} (h : s < 2 ^ 53) :
    (durationSeconds (s * 1000000000)).1 / (durationSeconds (s * 1000000000)).2 = s := by
  unfold durationSeconds
  have e1 : s * 1000000000 % 1000000000 = 0 := Nat.mul_mod_left _ _
  have e2 : s * 1000000000 / 1000000000 = s := Nat.mul_div_cancel _ (by norm_num)
  simp only [e1, e2]
  have e3 : float64Of 0 1000000000 = (0, 1) := by simp [float64Of]
  rw [e3]
  simp only [mul_one, add_zero]
  unfold float64Of
  split
  · rename_i h0; simp [h0]
  · rename_i h0
    have h1 : 1 ≤ s := by omega
    rw [if_pos h1]
    simp only [Nat.div_one]
    have he : log2 s < 53 := log2_lt h1 h
    have e0 : log2 s - 52 = 0 := by omega
    rw [e0, pow_zero, mul_one, mul_one, roundHalfEven_one]
    exact Nat.mul_div_cancel _ (by positivity)

theorem seconds_exact {d : Int} (hd : 0 ≤ d) (h : d < 16777216 * Second) :
    seconds d = d / Second := by
  unfold seconds
  rw [if_pos hd]
  have h1 : d.toNat < 16777216 * 1000000000 := by unfold Second at h; omega
  rw [durationSeconds_exact h1]
  unfold Second
  omega

theorem seconds_whole {d : Int} (hd : 0 ≤ d) (hs : Second ∣ d)
    (h : d ≤ maxDuration) : seconds d = d / Second := by
  obtain ⟨s, rfl⟩ := hs
  have hs0 : 0 ≤ s := by unfold Second at hd; omega
  unfold seconds
  rw [if_pos hd]
  have e : (Second * s).toNat = s.toNat * 1000000000 := by unfold Second; omega
  have hlt : s.toNat < 2 ^ 53 := by unfold Second maxDuration at h; norm_num; omega
  rw [e, durationSeconds_whole hlt, Int.mul_ediv_cancel_left _ (by decide : Second ≠ 0)]
  omega

theorem secondsTrunc_of_nonneg {d : Int} (hd : 0 ≤ d) : secondsTrunc d = d / Second :=
  Int.tdiv_eq_ediv hd (by decide)

theorem secondsTrunc_nonneg {d : Int} (hd : 0 ≤ d) : 0 ≤ secondsTrunc d := by
  rw [secondsTrunc_of_nonneg hd]; exact Int.ediv_nonneg hd (by decide)

theorem secondsTrunc_pos {d : Int} (hd : Second ≤ d) : 0 < secondsTrunc d := by
  have h0 : (0:Int) ≤ d := le_trans (by decide) hd
  rw [secondsTrunc_of_nonneg h0]
  unfold Second at *
  omega

theorem delayTicks_eq_ediv (tw : TimeWheel κ δ ι) {d : Int} (hi : Second ≤ tw.interval)
    (hd : 0 ≤ d) :
    delayTicks tw d = seconds d / seconds tw.interval ∧ 0 ≤ delayTicks tw d := by
  have e : delayTicks tw d = seconds d / seconds tw.interval :=
    Int.tdiv_eq_ediv (seconds_nonneg hd) (le_of_lt (seconds_pos hi))
  exact ⟨e, e ▸ Int.ediv_nonneg (seconds_nonneg hd) (le_of_lt (seconds_pos hi))⟩

/-- The result of `getPositionAndCircle` on a wheel whose interval is at least
one second: the arithmetic of the specification on whole seconds. -/
theorem getPositionAndCircle_eq (tw : TimeWheel κ δ ι) (d : Int)
    (hi : Second ≤ tw.interval) (hn : 0 < tw.slotNum) (hc : 0 ≤ tw.currentPos) (hd : 0 ≤ d) :
    getPositionAndCircle tw d =
      some (positionAndCircle tw.currentPos (seconds d) (seconds tw.interval) tw.slotNum) := by
  have hs := seconds_pos hi
  have hds := seconds_nonneg hd
  have hq : 0 ≤ seconds d / seconds tw.interval := Int.ediv_nonneg hds (le_of_lt hs)
  have e1 : (seconds d).tdiv (seconds tw.interval) = seconds d / seconds tw.interval :=
    Int.tdiv_eq_ediv hds (le_of_lt hs)
  have e2 : (seconds d / seconds tw.interval).tdiv tw.slotNum
      = seconds d / seconds tw.interval / tw.slotNum := Int.tdiv_eq_ediv hq (le_of_lt hn)
  have e3 : (tw.currentPos + seconds d / seconds tw.interval).tmod tw.slotNum
      = (tw.currentPos + seconds d / seconds tw.interval) % tw.slotNum :=
    Int.tmod_eq_emod (by omega) (le_of_lt hn)
  simp only [getPositionAndCircle, getPositionAndCircleWith, positionAndCircle, e1, e2, e3,
    if_neg (ne_of_gt hs), if_neg (ne_of_gt hn)]

/-- The result of `getPositionAndCircle` in terms of the tick count of the
code. -/
theorem getPositionAndCircle_ticks (tw : TimeWheel κ δ ι) (d : Int)
    (hi : Second ≤ tw.interval) (hn : 0 < tw.slotNum) (hc : 0 ≤ tw.currentPos) (hd : 0 ≤ d) :
    getPositionAndCircle tw d =
      some ((tw.currentPos + delayTicks tw d) % tw.slotNum, delayTicks tw d / tw.slotNum) := by
  rw [getPositionAndCircle_eq tw d hi hn hc hd, (delayTicks_eq_ediv tw hi hd).1]
  rfl

/-- On a whole-second interval and for a delay below `2^24` seconds the tick
count of the code is the exact quotient `floor(d / interval)`. -/
theorem delayTicks_floor (tw : TimeWheel κ δ ι) {d : Int} (hd : 0 ≤ d) (hi : 0 < tw.interval)
    (hw : Second ∣ tw.interval) (hmax : tw.interval ≤ maxDuration)
    (hlt : d < 16777216 * Second) : delayTicks tw d = d / tw.interval := by
  have hi1 : Second ≤ tw.interval := Int.le_of_dvd hi hw
  rw [(delayTicks_eq_ediv tw hi1 hd).1, seconds_exact hd hlt,
    seconds_whole (le_of_lt hi) hw hmax]
  obtain ⟨s, hs⟩ := hw
  rw [hs] at hi ⊢
  have hs0 : 0 < s := by unfold Second at hi; omega
  rw [Int.mul_ediv_cancel_left _ (by decide : Second ≠ 0), ediv_ediv_mul _ _ _ (by decide) hs0]

/-- C1 (as stated, refuted), at three inputs.
`New` accepts the interval 1.5s with 5 slots, and for the delay 3s the code
returns `pos = 3`, `circle = 0`, while `floor(delay / interval) = 2` gives
`pos = 2`.
On the five-slot one-second wheel the delay `16777216999999999` ns has
`floor(delay / interval) = 16777216`, which gives `pos = 1`, while
`int(delay.Seconds())` is `16777217` and the code returns `pos = 2`.
`New` accepts the interval 500ms, and on that wheel the code returns nothing:
it divides by `int(interval.Seconds()) = 0`. -/
theorem getPositionAndCircle_fractional_interval :
    (New 1500000000 5 (some ()) = some wheelFractional) ∧
      getPositionAndCircle wheelFractional 3000000000 = some (3, 0) ∧
      positionAndCircle wheelFractional.currentPos 3000000000 wheelFractional.interval
        wheelFractional.slotNum = (2, 0) ∧
      getPositionAndCircle wheelFractional 3000000000 ≠
        some (positionAndCircle wheelFractional.currentPos 3000000000 wheelFractional.interval
          wheelFractional.slotNum) ∧
      (New Second 5 (some ()) = some wheel5) ∧
      seconds 16777216999999999 = 16777217 ∧
      getPositionAndCircle wheel5 16777216999999999 = some (2, 3355443) ∧
      positionAndCircle wheel5.currentPos 16777216999999999 wheel5.interval wheel5.slotNum =
        (1, 3355443) ∧
      (New 500000000 5 (some ()) = some wheelHalfSecond) ∧
      getPositionAndCircle wheelHalfSecond 1000000000 = none := by
  refine ⟨rfl, by decide, by decide, by decide, rfl, by decide, by decide, by decide, rfl,
    by decide⟩

/-- C1 (amended): on a wheel whose interval is at least one second, with
`slotNum > 0`, `currentPos ≥ 0` and `delay ≥ 0`, `getPositionAndCircle` returns
the specified `(pos, circle)` for the tick count
`floor(int(delay.Seconds()) / int(interval.Seconds()))`.  `int(d.Seconds())` is
`floor(d / 1s)` for every `d` below `2^24` seconds.  When the interval is a
whole number of seconds and the delay is below `2^24` seconds, the result is the
specified one for `delayTicks = floor(delay / interval)`. -/
theorem getPositionAndCircle_whole_seconds (tw : TimeWheel κ δ ι) (d : Int)
    (hi : Second ≤ tw.interval) (hn : 0 < tw.slotNum) (hc : 0 ≤ tw.currentPos) (hd : 0 ≤ d) :
    getPositionAndCircle tw d =
        some (positionAndCircle tw.currentPos (seconds d) (seconds tw.interval) tw.slotNum) ∧
      (d < 16777216 * Second → seconds d = d / Second) ∧
      (tw.interval < 16777216 * Second → seconds tw.interval = tw.interval / Second) ∧
      (Second ∣ tw.interval → tw.interval ≤ maxDuration → d < 16777216 * Second →
        getPositionAndCircle tw d =
          some (positionAndCircle tw.currentPos d tw.interval tw.slotNum)) := by
  have h0 : 0 < tw.interval := lt_of_lt_of_le (by decide) hi
  refine ⟨getPositionAndCircle_eq tw d hi hn hc hd, fun h => seconds_exact hd h,
    fun h => seconds_exact (le_of_lt h0) h, fun hw hmax hlt => ?_⟩
  rw [getPositionAndCircle_ticks tw d hi hn hc hd, delayTicks_floor tw hd h0 hw hmax hlt]
  rfl

/-- C1 witness: the scenarios of the specification, delay 3s gives `(3, 0)`
and delay 12s gives `(2, 2)` on the five-slot one-second wheel. -/
theorem getPositionAndCircle_whole_seconds_witness :
    (Second ≤ wheel5.interval ∧ 0 < wheel5.slotNum ∧ 0 ≤ wheel5.currentPos ∧
      (0:Int) ≤ 3000000000 ∧ Second ∣ wheel5.interval ∧ wheel5.interval ≤ maxDuration ∧
      (3000000000 : Int) < 16777216 * Second ∧ wheel5.interval < 16777216 * Second) ∧
    getPositionAndCircle wheel5 3000000000 =
      some (positionAndCircle wheel5.currentPos 3000000000 wheel5.interval wheel5.slotNum) ∧
    seconds 3000000000 = 3000000000 / Second ∧
    seconds wheel5.interval = wheel5.interval / Second ∧
    getPositionAndCircle wheel5 3000000000 = some (3, 0) ∧
    getPositionAndCircle wheel5 12000000000 = some (2, 2) :=
  ⟨⟨by decide, by decide, by decide, by decide, ⟨1, by decide⟩, by decide, by decide,
      by decide⟩,
   (getPositionAndCircle_whole_seconds wheel5 3000000000 (by decide) (by decide) (by decide)
      (by decide)).2.2.2 ⟨1, by decide⟩ (by decide) (by decide),
   (getPositionAndCircle_whole_seconds wheel5 3000000000 (by decide) (by decide) (by decide)
      (by decide)).2.1 (by decide),
   (getPositionAndCircle_whole_seconds wheel5 3000000000 (by decide) (by decide) (by decide)
      (by decide)).2.2.1 (by decide),
   by decide, by decide⟩

/-! ## Slots and the key index -/

theorem mapSet_apply [DecidableEq κ] (m : Option κ → Option Int) (k x : Option κ) (v : Int) :
    mapSet m k v x = if x = k then some v else m x := rfl

theorem mapDelete_apply [DecidableEq κ] (m : Option κ → Option Int) (k x : Option κ) :
    mapDelete m k x = if x = k then none else m x := rfl

theorem slotAt_eq_some {slots : List (List (Task κ δ))} {i : Int} {l : List (Task κ δ)}
    (h : slotAt slots i = some l) : 0 ≤ i ∧ i.toNat < slots.length ∧ slots[i.toNat]? = some l := by
  unfold slotAt at h
  split at h
  · rename_i h0
    refine ⟨h0, ?_, h⟩
    by_contra hlt
    rw [List.getElem?_eq_none (by omega)] at h
    cases h
  · cases h

theorem slotAt_isSome (slots : List (List (Task κ δ))) {i : Int}
    (h0 : 0 ≤ i) (h1 : i < (slots.length : Int)) : ∃ l, slotAt slots i = some l := by
  have hlt : i.toNat < slots.length := by omega
  exact ⟨slots[i.toNat], by simp [slotAt, h0, List.getElem?_eq_getElem hlt]⟩

theorem length_setSlot (slots : List (List (Task κ δ))) (i : Int) (l : List (Task κ δ)) :
    (setSlot slots i l).length = slots.length := by
  simp [setSlot]

theorem slotAt_setSlot_same {slots : List (List (Task κ δ))} {i : Int}
    {l : List (Task κ δ)} (l2 : List (Task κ δ)) (h : slotAt slots i = some l) :
    slotAt (setSlot slots i l2) i = some l2 := by
  obtain ⟨h0, hlt, _⟩ := slotAt_eq_some h
  simp [slotAt, setSlot, h0, List.getElem?_set, hlt]

theorem slotAt_setSlot_ne (slots : List (List (Task κ δ))) {i j : Int}
    (l2 : List (Task κ δ)) (h0 : 0 ≤ i) (hij : i ≠ j) :
    slotAt (setSlot slots i l2) j = slotAt slots j := by
  unfold slotAt setSlot
  split
  · rename_i hj
    have : i.toNat ≠ j.toNat := by omega
    simp [List.getElem?_set, this]
  · rfl

/-! ## Fields that the tick scan never writes -/

theorem scanLoop_fields [DecidableEq κ] (p : Int) :
    ∀ (rest : List (Task κ δ)) (tw : TimeWheel κ δ ι) (pre : List (Task κ δ))
      {tw1 : TimeWheel κ δ ι} {log : List (Task κ δ)},
      scanLoop p tw pre rest = (some tw1, log) →
      tw1.currentPos = tw.currentPos ∧ tw1.slotNum = tw.slotNum ∧
        tw1.interval = tw.interval ∧ tw1.job = tw.job ∧ tw1.slots.length = tw.slots.length := by
  intro rest
  induction rest with
  | nil =>
    intro tw pre tw1 log h
    simp only [scanLoop, Prod.mk.injEq, Option.some.injEq] at h
    obtain ⟨rfl, _⟩ := h
    simp [length_setSlot]
  | cons t rest ih =>
    intro tw pre tw1 log h
    simp only [scanLoop] at h
    split at h
    · exact ih _ _ h
    · split at h
      · split at h
        · simp only [Prod.mk.injEq] at h
          have := ih _ _ (Prod.ext h.1 rfl)
          simpa using this
        · split at h
          · simp at h
          · simp only [Prod.mk.injEq] at h
            have := ih _ _ (Prod.ext h.1 rfl)
            simpa [length_setSlot] using this
      · simp only [Prod.mk.injEq] at h
        have := ih _ _ (Prod.ext h.1 rfl)
        simpa using this

theorem ticketHandle_fields [DecidableEq κ] {tw tw1 : TimeWheel κ δ ι} {log : List (Task κ δ)}
    (h : ticketHandle tw = (some tw1, log)) :
    tw1.currentPos = (advance tw).currentPos ∧ tw1.slotNum = tw.slotNum ∧
      tw1.interval = tw.interval ∧ tw1.job = tw.job ∧ tw1.slots.length = tw.slots.length := by
  unfold ticketHandle at h
  simp only at h
  split at h
  · simp at h
  · have := scanLoop_fields _ _ _ _ h
    simpa [advance] using this

theorem advance_currentPos (tw : TimeWheel κ δ ι) (_hn : 0 < tw.slotNum)
    (h0 : 0 ≤ tw.currentPos) (h1 : tw.currentPos < tw.slotNum) :
    (advance tw).currentPos = (tw.currentPos + 1) % tw.slotNum := by
  simp only [advance]
  split
  · rename_i h
    have : tw.currentPos + 1 = tw.slotNum := by omega
    rw [this, Int.emod_self]
  · rw [Int.emod_eq_of_lt (by omega) (by omega)]

theorem advance_currentPos_range (tw : TimeWheel κ δ ι)
    (h0 : 0 ≤ tw.currentPos) (h1 : tw.currentPos < tw.slotNum) :
    0 ≤ (advance tw).currentPos ∧ (advance tw).currentPos < tw.slotNum := by
  simp only [advance]
  split <;> omega

theorem addTask_fields [DecidableEq κ] {tw tw1 : TimeWheel κ δ ι} {task : Task κ δ}
    (h : addTask tw task = some tw1) :
    tw1.currentPos = tw.currentPos ∧ tw1.slotNum = tw.slotNum ∧
      tw1.interval = tw.interval ∧ tw1.job = tw.job ∧ tw1.slots.length = tw.slots.length := by
  unfold addTask at h
  split at h
  · cases h
  · split at h
    · cases h
    · simp only [Option.some.injEq] at h
      subst h
      simp [length_setSlot]

theorem removeTask_fields [DecidableEq κ] {tw tw1 : TimeWheel κ δ ι} {key : Option κ}
    (h : removeTask tw key = some tw1) :
    tw1.currentPos = tw.currentPos ∧ tw1.slotNum = tw.slotNum ∧
      tw1.interval = tw.interval ∧ tw1.job = tw.job ∧ tw1.slots.length = tw.slots.length := by
  unfold removeTask at h
  split at h
  · simp only [Option.some.injEq] at h
    subst h
    simp
  · split at h
    · cases h
    · simp only [Option.some.injEq] at h
      subst h
      simp [length_setSlot]

theorem step_fields [DecidableEq κ] {tw tw1 : TimeWheel κ δ ι} {op : Op κ δ}
    {log : List (Task κ δ)} (h : step tw op = (some tw1, log)) :
    (tw1.currentPos = tw.currentPos ∨ tw1.currentPos = (advance tw).currentPos) ∧
      tw1.slotNum = tw.slotNum ∧ tw1.interval = tw.interval ∧ tw1.job = tw.job ∧
      tw1.slots.length = tw.slots.length := by
  cases op with
  | add delay cyclic key data =>
    simp only [step, AddTask, Prod.mk.injEq] at h
    split at h
    · obtain ⟨h, _⟩ := h
      simp only [Option.some.injEq] at h
      subst h
      simp
    · have := addTask_fields h.1
      exact ⟨Or.inl this.1, this.2⟩
  | remove key =>
    simp only [step, RemoveTask, Prod.mk.injEq] at h
    split at h
    · obtain ⟨h, _⟩ := h
      simp only [Option.some.injEq] at h
      subst h
      simp
    · have := removeTask_fields h.1
      exact ⟨Or.inl this.1, this.2⟩
  | tick =>
    have := ticketHandle_fields h
    exact ⟨Or.inr this.1, this.2⟩

theorem step_WF [DecidableEq κ] {tw tw1 : TimeWheel κ δ ι} {op : Op κ δ}
    {log : List (Task κ δ)} (hw : WF tw) (h : step tw op = (some tw1, log)) : WF tw1 := by
  obtain ⟨hi, hn, hl, h0, h1⟩ := hw
  obtain ⟨hc, hs, hint, _, hlen⟩ := step_fields h
  have hr := advance_currentPos_range tw h0 h1
  refine ⟨by omega, by omega, by omega, ?_, ?_⟩
  · rcases hc with hc | hc <;> omega
  · rcases hc with hc | hc <;> omega

theorem run_WF [DecidableEq κ] : ∀ (ops : List (Op κ δ)) {tw tw1 : TimeWheel κ δ ι}
    {logs : List (List (Task κ δ))}, WF tw → run tw ops = (some tw1, logs) → WF tw1 := by
  intro ops
  induction ops with
  | nil =>
    intro tw tw1 logs hw h
    simp only [run, Prod.mk.injEq, Option.some.injEq] at h
    exact h.1 ▸ hw
  | cons op ops ih =>
    intro tw tw1 logs hw h
    simp only [run] at h
    split at h
    · simp at h
    · rename_i tw2 log hs
      simp only [Prod.mk.injEq] at h
      exact ih (step_WF hw hs) (Prod.ext h.1 rfl)

theorem New_eq_some {interval slotNum : Int} {job : Option ι} {tw : TimeWheel κ δ ι}
    (h : New interval slotNum job = some tw) :
    0 < interval ∧ 0 < slotNum ∧ job ≠ none ∧
      tw = { interval := interval, slots := List.replicate slotNum.toNat [],
             timer := fun _ => none, currentPos := 0, slotNum := slotNum, job := job } := by
  unfold New at h
  split at h
  · cases h
  · rename_i hc
    simp only [not_or, not_le, Option.isNone_iff_eq_none] at hc
    simp only [Option.some.injEq] at h
    exact ⟨hc.1, hc.2.1, hc.2.2, h.symm⟩

theorem New_WF {interval slotNum : Int} {job : Option ι} {tw : TimeWheel κ δ ι}
    (h : New interval slotNum job = some tw) : WF tw := by
  obtain ⟨hi, hn, _, rfl⟩ := New_eq_some h
  refine ⟨hi, hn, ?_, le_refl _, hn⟩
  simp only [List.length_replicate]
  omega

/-! ## Construction (`New`) -/

/-- C10: `New(interval, slotNum, job)` returns no wheel exactly when
`interval ≤ 0`, `slotNum ≤ 0` or the job is `nil`, and returns a wheel for
every other input. -/
theorem New_fails_iff (interval slotNum : Int) (job : Option ι) :
    ((New interval slotNum job : Option (TimeWheel κ δ ι)) = none ↔
        (interval ≤ 0 ∨ slotNum ≤ 0 ∨ job = none)) ∧
      ((New interval slotNum job : Option (TimeWheel κ δ ι)).isSome = true ↔
        ¬ (interval ≤ 0 ∨ slotNum ≤ 0 ∨ job = none)) := by
  unfold New
  constructor <;> split <;> rename_i h <;>
    simp only [Option.isNone_iff_eq_none] at h <;> simp [h]

/-! ## The cursor -/

/-- C9: on a wheel with `slotNum > 0` and `0 ≤ currentPos < slotNum`, the
cursor update of a tick yields `(currentPos + 1) mod slotNum`, and this is the
cursor of the wheel after the tick; every `AddTask`, `RemoveTask` and tick step
keeps `0 ≤ currentPos < slotNum`, and so does every sequence of steps; the
wheel built by `New` starts inside the range. -/
theorem currentPos_in_range [DecidableEq κ] (tw : TimeWheel κ δ ι) (hn : 0 < tw.slotNum)
    (h0 : 0 ≤ tw.currentPos) (h1 : tw.currentPos < tw.slotNum) :
    (advance tw).currentPos = (tw.currentPos + 1) % tw.slotNum ∧
      (tw.currentPos = tw.slotNum - 1 → (advance tw).currentPos = 0) ∧
      (∀ tw1 log, ticketHandle tw = (some tw1, log) →
        tw1.currentPos = (tw.currentPos + 1) % tw.slotNum ∧ tw1.slotNum = tw.slotNum) ∧
      (∀ op tw1 log, step tw op = (some tw1, log) →
        tw1.slotNum = tw.slotNum ∧ 0 ≤ tw1.currentPos ∧ tw1.currentPos < tw1.slotNum) ∧
      (∀ ops tw1 logs, run tw ops = (some tw1, logs) →
        tw1.slotNum = tw.slotNum ∧ 0 ≤ tw1.currentPos ∧ tw1.currentPos < tw1.slotNum) ∧
      (∀ (interval slotNum : Int) (job : Option ι) (tw0 : TimeWheel κ δ ι),
        New interval slotNum job = some tw0 →
          tw0.currentPos = 0 ∧ 0 ≤ tw0.currentPos ∧ tw0.currentPos < tw0.slotNum) := by
  have hadv := advance_currentPos tw hn h0 h1
  have hr := advance_currentPos_range tw h0 h1
  refine ⟨hadv, ?_, ?_, ?_, ?_, ?_⟩
  · intro h
    simp [advance, h]
  · intro tw1 log h
    have := ticketHandle_fields h
    exact ⟨this.1.trans hadv, this.2.1⟩
  · intro op tw1 log h
    obtain ⟨hc, hs, _⟩ := step_fields h
    refine ⟨hs, ?_, ?_⟩ <;> rcases hc with hc | hc <;> omega
  · intro ops
    induction ops generalizing tw with
    | nil =>
      intro tw1 logs h
      simp only [run, Prod.mk.injEq, Option.some.injEq] at h
      obtain ⟨rfl, _⟩ := h
      exact ⟨rfl, h0, h1⟩
    | cons op ops ih =>
      intro tw1 logs h
      simp only [run] at h
      split at h
      · simp at h
      · rename_i tw2 log hs
        simp only [Prod.mk.injEq] at h
        obtain ⟨hc, hsn, _⟩ := step_fields hs
        have hr2 := advance_currentPos_range tw h0 h1
        have := ih tw2 (by omega) (by rcases hc with hc | hc <;> omega)
          (by rcases hc with hc | hc <;> omega)
          (advance_currentPos tw2 (by omega) (by rcases hc with hc | hc <;> omega)
            (by rcases hc with hc | hc <;> omega))
          (advance_currentPos_range tw2 (by rcases hc with hc | hc <;> omega)
            (by rcases hc with hc | hc <;> omega))
          tw1 (run tw2 ops).2 (Prod.ext h.1 rfl)
        exact ⟨this.1.trans hsn, this.2⟩
  · intro interval slotNum job tw0 h
    obtain ⟨_, hn0, _, rfl⟩ := New_eq_some h
    exact ⟨rfl, le_refl _, hn0⟩

/-- C9 witness: one tick of the five-slot wheel moves the cursor from `0` to
`1`, and from `4` back to `0`. -/
theorem currentPos_in_range_witness :
    (0 < wheel5.slotNum ∧ 0 ≤ wheel5.currentPos ∧ wheel5.currentPos < wheel5.slotNum) ∧
      (advance wheel5).currentPos = (wheel5.currentPos + 1) % wheel5.slotNum ∧
      (ticketHandle wheel5).1.map (fun tw => tw.currentPos) = some 1 ∧
      (ticketHandle { wheel5 with currentPos := 4 }).1.map (fun tw => tw.currentPos) = some 0 :=
  ⟨by decide,
   (currentPos_in_range wheel5 (by decide) (by decide) (by decide)).1,
   by decide, by decide⟩

/-! ## Scheduling (`addTask`) -/

theorem getPositionAndCircle_range {tw : TimeWheel κ δ ι} {d p c : Int} (hw : WF tw)
    (hd : 0 ≤ d) (h : getPositionAndCircle tw d = some (p, c)) :
    0 ≤ p ∧ p < tw.slotNum ∧ 0 ≤ c := by
  obtain ⟨hi, hn, _, h0, _⟩ := hw
  have hds := seconds_nonneg hd
  have his := seconds_nonneg (le_of_lt hi)
  have hx : 0 ≤ (seconds d).tdiv (seconds tw.interval) := by
    rw [Int.tdiv_eq_ediv hds his]; exact Int.ediv_nonneg hds his
  simp only [getPositionAndCircle, getPositionAndCircleWith] at h
  split at h
  · cases h
  · split at h
    · cases h
    · simp only [Option.some.injEq, Prod.mk.injEq] at h
      obtain ⟨rfl, rfl⟩ := h
      rw [Int.tmod_eq_emod (by omega) (le_of_lt hn), Int.tdiv_eq_ediv hx (le_of_lt hn)]
      exact ⟨Int.emod_nonneg _ (ne_of_gt hn), Int.emod_lt_of_pos _ hn,
        Int.ediv_nonneg hx (le_of_lt hn)⟩

theorem addTask_eq [DecidableEq κ] {tw : TimeWheel κ δ ι} (task : Task κ δ) {p c : Int}
    {l : List (Task κ δ)} (h : getPositionAndCircle tw task.delay = some (p, c))
    (hl : slotAt tw.slots p = some l) :
    addTask tw task = some { tw with
      slots := setSlot tw.slots p (l ++ [{ task with circle := c }])
      timer := if task.key ≠ none then mapSet tw.timer task.key p else tw.timer } := by
  simp only [addTask, h, hl]

/-- C7: when the loop handles `AddTask(delay, cyclic, key, data)` with
`delay ≥ 0` on a well-formed wheel and `getPositionAndCircle(delay)` is
`(pos, circle)`, the slot `pos` becomes its previous content followed by the
new task `(delay, circle, key, data, cyclic)`; every other slot, the number
of slots and `currentPos` are unchanged; a non-nil key is mapped to `pos` in
the key index with every other entry unchanged, and a nil key leaves the key
index unchanged. -/
theorem AddTask_frame [DecidableEq κ] (tw : TimeWheel κ δ ι) (hw : WF tw) (delay : Int)
    (cyclic : Bool) (key : Option κ) (data : δ) (hd : 0 ≤ delay) (p c : Int)
    (hpc : getPositionAndCircle tw delay = some (p, c)) :
    ∃ tw1 l, AddTask tw delay cyclic key data = some tw1 ∧
      slotAt tw.slots p = some l ∧
      slotAt tw1.slots p =
        some (l ++ [{ delay := delay, circle := c, key := key, data := data, cyclic := cyclic }]) ∧
      (∀ q, q ≠ p → slotAt tw1.slots q = slotAt tw.slots q) ∧
      tw1.slots.length = tw.slots.length ∧
      tw1.currentPos = tw.currentPos ∧
      (key ≠ none → tw1.timer key = some p ∧ ∀ k, k ≠ key → tw1.timer k = tw.timer k) ∧
      (key = none → tw1.timer = tw.timer) := by
  obtain ⟨hp0, hp1, _⟩ := getPositionAndCircle_range hw hd hpc
  obtain ⟨l, hl⟩ := slotAt_isSome tw.slots hp0 (by rw [hw.2.2.1]; exact hp1)
  refine ⟨{ tw with
      slots := setSlot tw.slots p (l ++ [⟨delay, c, key, data, cyclic⟩])
      timer := if key ≠ none then mapSet tw.timer key p else tw.timer },
    l, ?_, hl, ?_, ?_, ?_, rfl, ?_, ?_⟩
  · simp only [AddTask, if_neg (not_lt.mpr hd)]
    exact addTask_eq ⟨delay, 0, key, data, cyclic⟩ hpc hl
  · exact slotAt_setSlot_same _ hl
  · intro q hq
    exact slotAt_setSlot_ne _ _ hp0 (Ne.symm hq)
  · simp [length_setSlot]
  · intro hk
    simp only [ne_eq, hk, not_false_eq_true, if_true, mapSet]
    exact ⟨by simp, fun k hkk => by simp [hkk]⟩
  · intro hk
    simp [hk]

/-- C7 witness: `AddTask(3s, false, "a", 42)` on the five-slot wheel puts the
task at the tail of slot 3 and maps `"a"` to 3. -/
theorem AddTask_frame_witness :
    (WF wheel5 ∧ (0:Int) ≤ 3000000000 ∧ getPositionAndCircle wheel5 3000000000 = some (3, 0)) ∧
    ∃ tw1 l, AddTask wheel5 3000000000 false (some "a") 42 = some tw1 ∧
      slotAt wheel5.slots 3 = some l ∧
      slotAt tw1.slots 3 =
        some (l ++ [{ delay := 3000000000, circle := 0, key := some "a", data := 42,
                      cyclic := false }]) ∧
      (∀ q, q ≠ 3 → slotAt tw1.slots q = slotAt wheel5.slots q) ∧
      tw1.slots.length = wheel5.slots.length ∧
      tw1.currentPos = wheel5.currentPos ∧
      (some "a" ≠ none → tw1.timer (some "a") = some 3 ∧
        ∀ k, k ≠ some "a" → tw1.timer k = wheel5.timer k) ∧
      ((some "a" : Option String) = none → tw1.timer = wheel5.timer) :=
  ⟨⟨by decide, by decide, by decide⟩,
   AddTask_frame wheel5 (by decide) 3000000000 false (some "a") 42 (by decide) 3 0 (by decide)⟩

/-! ## Cancellation (`removeTask`) -/

/-- C5 (code defect): two tasks with key `"a"` sit in slot 3 and the key index
maps `"a"` to 3; `RemoveTask("a")` removes only the first of them, so slot 3
still holds a task with key `"a"` (the one with payload 2), while `"a"` is gone
from the key index. -/
theorem removeTask_stops_at_first_match :
    (run wheel5 [Op.add 3000000000 false (some "a") 1,
                 Op.add 3000000000 false (some "a") 2]).1.map
        (fun tw => (slotAt tw.slots 3, tw.timer (some "a"))) =
      some (some [⟨3000000000, 0, some "a", 1, false⟩, ⟨3000000000, 0, some "a", 2, false⟩],
        some 3) ∧
    (run wheel5 [Op.add 3000000000 false (some "a") 1,
                 Op.add 3000000000 false (some "a") 2,
                 Op.remove (some "a")]).1.map
        (fun tw => (slotAt tw.slots 3, tw.timer (some "a"))) =
      some (some [⟨3000000000, 0, some "a", 2, false⟩], none) := by
  constructor <;> decide

/-! ## Cyclic tasks -/

/-- C4 (code defect): on the five-slot wheel with the cursor at 3, a cyclic
task added with delay 2s lands in slot 0.  The second tick starts its job and
then indexes `slots[5]`: the loop panics, and no later tick is handled, so the
job is started once and never again.  With the cursor at 0 the same task
lands in slot 2 and is started on ticks 2, 7, 12 and 17. -/
theorem cyclic_task_in_slot_zero_panics :
    getPositionAndCircle wheel5At3 2000000000 = some (0, 0) ∧
    (run wheel5At3 (Op.add 2000000000 true (some "c") 1 :: ticks 2)).1.isSome = false ∧
    (run wheel5At3 (Op.add 2000000000 true (some "c") 1 :: ticks 7)).2 =
      [[], [], [⟨2000000000, 0, some "c", 1, true⟩]] ∧
    (run wheel5 (Op.add 2000000000 true (some "c") 1 :: ticks 17)).2.map
        (fun log => log.map (fun t => t.data)) =
      [[], [], [1], [], [], [], [], [1], [], [], [], [], [1], [], [], [], [], [1]] := by
  refine ⟨by decide, by decide, by decide, by decide⟩

/-! ## The tick scan on a slot without cyclic tasks -/

theorem deleteKeys_none [DecidableEq κ] (l : List (Task κ δ)) :
    ∀ (m : Option κ → Option Int) (k : Option κ), m k = none → deleteKeys m l k = none := by
  induction l with
  | nil => intro m k h; simpa [deleteKeys] using h
  | cons t l ih =>
    intro m k h
    simp only [deleteKeys, List.foldl_cons]
    apply ih
    split
    · simp only [mapDelete]; split <;> simp [h]
    · exact h

theorem deleteKeys_of_mem [DecidableEq κ] (l : List (Task κ δ)) :
    ∀ (m : Option κ → Option Int) (k : Option κ), k ≠ none → (∃ t ∈ l, t.key = k) →
      deleteKeys m l k = none := by
  induction l with
  | nil => intro m k _ h; simp at h
  | cons t l ih =>
    intro m k hk h
    simp only [deleteKeys, List.foldl_cons]
    by_cases htk : t.key = k
    · apply deleteKeys_none
      subst htk
      simp [hk, mapDelete]
    · obtain ⟨u, hu, huk⟩ := h
      rcases List.mem_cons.mp hu with rfl | hu
      · exact absurd huk htk
      · exact ih _ k hk ⟨u, hu, huk⟩

theorem deleteKeys_of_not_mem [DecidableEq κ] (l : List (Task κ δ)) :
    ∀ (m : Option κ → Option Int) (k : Option κ), (k = none ∨ ∀ t ∈ l, t.key ≠ k) →
      deleteKeys m l k = m k := by
  induction l with
  | nil => intro m k _; rfl
  | cons t l ih =>
    intro m k h
    simp only [deleteKeys, List.foldl_cons]
    have h2 : k = none ∨ ∀ u ∈ l, u.key ≠ k := by
      rcases h with h | h
      · exact Or.inl h
      · exact Or.inr (fun u hu => h u (List.mem_cons_of_mem _ hu))
    have := ih (if t.key ≠ none then mapDelete m t.key else m) k h2
    simp only [deleteKeys] at this
    rw [this]
    split
    · rename_i htk
      simp only [mapDelete]
      split
      · rename_i hkk
        rcases h with h | h
        · subst hkk; exact absurd h htk
        · exact absurd hkk.symm (h t (List.mem_cons_self _ _))
      · rfl
    · rfl

theorem scanLoop_noncyclic [DecidableEq κ] (p : Int) :
    ∀ (rest : List (Task κ δ)) (tw : TimeWheel κ δ ι) (pre : List (Task κ δ)),
      (∀ t ∈ rest, t.cyclic = false) →
      scanLoop p tw pre rest =
        (some { tw with slots := setSlot tw.slots p (pre ++ kept rest)
                        timer := deleteKeys tw.timer (due rest) }, due rest) := by
  intro rest
  induction rest with
  | nil => intro tw pre _; simp [scanLoop, kept, due, deleteKeys]
  | cons t rest ih =>
    intro tw pre h
    have hr : ∀ u ∈ rest, u.cyclic = false := fun u hu => h u (List.mem_cons_of_mem _ hu)
    have ht : t.cyclic = false := h t (List.mem_cons_self _ _)
    simp only [scanLoop]
    split
    · rename_i hc
      rw [ih _ _ hr]
      simp [kept, due, hc]
    · rename_i hc
      simp only [ht, Bool.false_eq_true, if_false]
      rw [ih _ _ hr]
      have hle : t.circle ≤ 0 := not_lt.mp hc
      have hnl : ¬ 0 < t.circle := hc
      simp [kept, due, hle, hnl, deleteKeys]

theorem ticketHandle_noncyclic [DecidableEq κ] {tw : TimeWheel κ δ ι} {l : List (Task κ δ)}
    (hl : slotAt tw.slots (advance tw).currentPos = some l) (h : ∀ t ∈ l, t.cyclic = false) :
    ticketHandle tw =
      (some { advance tw with
          slots := setSlot tw.slots (advance tw).currentPos (kept l)
          timer := deleteKeys tw.timer (due l) }, due l) := by
  have hl2 : slotAt (advance tw).slots (advance tw).currentPos = some l := hl
  simp only [ticketHandle, hl2, scanAndRunTask]
  rw [scanLoop_noncyclic _ _ _ _ h]
  simp [advance]

/-- C3: when the slot `p` under the advanced cursor holds only non-cyclic
tasks (with `circle ≥ 0`), one tick leaves in `ring[p]` exactly the tasks that
had `circle > 0`, in their order, each with `circle` one less; starts the job
once for each task that had `circle = 0` and for no other task; deletes the
non-nil key of every such task from the key index and no other key; and leaves
every other slot unchanged. -/
theorem ticketHandle_scan [DecidableEq κ] (tw : TimeWheel κ δ ι) (l : List (Task κ δ))
    (hl : slotAt tw.slots (advance tw).currentPos = some l)
    (hnc : ∀ t ∈ l, t.cyclic = false) (hc : ∀ t ∈ l, 0 ≤ t.circle) :
    ∃ tw1, ticketHandle tw = (some tw1, l.filter (fun t => decide (t.circle = 0))) ∧
      tw1.currentPos = (advance tw).currentPos ∧
      slotAt tw1.slots (advance tw).currentPos =
        some ((l.filter (fun t => decide (0 < t.circle))).map
          (fun t => { t with circle := t.circle - 1 })) ∧
      (∀ q, q ≠ (advance tw).currentPos → slotAt tw1.slots q = slotAt tw.slots q) ∧
      tw1.slots.length = tw.slots.length ∧
      (∀ k, k ≠ none → (∃ t ∈ l, t.circle = 0 ∧ t.key = k) → tw1.timer k = none) ∧
      (∀ k, (k = none ∨ ∀ t ∈ l, t.circle = 0 → t.key ≠ k) → tw1.timer k = tw.timer k) := by
  have hdue : due l = l.filter (fun t => decide (t.circle = 0)) := by
    unfold due
    apply List.filter_congr
    intro t ht
    have := hc t ht
    simp only [decide_eq_decide]
    omega
  have hp0 := (slotAt_eq_some hl).1
  refine ⟨{ advance tw with
      slots := setSlot tw.slots (advance tw).currentPos (kept l)
      timer := deleteKeys tw.timer (due l) },
    hdue ▸ ticketHandle_noncyclic hl hnc, rfl, ?_, ?_, ?_, ?_, ?_⟩
  · exact slotAt_setSlot_same _ hl
  · intro q hq
    exact slotAt_setSlot_ne _ _ hp0 (Ne.symm hq)
  · simp [length_setSlot]
  · intro k hk ⟨t, ht, htc, htk⟩
    apply deleteKeys_of_mem _ _ _ hk
    exact ⟨t, by simp [due, ht, htc], htk⟩
  · intro k hk
    apply deleteKeys_of_not_mem
    rcases hk with hk | hk
    · exact Or.inl hk
    · refine Or.inr (fun t ht => ?_)
      simp only [due, List.mem_filter, decide_eq_true_eq] at ht
      exact hk t ht.1 (by have := hc t ht.1; omega)

/-- C3 witness: a tick over a slot holding a task with `circle = 1` and two
due tasks keeps the first with `circle = 0` and starts the job for the two
others, in order. -/
theorem ticketHandle_scan_witness :
    (slotAt wheelScan.slots (advance wheelScan).currentPos = some slotScan ∧
      (∀ t ∈ slotScan, t.cyclic = false) ∧ (∀ t ∈ slotScan, 0 ≤ t.circle)) ∧
    (∃ tw1, ticketHandle wheelScan =
        (some tw1, slotScan.filter (fun t => decide (t.circle = 0))) ∧
      tw1.currentPos = (advance wheelScan).currentPos ∧
      slotAt tw1.slots (advance wheelScan).currentPos =
        some ((slotScan.filter (fun t => decide (0 < t.circle))).map
          (fun t => { t with circle := t.circle - 1 })) ∧
      (∀ q, q ≠ (advance wheelScan).currentPos →
        slotAt tw1.slots q = slotAt wheelScan.slots q) ∧
      tw1.slots.length = wheelScan.slots.length ∧
      (∀ k, k ≠ none → (∃ t ∈ slotScan, t.circle = 0 ∧ t.key = k) → tw1.timer k = none) ∧
      (∀ k, (k = none ∨ ∀ t ∈ slotScan, t.circle = 0 → t.key ≠ k) →
        tw1.timer k = wheelScan.timer k)) ∧
    (ticketHandle wheelScan).2 =
      [⟨1000000000, 0, some "b", 2, false⟩, ⟨1000000000, 0, none, 3, false⟩] ∧
    (ticketHandle wheelScan).1.map (fun tw => (tw.slots, tw.timer (some "a"), tw.timer (some "b")))
      = some ([[], [⟨6000000000, 0, some "a", 1, false⟩], [], [], []], some 1, none) :=
  ⟨⟨by decide, by decide, by decide⟩,
   ticketHandle_scan wheelScan slotScan (by decide) (by decide) (by decide),
   by decide, by decide⟩

/-! ## Counting resident tasks -/

theorem removeLoop_of_mem [DecidableEq κ] (key : Option κ) (timer : Option κ → Option Int) :
    ∀ (rest pre : List (Task κ δ)), (∃ t ∈ rest, t.key = key) →
      removeLoop key timer pre rest =
        (mapDelete timer key, pre ++ rest.eraseP (fun t => decide (t.key = key))) := by
  intro rest
  induction rest with
  | nil => intro pre h; simp at h
  | cons t rest ih =>
    intro pre h
    simp only [removeLoop]
    split
    · rename_i htk
      simp [List.eraseP_cons, htk]
    · rename_i htk
      obtain ⟨u, hu, huk⟩ := h
      rcases List.mem_cons.mp hu with rfl | hu
      · exact absurd huk htk
      · rw [ih _ ⟨u, hu, huk⟩]
        simp [List.eraseP_cons, htk]

theorem removeLoop_of_not_mem [DecidableEq κ] (key : Option κ)
    (timer : Option κ → Option Int) :
    ∀ (rest pre : List (Task κ δ)), (∀ t ∈ rest, t.key ≠ key) →
      removeLoop key timer pre rest = (timer, pre ++ rest) := by
  intro rest
  induction rest with
  | nil => intro pre _; simp [removeLoop]
  | cons t rest ih =>
    intro pre h
    simp only [removeLoop, if_neg (h t (List.mem_cons_self _ _))]
    rw [ih _ (fun u hu => h u (List.mem_cons_of_mem _ hu))]
    simp

theorem sum_length_set (slots : List (List (Task κ δ))) :
    ∀ (n : Nat) (l l2 : List (Task κ δ)), slots[n]? = some l →
      ((slots.set n l2).map List.length).sum + l.length =
        (slots.map List.length).sum + l2.length := by
  induction slots with
  | nil => intro n l l2 h; simp at h
  | cons s slots ih =>
    intro n l l2 h
    cases n with
    | zero =>
      simp only [List.getElem?_cons_zero, Option.some.injEq] at h
      subst h
      simp only [List.set_cons_zero, List.map_cons, List.sum_cons]
      omega
    | succ n =>
      simp only [List.getElem?_cons_succ] at h
      have := ih n l l2 h
      simp only [List.set_cons_succ, List.map_cons, List.sum_cons]
      omega

theorem total_setSlot (tw : TimeWheel κ δ ι) {i : Int} {l : List (Task κ δ)}
    (l2 : List (Task κ δ)) (tm : Option κ → Option Int) (h : slotAt tw.slots i = some l) :
    total { tw with slots := setSlot tw.slots i l2, timer := tm } + l.length =
      total tw + l2.length := by
  obtain ⟨_, _, hget⟩ := slotAt_eq_some h
  exact sum_length_set tw.slots i.toNat l l2 hget

theorem AddTask_KeyInv [DecidableEq κ] {tw : TimeWheel κ δ ι} (hw : WF tw)
    (hi : Second ≤ tw.interval) (hk : KeyInv tw) {delay : Int} (hd : 0 ≤ delay)
    (cyclic : Bool) (key : Option κ) (data : δ) :
    ∃ tw1, AddTask tw delay cyclic key data = some tw1 ∧ KeyInv tw1 ∧
      total tw1 = total tw + 1 := by
  obtain ⟨p, c, hpc⟩ : ∃ p c, getPositionAndCircle tw delay = some (p, c) :=
    ⟨_, _, getPositionAndCircle_eq tw delay hi hw.2.1 hw.2.2.2.1 hd⟩
  obtain ⟨hp0, hp1, _⟩ := getPositionAndCircle_range hw hd hpc
  obtain ⟨l, hl⟩ := slotAt_isSome tw.slots hp0 (by rw [hw.2.2.1]; exact hp1)
  have hadd : AddTask tw delay cyclic key data = some { tw with
      slots := setSlot tw.slots p (l ++ [⟨delay, c, key, data, cyclic⟩])
      timer := if key ≠ none then mapSet tw.timer key p else tw.timer } := by
    simp only [AddTask, if_neg (not_lt.mpr hd)]
    exact addTask_eq ⟨delay, 0, key, data, cyclic⟩ hpc hl
  refine ⟨_, hadd, ⟨?_, ?_⟩, ?_⟩
  · by_cases hkey : key = none
    · simpa [hkey] using hk.1
    · simp only [ne_eq, hkey, not_false_eq_true, if_true, mapSet]
      rw [if_neg (Ne.symm hkey)]
      exact hk.1
  · intro k q hkq
    have hcase : (k = key ∧ q = p) ∨ tw.timer k = some q := by
      by_cases hkey : key = none
      · right; simpa [hkey] using hkq
      · simp only [ne_eq, hkey, not_false_eq_true, if_true, mapSet_apply] at hkq
        split at hkq
        · rename_i hkk
          simp only [Option.some.injEq] at hkq
          exact Or.inl ⟨hkk, hkq.symm⟩
        · exact Or.inr hkq
    rcases hcase with ⟨rfl, rfl⟩ | hold
    · exact ⟨_, slotAt_setSlot_same _ hl, _,
        List.mem_append_right _ (List.mem_singleton_self _), rfl⟩
    · obtain ⟨l2, hl2, t, ht, htk⟩ := hk.2 k q hold
      by_cases hq : q = p
      · subst hq
        rw [hl] at hl2
        cases hl2
        exact ⟨_, slotAt_setSlot_same _ hl, t, List.mem_append_left _ ht, htk⟩
      · refine ⟨l2, ?_, t, ht, htk⟩
        rw [slotAt_setSlot_ne _ _ hp0 (Ne.symm hq)]
        exact hl2
  · have := total_setSlot tw (l ++ [⟨delay, c, key, data, cyclic⟩])
      (if key ≠ none then mapSet tw.timer key p else tw.timer) hl
    simp only [List.length_append, List.length_singleton] at this
    omega

theorem RemoveTask_KeyInv [DecidableEq κ] {tw : TimeWheel κ δ ι} (hk : KeyInv tw)
    (key : Option κ) :
    ∃ tw1, RemoveTask tw key = some tw1 ∧ KeyInv tw1 ∧
      total tw1 + (if (tw.timer key).isSome then 1 else 0) = total tw := by
  by_cases hkey : key = none
  · subst hkey
    exact ⟨tw, by simp [RemoveTask], hk, by simp [hk.1]⟩
  · simp only [RemoveTask, if_neg hkey, removeTask]
    cases hpos : tw.timer key with
    | none => exact ⟨tw, rfl, hk, by simp⟩
    | some p =>
      obtain ⟨l, hl, t, ht, htk⟩ := hk.2 key p hpos
      simp only [hl, removeLoop_of_mem key tw.timer l [] ⟨t, ht, htk⟩, List.nil_append]
      have hp0 := (slotAt_eq_some hl).1
      refine ⟨_, rfl, ⟨?_, ?_⟩, ?_⟩
      · simp only [mapDelete]
        rw [if_neg (Ne.symm hkey)]
        exact hk.1
      · intro k q hkq
        simp only [mapDelete] at hkq
        split at hkq
        · cases hkq
        · rename_i hne
          obtain ⟨l2, hl2, u, hu, huk⟩ := hk.2 k q hkq
          by_cases hq : q = p
          · subst hq
            rw [hl] at hl2
            cases hl2
            refine ⟨_, slotAt_setSlot_same _ hl, u, ?_, huk⟩
            rw [List.mem_eraseP_of_neg (by simp [huk, hne])]
            exact hu
          · refine ⟨l2, ?_, u, hu, huk⟩
            rw [slotAt_setSlot_ne _ _ hp0 (Ne.symm hq)]
            exact hl2
      · have := total_setSlot tw (l.eraseP (fun t => decide (t.key = key)))
          (mapDelete tw.timer key) hl
        have hlen := List.length_eraseP_of_mem (p := fun t => decide (t.key = key)) ht
          (by simp [htk])
        have hpos1 : 0 < l.length := List.length_pos_of_mem ht
        simp only [Option.isSome_some, if_true]
        omega

theorem step_count [DecidableEq κ] {tw : TimeWheel κ δ ι} (hw : WF tw)
    (hi : Second ≤ tw.interval) (hk : KeyInv tw) (op : Op κ δ)
    (hop : isAddOrRemove op = true) :
    ∃ tw1, step tw op = (some tw1, []) ∧ WF tw1 ∧ Second ≤ tw1.interval ∧ KeyInv tw1 ∧
      total tw1 + successfulRemovals tw [op] = total tw + addCount [op] := by
  cases op with
  | add delay cyclic key data =>
    simp only [isAddOrRemove, decide_eq_true_eq] at hop
    obtain ⟨tw1, h1, hk1, ht⟩ := AddTask_KeyInv hw hi hk hop cyclic key data
    have hs : step tw (Op.add delay cyclic key data) = (some tw1, []) := by
      simp only [step, h1]
    refine ⟨tw1, hs, step_WF hw hs, ?_, hk1, ?_⟩
    · rw [(step_fields hs).2.2.1]; exact hi
    · simp only [successfulRemovals, hs, addCount]
      omega
  | remove key =>
    obtain ⟨tw1, h1, hk1, ht⟩ := RemoveTask_KeyInv hk key
    have hs : step tw (Op.remove key) = (some tw1, []) := by
      simp only [step, h1]
    refine ⟨tw1, hs, step_WF hw hs, ?_, hk1, ?_⟩
    · rw [(step_fields hs).2.2.1]; exact hi
    · simp only [successfulRemovals, hs, addCount]
      omega
  | tick => simp [isAddOrRemove] at hop

theorem run_count [DecidableEq κ] : ∀ (ops : List (Op κ δ)) (tw : TimeWheel κ δ ι),
    WF tw → Second ≤ tw.interval → KeyInv tw → (∀ op ∈ ops, isAddOrRemove op = true) →
    ∃ tw1, (run tw ops).1 = some tw1 ∧ WF tw1 ∧ Second ≤ tw1.interval ∧ KeyInv tw1 ∧
      total tw1 + successfulRemovals tw ops = total tw + addCount ops := by
  intro ops
  induction ops with
  | nil =>
    intro tw hw hi hk _
    exact ⟨tw, rfl, hw, hi, hk, rfl⟩
  | cons op ops ih =>
    intro tw hw hi hk hops
    obtain ⟨tw1, hs, hw1, hi1, hk1, ht1⟩ :=
      step_count hw hi hk op (hops op (List.mem_cons_self _ _))
    obtain ⟨tw2, hr, hw2, hi2, hk2, ht2⟩ :=
      ih tw1 hw1 hi1 hk1 (fun o ho => hops o (List.mem_cons_of_mem _ ho))
    refine ⟨tw2, ?_, hw2, hi2, hk2, ?_⟩
    · simp only [run, hs, hr]
    · have e1 : successfulRemovals tw (op :: ops) =
          successfulRemovals tw [op] + successfulRemovals tw1 ops := by
        simp only [successfulRemovals, hs, Nat.add_zero]
      have e2 : addCount (op :: ops) = addCount [op] + addCount ops := by
        cases op <;> simp [addCount]
        omega
      omega

theorem New_fresh {interval slotNum : Int} {job : Option ι} {tw : TimeWheel κ δ ι}
    (h : New interval slotNum job = some tw) :
    KeyInv tw ∧ total tw = 0 ∧ tw.interval = interval := by
  obtain ⟨_, _, _, rfl⟩ := New_eq_some h
  refine ⟨⟨rfl, fun k p h => by cases h⟩, ?_, rfl⟩
  simp [total]

/-- C8: from a wheel built by `New` with an interval that is a whole number
of seconds, the loop handles every sequence of `AddTask` events with
`delay ≥ 0` and `RemoveTask` events without a panic, and afterwards the number
of resident tasks plus the number of successful removals equals the number of
`AddTask` events; in the state reached, a removal whose key is in the key
index takes exactly one task out of the ring. -/
theorem count_conservation [DecidableEq κ] (interval slotNum : Int) (job : Option ι)
    (tw0 : TimeWheel κ δ ι) (ops : List (Op κ δ))
    (h0 : New interval slotNum job = some tw0) (hs : Second ∣ interval)
    (hops : ∀ op ∈ ops, isAddOrRemove op = true) :
    ∃ tw1, (run tw0 ops).1 = some tw1 ∧
      total tw1 + successfulRemovals tw0 ops = addCount ops ∧
      ∀ key, (tw1.timer key).isSome = true →
        ∃ tw2, RemoveTask tw1 key = some tw2 ∧ total tw2 + 1 = total tw1 := by
  have hw := New_WF h0
  obtain ⟨hk, h00, hint⟩ := New_fresh h0
  have hi1 : Second ≤ tw0.interval := by
    rw [hint]; exact Int.le_of_dvd (New_eq_some h0).1 hs
  obtain ⟨tw1, hr, hw1, _, hk1, ht⟩ := run_count ops _ hw hi1 hk hops
  refine ⟨tw1, hr, by omega, ?_⟩
  intro key hkey
  obtain ⟨tw2, h2, _, ht2⟩ := RemoveTask_KeyInv hk1 key
  refine ⟨tw2, h2, ?_⟩
  simp only [hkey, if_true] at ht2
  exact ht2

/-- C8 witness: three `AddTask` events and two `RemoveTask` events on the
five-slot wheel, one removal with a key that is in the key index and one with a
key that is not, leave two resident tasks. -/
theorem count_conservation_witness :
    (New Second 5 (some ()) = some wheel5 ∧ Second ∣ Second ∧
      ∀ op ∈ [Op.add 3000000000 false (some "a") 1, Op.add 4000000000 false (some "b") 2,
        Op.remove (some "a"), Op.remove (some "z"), Op.add 0 true none 3],
        isAddOrRemove op = true) ∧
    (∃ tw1, (run wheel5 [Op.add 3000000000 false (some "a") 1,
        Op.add 4000000000 false (some "b") 2, Op.remove (some "a"), Op.remove (some "z"),
        Op.add 0 true none 3]).1 = some tw1 ∧
      total tw1 + successfulRemovals wheel5 [Op.add 3000000000 false (some "a") 1,
        Op.add 4000000000 false (some "b") 2, Op.remove (some "a"), Op.remove (some "z"),
        Op.add 0 true none 3] = addCount [Op.add 3000000000 false (some "a") 1,
        Op.add 4000000000 false (some "b") 2, Op.remove (some "a"), Op.remove (some "z"),
        Op.add 0 true none (3 : Nat)] ∧
      ∀ key, (tw1.timer key).isSome = true →
        ∃ tw2, RemoveTask tw1 key = some tw2 ∧ total tw2 + 1 = total tw1) ∧
    (run wheel5 [Op.add 3000000000 false (some "a") 1, Op.add 4000000000 false (some "b") 2,
        Op.remove (some "a"), Op.remove (some "z"), Op.add 0 true none 3]).1.map total
      = some 2 ∧
    successfulRemovals wheel5 [Op.add 3000000000 false (some "a") 1,
        Op.add 4000000000 false (some "b") 2, Op.remove (some "a"), Op.remove (some "z"),
        Op.add 0 true none 3] = 1 :=
  ⟨⟨rfl, dvd_refl _, by decide⟩,
   count_conservation Second 5 (some ()) wheel5 _ rfl (dvd_refl _) (by decide),
   by decide, by decide⟩

/-! ## Tracking the tasks of one key -/

theorem setSlot_setSlot (slots : List (List (Task κ δ))) (p : Int) (a b : List (Task κ δ)) :
    setSlot (setSlot slots p a) p b = setSlot slots p b := by
  simp [setSlot, List.set_set]

theorem setSlot_self {slots : List (List (Task κ δ))} {p : Int} {l : List (Task κ δ)}
    (h : slotAt slots p = some l) : setSlot slots p l = slots := by
  obtain ⟨_, hlt, hget⟩ := slotAt_eq_some h
  unfold setSlot
  apply List.ext_getElem?
  intro n
  rw [List.getElem?_set]
  split
  · rename_i hn
    subst hn
    simp [hlt, hget]
  · rfl

theorem slotAt_setSlot_cases {slots : List (List (Task κ δ))} {p i : Int}
    {l l2 m : List (Task κ δ)} (h : slotAt slots p = some l)
    (hm : slotAt (setSlot slots p l2) i = some m) :
    (i = p ∧ m = l2) ∨ (i ≠ p ∧ slotAt slots i = some m) := by
  by_cases hip : i = p
  · subst hip
    rw [slotAt_setSlot_same _ h] at hm
    exact Or.inl ⟨rfl, (Option.some.inj hm).symm⟩
  · rw [slotAt_setSlot_ne _ _ (slotAt_eq_some h).1 (Ne.symm hip)] at hm
    exact Or.inr ⟨hip, hm⟩

theorem NoKeyAt_setSlot [DecidableEq κ] {k : Option κ} {slots : List (List (Task κ δ))}
    {p : Int} {l : List (Task κ δ)} (hJ : NoKeyAt k slots) (h : slotAt slots p = some l)
    (l2 : List (Task κ δ)) (h2 : cnt k l2 = 0) : NoKeyAt k (setSlot slots p l2) := by
  intro i m hm
  rcases slotAt_setSlot_cases h hm with ⟨_, rfl⟩ | ⟨_, hm2⟩
  · exact h2
  · exact hJ i m hm2

theorem OneKeyAt_setSlot [DecidableEq κ] {k : Option κ} {slots : List (List (Task κ δ))}
    {tm : Option κ → Option Int} {p : Int} {l : List (Task κ δ)}
    (hJ : OneKeyAt k slots tm) (h : slotAt slots p = some l) (l2 : List (Task κ δ))
    (tm2 : Option κ → Option Int) (h1 : cnt k l2 ≤ 1)
    (h2 : (cnt k l2 = cnt k l ∧ tm2 k = tm k) ∨
      (0 < cnt k l ∧ (cnt k l2 = 0 ∨ tm2 k = some p))) :
    OneKeyAt k (setSlot slots p l2) tm2 := by
  intro i m hm
  have hp := hJ p l h
  rcases slotAt_setSlot_cases h hm with ⟨rfl, rfl⟩ | ⟨hip, hm2⟩
  · refine ⟨h1, fun hpos => ?_⟩
    rcases h2 with ⟨hc, ht⟩ | ⟨hc, hz | ht⟩
    · rw [ht]; exact hp.2 (by omega)
    · omega
    · exact ht
  · have hi := hJ i m hm2
    refine ⟨hi.1, fun hpos => ?_⟩
    rcases h2 with ⟨_, ht⟩ | ⟨hc, _⟩
    · rw [ht]; exact hi.2 hpos
    · have e1 := hp.2 hc
      have e2 := hi.2 hpos
      rw [e1] at e2
      exact absurd (Option.some.inj e2).symm hip

theorem NoKeyAt_OneKeyAt [DecidableEq κ] {k : Option κ} {slots : List (List (Task κ δ))}
    (tm : Option κ → Option Int) (h : NoKeyAt k slots) : OneKeyAt k slots tm := by
  intro i l hl
  have := h i l hl
  exact ⟨by omega, fun hpos => by omega⟩

theorem cnt_append [DecidableEq κ] (k : Option κ) (a b : List (Task κ δ)) :
    cnt k (a ++ b) = cnt k a + cnt k b := by
  simp [cnt, List.countP_append]

theorem cnt_cons [DecidableEq κ] (k : Option κ) (t : Task κ δ) (l : List (Task κ δ)) :
    cnt k (t :: l) = cnt k l + (if t.key = k then 1 else 0) := by
  simp [cnt, List.countP_cons]

theorem cnt_nil [DecidableEq κ] (k : Option κ) : cnt k ([] : List (Task κ δ)) = 0 := rfl

theorem cnt_eq_zero [DecidableEq κ] {k : Option κ} {l : List (Task κ δ)}
    (h : cnt k l = 0) : ∀ t ∈ l, t.key ≠ k := by
  intro t ht
  simp only [cnt, List.countP_eq_zero, decide_eq_true_eq] at h
  exact h t ht

theorem cnt_eraseP_other [DecidableEq κ] {k key : Option κ} (hk : key ≠ k) :
    ∀ l : List (Task κ δ), cnt k (l.eraseP (fun t => decide (t.key = key))) = cnt k l := by
  intro l
  induction l with
  | nil => rfl
  | cons t l ih =>
    by_cases htk : t.key = key
    · have : t.key ≠ k := fun h => hk (htk ▸ h)
      simp [List.eraseP_cons, htk, cnt_cons, hk]
    · simp [List.eraseP_cons, htk, cnt_cons, ih]

theorem cnt_eraseP_self [DecidableEq κ] (k : Option κ) :
    ∀ l : List (Task κ δ), cnt k (l.eraseP (fun t => decide (t.key = k))) = cnt k l - 1 := by
  intro l
  induction l with
  | nil => rfl
  | cons t l ih =>
    by_cases htk : t.key = k
    · simp [List.eraseP_cons, htk, cnt_cons]
    · have e : (t :: l).eraseP (fun t => decide (t.key = k)) =
          t :: l.eraseP (fun t => decide (t.key = k)) := by
        simp [List.eraseP_cons, htk]
      rw [e, cnt_cons, cnt_cons, ih]
      simp [htk]

theorem PosOK_advance {tw : TimeWheel κ δ ι} (hw : WF tw) :
    PosOK (advance tw) (advance tw).currentPos := by
  obtain ⟨_, hn, hl, h0, h1⟩ := hw
  have hr := advance_currentPos_range tw h0 h1
  unfold PosOK getPreviousTickIndex
  split
  · right
    have hs : (advance tw).slots = tw.slots := rfl
    have hsn : (advance tw).slotNum = tw.slotNum := rfl
    rw [hs, hsn]
    unfold slotAt
    rw [if_pos (by omega)]
    apply List.getElem?_eq_none
    omega
  · left; omega

theorem delete_other [DecidableEq κ] {k key : Option κ} (tm : Option κ → Option Int)
    (h : key ≠ k) : (if key ≠ none then mapDelete tm key else tm) k = tm k := by
  split
  · rw [mapDelete_apply, if_neg (Ne.symm h)]
  · rfl

theorem set_other [DecidableEq κ] {k key : Option κ} (tm : Option κ → Option Int) (v : Int)
    (h : key ≠ k) : (if key ≠ none then mapSet tm key v else tm) k = tm k := by
  split
  · rw [mapSet_apply, if_neg (Ne.symm h)]
  · rfl

theorem set_self [DecidableEq κ] {k : Option κ} (tm : Option κ → Option Int) (v : Int)
    (h : k ≠ none) : (if k ≠ none then mapSet tm k v else tm) k = some v := by
  rw [if_pos h, mapSet_apply, if_pos rfl]

theorem scanLoop_OneKey [DecidableEq κ] {k : Option κ} (hk : k ≠ none) (p : Int) :
    ∀ (rest : List (Task κ δ)) (tw : TimeWheel κ δ ι) (pre l0 : List (Task κ δ)),
      PosOK tw p → slotAt tw.slots p = some l0 →
      OneKeyAt k (setSlot tw.slots p (pre ++ rest)) tw.timer →
      ∀ {tw1 : TimeWheel κ δ ι} {log : List (Task κ δ)},
        scanLoop p tw pre rest = (some tw1, log) → OneKeyAt k tw1.slots tw1.timer := by
  intro rest
  induction rest with
  | nil =>
    intro tw pre l0 _ _ hJ tw1 log h
    simp only [scanLoop, Prod.mk.injEq, Option.some.injEq] at h
    obtain ⟨rfl, _⟩ := h
    simpa using hJ
  | cons t rest ih =>
    intro tw pre l0 hpos hl hJ tw1 log h
    have hS : slotAt (setSlot tw.slots p (pre ++ t :: rest)) p = some (pre ++ t :: rest) :=
      slotAt_setSlot_same _ hl
    have hle := (hJ p _ hS).1
    have next : ∀ (tm2 : Option κ → Option Int) (pre2 lg : List (Task κ δ)),
        cnt k (pre2 ++ rest) ≤ 1 →
        ((cnt k (pre2 ++ rest) = cnt k (pre ++ t :: rest) ∧ tm2 k = tw.timer k) ∨
          (0 < cnt k (pre ++ t :: rest) ∧ (cnt k (pre2 ++ rest) = 0 ∨ tm2 k = some p))) →
        scanLoop p { tw with timer := tm2 } pre2 rest = (some tw1, lg) →
        OneKeyAt k tw1.slots tw1.timer := by
      intro tm2 pre2 lg h1 h2 hs
      have := OneKeyAt_setSlot hJ hS (pre2 ++ rest) tm2 h1 h2
      rw [setSlot_setSlot] at this
      exact ih { tw with timer := tm2 } pre2 l0 hpos hl this hs
    simp only [cnt_append, cnt_cons, cnt_nil, List.cons_append] at hle next
    simp only [scanLoop] at h
    split at h
    · exact next tw.timer _ _ (by simp only [cnt_append, cnt_cons, cnt_nil]; omega)
        (Or.inl ⟨by simp only [cnt_append, cnt_cons, cnt_nil]; omega, rfl⟩) h
    · split at h
      · split at h
        · rename_i hpp
          simp only [Prod.mk.injEq] at h
          refine next _ (t :: pre) _ (by simp only [cnt_append, cnt_cons]; omega) ?_
            (Prod.ext h.1 rfl)
          by_cases htk : t.key = k
          · right
            refine ⟨by simp only [htk, if_true]; omega, Or.inr ?_⟩
            rw [htk, set_self _ _ hk, hpp]
          · left
            refine ⟨by simp only [cnt_append, cnt_cons]; omega, ?_⟩
            rw [set_other _ _ htk, delete_other _ htk]
        · rename_i hpp
          split at h
          · simp at h
          · rename_i q hq
            rcases hpos with hpos | hpos
            · exact absurd hpos hpp
            · rw [hpos] at hq; cases hq
      · simp only [Prod.mk.injEq] at h
        refine next _ pre _ (by omega) ?_ (Prod.ext h.1 rfl)
        by_cases htk : t.key = k
        · right
          simp only [htk, if_true] at hle ⊢
          exact ⟨by omega, Or.inl (by omega)⟩
        · left
          simp only [htk, if_false]
          exact ⟨by omega, delete_other _ htk⟩

theorem scanLoop_NoKey [DecidableEq κ] {k : Option κ} (p : Int) :
    ∀ (rest : List (Task κ δ)) (tw : TimeWheel κ δ ι) (pre l0 : List (Task κ δ)),
      PosOK tw p → slotAt tw.slots p = some l0 →
      NoKeyAt k (setSlot tw.slots p (pre ++ rest)) →
      ∀ {r : Option (TimeWheel κ δ ι)} {log : List (Task κ δ)},
        scanLoop p tw pre rest = (r, log) →
          (∀ t ∈ log, t.key ≠ k) ∧ ∀ tw1, r = some tw1 → NoKeyAt k tw1.slots := by
  intro rest
  induction rest with
  | nil =>
    intro tw pre l0 _ _ hJ r log h
    simp only [scanLoop, Prod.mk.injEq] at h
    obtain ⟨rfl, rfl⟩ := h
    refine ⟨by simp, fun tw1 h1 => ?_⟩
    simp only [Option.some.injEq] at h1
    subst h1
    simpa using hJ
  | cons t rest ih =>
    intro tw pre l0 hpos hl hJ r log h
    have hS : slotAt (setSlot tw.slots p (pre ++ t :: rest)) p = some (pre ++ t :: rest) :=
      slotAt_setSlot_same _ hl
    have hz := hJ p _ hS
    simp only [cnt_append, cnt_cons] at hz
    have htk : t.key ≠ k := by
      intro htk
      simp only [htk, if_true] at hz
      omega
    simp only [htk, if_false] at hz
    have next : ∀ (tm2 : Option κ → Option Int) (pre2 : List (Task κ δ))
        (r2 : Option (TimeWheel κ δ ι)) (lg : List (Task κ δ)), cnt k pre2 = 0 →
        scanLoop p { tw with timer := tm2 } pre2 rest = (r2, lg) →
        (∀ u ∈ lg, u.key ≠ k) ∧ ∀ tw1, r2 = some tw1 → NoKeyAt k tw1.slots := by
      intro tm2 pre2 r2 lg h2 hs
      have := NoKeyAt_setSlot hJ hS (pre2 ++ rest) (by simp only [cnt_append]; omega)
      rw [setSlot_setSlot] at this
      exact ih { tw with timer := tm2 } pre2 l0 hpos hl this hs
    have hcons : ∀ (r2 : Option (TimeWheel κ δ ι)) (lg : List (Task κ δ)),
        ((∀ u ∈ lg, u.key ≠ k) ∧ ∀ tw1, r2 = some tw1 → NoKeyAt k tw1.slots) →
        (∀ u ∈ t :: lg, u.key ≠ k) ∧ ∀ tw1, r2 = some tw1 → NoKeyAt k tw1.slots := by
      intro r2 lg hh
      refine ⟨fun u hu => ?_, hh.2⟩
      rcases List.mem_cons.mp hu with rfl | hu
      · exact htk
      · exact hh.1 u hu
    simp only [scanLoop] at h
    split at h
    · exact next tw.timer _ _ _
        (by simp only [cnt_append, cnt_cons, cnt_nil, htk, if_false]; omega) h
    · split at h
      · split at h
        · simp only [Prod.mk.injEq] at h
          obtain ⟨rfl, rfl⟩ := h
          exact hcons _ _ (next _ (t :: pre) _ _
            (by simp only [cnt_cons, htk, if_false]; omega) rfl)
        · rename_i hpp
          split at h
          · simp only [Prod.mk.injEq] at h
            obtain ⟨rfl, rfl⟩ := h
            exact hcons none [] ⟨by simp, fun tw1 h1 => by cases h1⟩
          · rename_i q hq
            rcases hpos with hpos | hpos
            · exact absurd hpos hpp
            · rw [hpos] at hq; cases hq
      · simp only [Prod.mk.injEq] at h
        obtain ⟨rfl, rfl⟩ := h
        exact hcons _ _ (next _ pre _ _ (by omega) rfl)

theorem ticketHandle_OneKey [DecidableEq κ] {k : Option κ} (hk : k ≠ none)
    {tw tw1 : TimeWheel κ δ ι} {log : List (Task κ δ)} (hw : WF tw)
    (hJ : OneKeyAt k tw.slots tw.timer) (h : ticketHandle tw = (some tw1, log)) :
    OneKeyAt k tw1.slots tw1.timer := by
  simp only [ticketHandle] at h
  split at h
  · simp at h
  · rename_i l hl
    have hJ2 : OneKeyAt k (setSlot (advance tw).slots (advance tw).currentPos ([] ++ l))
        (advance tw).timer := by
      rw [List.nil_append, setSlot_self hl]; exact hJ
    exact scanLoop_OneKey hk _ l (advance tw) [] l (PosOK_advance hw) hl hJ2 h

theorem ticketHandle_NoKey [DecidableEq κ] {k : Option κ}
    {tw : TimeWheel κ δ ι} {r : Option (TimeWheel κ δ ι)} {log : List (Task κ δ)} (hw : WF tw)
    (hJ : NoKeyAt k tw.slots) (h : ticketHandle tw = (r, log)) :
    (∀ t ∈ log, t.key ≠ k) ∧ ∀ tw1, r = some tw1 → NoKeyAt k tw1.slots := by
  simp only [ticketHandle] at h
  split at h
  · simp only [Prod.mk.injEq] at h
    obtain ⟨rfl, rfl⟩ := h
    exact ⟨by simp, fun tw1 h1 => by cases h1⟩
  · rename_i l hl
    have hJ2 : NoKeyAt k (setSlot (advance tw).slots (advance tw).currentPos ([] ++ l)) := by
      rw [List.nil_append, setSlot_self hl]; exact hJ
    exact scanLoop_NoKey _ l (advance tw) [] l (PosOK_advance hw) hl hJ2 h

theorem AddTask_keys [DecidableEq κ] {k : Option κ} (hk : k ≠ none)
    {tw tw1 : TimeWheel κ δ ι} {delay : Int} {cyclic : Bool} {key : Option κ} {data : δ}
    (h : AddTask tw delay cyclic key data = some tw1) :
    (key ≠ k → NoKeyAt k tw.slots → NoKeyAt k tw1.slots) ∧
    (key ≠ k → OneKeyAt k tw.slots tw.timer → OneKeyAt k tw1.slots tw1.timer) ∧
    (NoKeyAt k tw.slots → OneKeyAt k tw1.slots tw1.timer) := by
  simp only [AddTask] at h
  split at h
  · simp only [Option.some.injEq] at h
    subst h
    exact ⟨fun _ h => h, fun _ h => h, fun h => NoKeyAt_OneKeyAt _ h⟩
  · simp only [addTask] at h
    split at h
    · cases h
    · rename_i p c hpc
      split at h
      · cases h
      · rename_i l hl
        simp only [Option.some.injEq] at h
        subst h
        refine ⟨fun hne hJ => ?_, fun hne hJ => ?_, fun hJ => ?_⟩
        · refine NoKeyAt_setSlot hJ hl _ ?_
          have := hJ p l hl
          simp only [cnt_append, cnt_cons, cnt_nil, hne, if_false]
          omega
        · have hc := (hJ p l hl).1
          refine OneKeyAt_setSlot hJ hl _ _ ?_ (Or.inl ⟨?_, set_other _ _ hne⟩)
          · simp only [cnt_append, cnt_cons, cnt_nil, hne, if_false]
            omega
          · simp only [cnt_append, cnt_cons, cnt_nil, hne, if_false]
            omega
        · by_cases hne : key = k
          · subst hne
            intro i m hm
            rcases slotAt_setSlot_cases hl hm with ⟨rfl, rfl⟩ | ⟨_, hm2⟩
            · have := hJ i l hl
              refine ⟨?_, fun _ => set_self _ _ hk⟩
              simp only [cnt_append, cnt_cons, cnt_nil, if_true]
              omega
            · have := hJ i m hm2
              exact ⟨by omega, fun hpos => by omega⟩
          · refine NoKeyAt_OneKeyAt _ (NoKeyAt_setSlot hJ hl _ ?_)
            have := hJ p l hl
            simp only [cnt_append, cnt_cons, cnt_nil, hne, if_false]
            omega

theorem RemoveTask_keys [DecidableEq κ] {k : Option κ} (hk : k ≠ none)
    {tw tw1 : TimeWheel κ δ ι} {key : Option κ} (h : RemoveTask tw key = some tw1) :
    (NoKeyAt k tw.slots → NoKeyAt k tw1.slots) ∧
    (key ≠ k → OneKeyAt k tw.slots tw.timer → OneKeyAt k tw1.slots tw1.timer) ∧
    (key = k → OneKeyAt k tw.slots tw.timer → NoKeyAt k tw1.slots) := by
  have hnone : tw.timer k = none → OneKeyAt k tw.slots tw.timer → NoKeyAt k tw.slots := by
    intro hn hJ i m hm
    have := hJ i m hm
    by_contra hc
    have := this.2 (by omega)
    rw [hn] at this
    cases this
  simp only [RemoveTask] at h
  split at h
  · simp only [Option.some.injEq] at h
    subst h
    rename_i hkey
    exact ⟨fun h => h, fun _ h => h, fun hkk _ => absurd (hkk ▸ hkey) hk⟩
  · simp only [removeTask] at h
    split at h
    · simp only [Option.some.injEq] at h
      subst h
      rename_i htm
      exact ⟨fun h => h, fun _ h => h, fun hkk hJ => hnone (hkk ▸ htm) hJ⟩
    · rename_i position htm
      split at h
      · cases h
      · rename_i l hl
        simp only [Option.some.injEq] at h
        subst h
        have hothers : key = k → OneKeyAt k tw.slots tw.timer →
            ∀ i m, i ≠ position → slotAt tw.slots i = some m → cnt k m = 0 := by
          intro hkk hJ i m hi hm
          have := hJ i m hm
          by_contra hc
          have := this.2 (by omega)
          rw [← hkk, htm] at this
          exact hi (Option.some.inj this).symm
        by_cases hex : ∃ t ∈ l, t.key = key
        · rw [removeLoop_of_mem key tw.timer l [] hex]
          simp only [List.nil_append]
          refine ⟨fun hJ => ?_, fun hne hJ => ?_, fun hkk hJ => ?_⟩
          · refine NoKeyAt_setSlot hJ hl _ ?_
            have := hJ position l hl
            by_cases hkk : key = k
            · rw [hkk, cnt_eraseP_self]; omega
            · rw [cnt_eraseP_other hkk]; exact this
          · have := (hJ position l hl).1
            refine OneKeyAt_setSlot hJ hl _ _ ?_ (Or.inl ⟨cnt_eraseP_other hne l, ?_⟩)
            · rw [cnt_eraseP_other hne]; exact this
            · rw [mapDelete_apply, if_neg (Ne.symm hne)]
          · intro i m hm
            rcases slotAt_setSlot_cases hl hm with ⟨_, rfl⟩ | ⟨hi, hm2⟩
            · have := (hJ position l hl).1
              rw [hkk, cnt_eraseP_self]; omega
            · exact hothers hkk hJ i m hi hm2
        · have hnot : ∀ t ∈ l, t.key ≠ key := fun t ht htk => hex ⟨t, ht, htk⟩
          rw [removeLoop_of_not_mem key tw.timer l [] hnot]
          simp only [List.nil_append, setSlot_self hl]
          refine ⟨fun hJ => hJ, fun _ hJ => hJ, fun hkk hJ => ?_⟩
          intro i m hm
          by_cases hi : i = position
          · subst hi
            rw [hl] at hm
            cases hm
            by_contra hc
            have hpos : 0 < cnt k l := by omega
            simp only [cnt, List.countP_pos_iff, decide_eq_true_eq] at hpos
            obtain ⟨t, ht, htk⟩ := hpos
            exact hnot t ht (htk.trans hkk.symm)
          · exact hothers hkk hJ i m hi hm

theorem step_keys [DecidableEq κ] {k : Option κ} (hk : k ≠ none) {tw : TimeWheel κ δ ι}
    (hw : WF tw) {op : Op κ δ} {r : Option (TimeWheel κ δ ι)} {log : List (Task κ δ)}
    (h : step tw op = (r, log)) :
    (addsOf k [op] = 0 → NoKeyAt k tw.slots →
      (∀ t ∈ log, t.key ≠ k) ∧ ∀ tw1, r = some tw1 → NoKeyAt k tw1.slots) ∧
    (addsOf k [op] = 0 → OneKeyAt k tw.slots tw.timer →
      ∀ tw1, r = some tw1 → OneKeyAt k tw1.slots tw1.timer) ∧
    (NoKeyAt k tw.slots → ∀ tw1, r = some tw1 → OneKeyAt k tw1.slots tw1.timer) := by
  cases op with
  | add delay cyclic key data =>
    simp only [step, Prod.mk.injEq] at h
    obtain ⟨h1, rfl⟩ := h
    have hne : addsOf k [Op.add delay cyclic key data] = 0 → key ≠ k := by
      intro ha hkk
      simp [addsOf, hkk] at ha
    refine ⟨fun ha hJ => ⟨by simp, fun tw1 hr => ?_⟩, fun ha hJ tw1 hr => ?_,
      fun hJ tw1 hr => ?_⟩
    · exact (AddTask_keys hk (h1.trans hr)).1 (hne ha) hJ
    · exact (AddTask_keys hk (h1.trans hr)).2.1 (hne ha) hJ
    · exact (AddTask_keys hk (h1.trans hr)).2.2 hJ
  | remove key =>
    simp only [step, Prod.mk.injEq] at h
    obtain ⟨h1, rfl⟩ := h
    refine ⟨fun _ hJ => ⟨by simp, fun tw1 hr => ?_⟩, fun _ hJ tw1 hr => ?_,
      fun hJ tw1 hr => ?_⟩
    · exact (RemoveTask_keys hk (h1.trans hr)).1 hJ
    · by_cases hkk : key = k
      · exact NoKeyAt_OneKeyAt _ ((RemoveTask_keys hk (h1.trans hr)).2.2 hkk hJ)
      · exact (RemoveTask_keys hk (h1.trans hr)).2.1 hkk hJ
    · exact NoKeyAt_OneKeyAt _ ((RemoveTask_keys hk (h1.trans hr)).1 hJ)
  | tick =>
    simp only [step] at h
    refine ⟨fun _ hJ => ticketHandle_NoKey hw hJ h, fun _ hJ tw1 hr => ?_,
      fun hJ tw1 hr => ?_⟩
    · subst hr
      exact ticketHandle_OneKey hk hw hJ h
    · exact NoKeyAt_OneKeyAt _ ((ticketHandle_NoKey hw hJ h).2 tw1 hr)

theorem addsOf_cons [DecidableEq κ] (k : Option κ) (op : Op κ δ) (ops : List (Op κ δ)) :
    addsOf k (op :: ops) = addsOf k [op] + addsOf k ops := by
  cases op <;> simp [addsOf]

theorem run_NoKey [DecidableEq κ] {k : Option κ} (hk : k ≠ none) :
    ∀ (ops : List (Op κ δ)) (tw : TimeWheel κ δ ι), WF tw → NoKeyAt k tw.slots →
      addsOf k ops = 0 → ∀ log ∈ (run tw ops).2, ∀ t ∈ log, t.key ≠ k := by
  intro ops
  induction ops with
  | nil => intro tw _ _ _ log hlog; simp [run] at hlog
  | cons op ops ih =>
    intro tw hw hJ ha log hlog
    rw [addsOf_cons] at ha
    cases hs : step tw op with
    | mk r lg =>
      have hst := (step_keys hk hw hs).1 (by omega) hJ
      cases r with
      | none =>
        simp only [run, hs, List.mem_singleton] at hlog
        subst hlog
        exact hst.1
      | some tw1 =>
        simp only [run, hs, List.mem_cons] at hlog
        rcases hlog with rfl | hlog
        · exact hst.1
        · exact ih tw1 (step_WF hw hs) (hst.2 tw1 rfl) (by omega) log hlog

theorem run_OneKey [DecidableEq κ] {k : Option κ} (hk : k ≠ none) :
    ∀ (ops : List (Op κ δ)) (tw tw1 : TimeWheel κ δ ι) (logs : List (List (Task κ δ))),
      WF tw → run tw ops = (some tw1, logs) →
      ((NoKeyAt k tw.slots ∧ addsOf k ops ≤ 1) ∨
        (OneKeyAt k tw.slots tw.timer ∧ addsOf k ops = 0)) →
      OneKeyAt k tw1.slots tw1.timer := by
  intro ops
  induction ops with
  | nil =>
    intro tw tw1 logs _ h hJ
    simp only [run, Prod.mk.injEq, Option.some.injEq] at h
    obtain ⟨rfl, _⟩ := h
    rcases hJ with ⟨hJ, _⟩ | ⟨hJ, _⟩
    · exact NoKeyAt_OneKeyAt _ hJ
    · exact hJ
  | cons op ops ih =>
    intro tw tw1 logs hw h hJ
    rw [addsOf_cons] at hJ
    cases hs : step tw op with
    | mk r lg =>
      cases r with
      | none => simp [run, hs] at h
      | some tw2 =>
        simp only [run, hs, Prod.mk.injEq] at h
        have hst := step_keys hk hw hs
        refine ih tw2 tw1 _ (step_WF hw hs) (Prod.ext h.1 rfl) ?_
        rcases hJ with ⟨hJ, ha⟩ | ⟨hJ, ha⟩
        · by_cases h0 : addsOf k [op] = 0
          · exact Or.inl ⟨(hst.1 h0 hJ).2 tw2 rfl, by omega⟩
          · exact Or.inr ⟨hst.2.2 hJ tw2 rfl, by omega⟩
        · exact Or.inr ⟨hst.2.1 (by omega) hJ tw2 rfl, by omega⟩

theorem run_append [DecidableEq κ] : ∀ (a b : List (Op κ δ)) (tw : TimeWheel κ δ ι),
    run tw (a ++ b) =
      match run tw a with
      | (none, la) => (none, la)
      | (some tw1, la) => ((run tw1 b).1, la ++ (run tw1 b).2) := by
  intro a
  induction a with
  | nil => intro b tw; simp [run]
  | cons op a ih =>
    intro b tw
    simp only [List.cons_append, run]
    cases hs : step tw op with
    | mk r lg =>
      cases r with
      | none => rfl
      | some tw2 =>
        have e := ih b tw2
        simp only [List.append_eq] at e ⊢
        rw [e]
        cases hr : run tw2 a with
        | mk r2 la =>
          cases r2 <;> rfl

theorem run_length [DecidableEq κ] : ∀ (ops : List (Op κ δ)) (tw : TimeWheel κ δ ι),
    (run tw ops).2.length ≤ ops.length ∧
      ((run tw ops).1.isSome = true → (run tw ops).2.length = ops.length) := by
  intro ops
  induction ops with
  | nil => intro tw; simp [run]
  | cons op ops ih =>
    intro tw
    simp only [run]
    cases hs : step tw op with
    | mk r lg =>
      cases r with
      | none => simp
      | some tw2 =>
        have := ih tw2
        simp only [List.length_cons]
        exact ⟨by omega, fun h => by have := this.2 h; omega⟩

theorem New_NoKeyAt [DecidableEq κ] {interval slotNum : Int} {job : Option ι}
    {tw : TimeWheel κ δ ι} (h : New interval slotNum job = some tw) (k : Option κ) :
    NoKeyAt k tw.slots := by
  obtain ⟨_, _, _, rfl⟩ := New_eq_some h
  intro i l hl
  obtain ⟨_, _, hget⟩ := slotAt_eq_some hl
  have hmem := List.getElem?_mem hget
  rw [List.eq_of_mem_replicate hmem]
  rfl

/-- C6: from a wheel built by `New`, let the loop handle the events `pre`,
then `RemoveTask(k)`, then the events `post`, where `AddTask` is passed the key
`k` exactly once, before the removal.  Then no event handled after the removal
starts the job for a task with key `k`. -/
theorem removed_task_never_dispatched [DecidableEq κ] (interval slotNum : Int)
    (job : Option ι) (tw0 : TimeWheel κ δ ι) (k : κ) (pre post : List (Op κ δ))
    (h0 : New interval slotNum job = some tw0)
    (hpre : addsOf (some k) pre = 1) (hpost : addsOf (some k) post = 0) :
    ∀ log ∈ (run tw0 (pre ++ Op.remove (some k) :: post)).2.drop (pre.length + 1),
      ∀ t ∈ log, t.key ≠ some k := by
  have hk : (some k : Option κ) ≠ none := by simp
  have hw := New_WF h0
  rw [run_append]
  cases hr : run tw0 pre with
  | mk r la =>
    have hlen := run_length pre tw0
    rw [hr] at hlen
    cases r with
    | none =>
      show ∀ log ∈ List.drop (pre.length + 1) la, ∀ t ∈ log, t.key ≠ some k
      intro log hlog
      have hle : la.length ≤ pre.length := hlen.1
      rw [List.drop_eq_nil_of_le (by omega)] at hlog
      cases hlog
    | some tw1 =>
      show ∀ log ∈ List.drop (pre.length + 1)
        (la ++ (run tw1 (Op.remove (some k) :: post)).2), ∀ t ∈ log, t.key ≠ some k
      have hla : la.length = pre.length := hlen.2 rfl
      have hw1 := run_WF pre hw hr
      have hJ1 := run_OneKey hk pre tw0 tw1 la hw hr
        (Or.inl ⟨New_NoKeyAt h0 _, by omega⟩)
      simp only [run]
      cases hs : step tw1 (Op.remove (some k)) with
      | mk r2 lg =>
        have hlg : lg = [] := by
          simp only [step, Prod.mk.injEq] at hs
          exact hs.2.symm
        subst hlg
        cases r2 with
        | none =>
          intro log hlog
          rw [List.drop_eq_nil_of_le (by simp; omega)] at hlog
          cases hlog
        | some tw2 =>
          have hJ2 : NoKeyAt (some k) tw2.slots := by
            simp only [step, Prod.mk.injEq] at hs
            exact (RemoveTask_keys hk hs.1).2.2 rfl hJ1
          intro log hlog
          have e : (la ++ [] :: (run tw2 post).2).drop (pre.length + 1) = (run tw2 post).2 := by
            rw [← hla, show la ++ [] :: (run tw2 post).2 = (la ++ [[]]) ++ (run tw2 post).2 by simp]
            rw [List.drop_append_of_le_length (by simp)]
            simp
          simp only at hlog
          rw [e] at hlog
          exact run_NoKey hk post tw2 (step_WF hw1 hs) hJ2 hpost log hlog

/-- C6 witness: `AddTask(3s, "a", 42)`, two ticks, `RemoveTask("a")`, three
ticks: nothing is started after the removal, while without the removal the
third tick starts the job with payload 42. -/
theorem removed_task_never_dispatched_witness :
    (New Second 5 (some ()) = some wheel5 ∧
      addsOf (some "a") [Op.add 3000000000 false (some "a") (42 : Nat), Op.tick, Op.tick] = 1 ∧
      addsOf (some "a") ([Op.tick, Op.tick, Op.tick] : List (Op String Nat)) = 0) ∧
    (∀ log ∈ (run wheel5 ([Op.add 3000000000 false (some "a") 42, Op.tick, Op.tick] ++
        Op.remove (some "a") :: [Op.tick, Op.tick, Op.tick])).2.drop
          ([Op.add 3000000000 false (some "a") (42 : Nat), Op.tick, Op.tick].length + 1),
      ∀ t ∈ log, t.key ≠ some "a") ∧
    (run wheel5 ([Op.add 3000000000 false (some "a") 42, Op.tick, Op.tick] ++
        Op.remove (some "a") :: [Op.tick, Op.tick, Op.tick])).2 = [[], [], [], [], [], [], []] ∧
    (run wheel5 ([Op.add 3000000000 false (some "a") 42, Op.tick, Op.tick] ++
        [Op.tick, Op.tick, Op.tick])).2 =
      [[], [], [], [⟨3000000000, 0, some "a", 42, false⟩], [], []] :=
  ⟨⟨rfl, by decide, by decide⟩,
   removed_task_never_dispatched Second 5 (some ()) wheel5 "a" _ _ rfl (by decide) (by decide),
   by decide, by decide⟩

/-! ## Firing of a non-cyclic task -/

theorem kept_append (a b : List (Task κ δ)) : kept (a ++ b) = kept a ++ kept b := by
  simp [kept, List.filter_append]

theorem due_append (a b : List (Task κ δ)) : due (a ++ b) = due a ++ due b := by
  simp [due, List.filter_append]

theorem deleteKeys_append [DecidableEq κ] (m : Option κ → Option Int)
    (a b : List (Task κ δ)) : deleteKeys m (a ++ b) = deleteKeys (deleteKeys m a) b := by
  simp [deleteKeys, List.foldl_append]

theorem deleteKeys_congr [DecidableEq κ] (l : List (Task κ δ)) :
    ∀ (m1 m2 : Option κ → Option Int) (k : Option κ), m1 k = m2 k →
      deleteKeys m1 l k = deleteKeys m2 l k := by
  induction l with
  | nil => intro m1 m2 k h; exact h
  | cons t l ih =>
    intro m1 m2 k h
    simp only [deleteKeys, List.foldl_cons]
    apply ih
    split
    · simp only [mapDelete_apply]; split
      · rfl
      · exact h
    · exact h

theorem setSlot_comm (slots : List (List (Task κ δ))) {p q : Int} (a b : List (Task κ δ))
    (hp : 0 ≤ p) (hq : 0 ≤ q) (hpq : p ≠ q) :
    setSlot (setSlot slots p a) q b = setSlot (setSlot slots q b) p a := by
  unfold setSlot
  have h : p.toNat ≠ q.toNat := by omega
  exact List.set_comm a b slots h

theorem kept_noncyclic {l : List (Task κ δ)} (h : ∀ t ∈ l, t.cyclic = false) :
    ∀ t ∈ kept l, t.cyclic = false := by
  intro t ht
  simp only [kept, List.mem_map, List.mem_filter] at ht
  obtain ⟨u, ⟨hu, _⟩, rfl⟩ := ht
  exact h u hu

theorem mem_setSlot {slots : List (List (Task κ δ))} {p : Int} {l2 m : List (Task κ δ)}
    (h : m ∈ setSlot slots p l2) : m = l2 ∨ m ∈ slots := by
  unfold setSlot at h
  rcases List.mem_or_eq_of_mem_set h with h | h
  · exact Or.inr h
  · exact Or.inl h

theorem tick_base [DecidableEq κ] {tw : TimeWheel κ δ ι} (hw : WF tw) (hnc : NoCyclic tw) :
    ∃ l tw1, slotAt tw.slots (advance tw).currentPos = some l ∧
      ticketHandle tw = (some tw1, due l) ∧ WF tw1 ∧ NoCyclic tw1 ∧
      tw1.slots = setSlot tw.slots (advance tw).currentPos (kept l) ∧
      tw1.timer = deleteKeys tw.timer (due l) ∧ tw1.interval = tw.interval ∧
      tw1.currentPos = (advance tw).currentPos ∧ tw1.slotNum = tw.slotNum ∧
      tw1.job = tw.job := by
  have hr := advance_currentPos_range tw hw.2.2.2.1 hw.2.2.2.2
  obtain ⟨l, hl⟩ := slotAt_isSome tw.slots hr.1 (by rw [hw.2.2.1]; exact hr.2)
  have hlnc : ∀ t ∈ l, t.cyclic = false :=
    hnc l (List.getElem?_mem (slotAt_eq_some hl).2.2)
  have hth := ticketHandle_noncyclic hl hlnc
  refine ⟨l, _, hl, hth, @step_WF _ _ _ _ _ _ Op.tick _ hw hth, ?_, rfl, rfl, rfl, rfl,
    rfl, rfl⟩
  intro m hm
  rcases mem_setSlot hm with rfl | hm
  · exact kept_noncyclic hlnc
  · exact hnc m hm

theorem tick_sim [DecidableEq κ] (x : Task κ δ) {pos : Int} {tw twx : TimeWheel κ δ ι}
    (hw : WF tw) (hnc : NoCyclic tw) (hx : x.cyclic = false) (hE : Extra x pos tw twx) :
    ∃ tw1 twx1 log, ticketHandle tw = (some tw1, log) ∧ WF tw1 ∧ NoCyclic tw1 ∧
      tw1.currentPos = (advance tw).currentPos ∧ tw1.slotNum = tw.slotNum ∧
      (((advance tw).currentPos ≠ pos ∧ ticketHandle twx = (some twx1, log) ∧
          Extra x pos tw1 twx1) ∨
        ((advance tw).currentPos = pos ∧ 0 < x.circle ∧
          ticketHandle twx = (some twx1, log) ∧
          Extra { x with circle := x.circle - 1 } pos tw1 twx1) ∨
        ((advance tw).currentPos = pos ∧ ¬ 0 < x.circle ∧
          ticketHandle twx = (some twx1, log ++ [x]) ∧ Same x.key tw1 twx1)) := by
  obtain ⟨l, hl, hxs, hi, hc, hn, hj, htm, htn⟩ := hE
  have hpos0 := (slotAt_eq_some hl).1
  have hwx : WF twx := by
    obtain ⟨h1, h2, h3, h4, h5⟩ := hw
    refine ⟨by omega, by omega, ?_, by omega, by omega⟩
    rw [hxs, length_setSlot, hn]; exact h3
  have hncx : NoCyclic twx := by
    intro m hm
    rw [hxs] at hm
    rcases mem_setSlot hm with rfl | hm
    · intro t ht
      rcases List.mem_append.mp ht with ht | ht
      · exact hnc l (List.getElem?_mem (slotAt_eq_some hl).2.2) t ht
      · rw [List.mem_singleton.mp ht]; exact hx
    · exact hnc m hm
  obtain ⟨lp, tw1, hlp, hth, hw1, hnc1, es, et, ei, ec, en, ej⟩ := tick_base hw hnc
  obtain ⟨lq, twx1, hlq, hthx, _, _, esx, etx, eix, ecx, enx, ejx⟩ := tick_base hwx hncx
  have hadv : (advance twx).currentPos = (advance tw).currentPos := by
    simp [advance, hc, hn]
  have hp0 := (slotAt_eq_some hlp).1
  rw [hadv] at hlq esx ecx
  rw [hxs] at hlq esx
  refine ⟨tw1, twx1, due lp, hth, hw1, hnc1, ec, en, ?_⟩
  by_cases hp : (advance tw).currentPos = pos
  · rw [hp] at hlp hlq esx es
    rw [hl] at hlp
    cases hlp
    rw [slotAt_setSlot_same _ hl] at hlq
    cases hlq
    rw [setSlot_setSlot, kept_append] at esx
    rw [due_append] at etx hthx
    by_cases hcx : 0 < x.circle
    · right; left
      have hk1 : kept [x] = [{ x with circle := x.circle - 1 }] := by simp [kept, hcx]
      have hd1 : due [x] = [] := by simp [due, hcx]
      rw [hk1] at esx
      rw [hd1, List.append_nil] at etx hthx
      refine ⟨hp, hcx, hthx, kept l, ?_, ?_, by omega, by omega, by omega,
        ejx.trans (hj.trans ej.symm), ?_, ?_⟩
      · rw [es]; exact slotAt_setSlot_same _ hl
      · rw [esx, es, setSlot_setSlot]
      · intro k hk
        rw [etx, et]
        exact deleteKeys_congr _ _ _ k (htm k hk)
      · rw [etx, et]
        exact deleteKeys_congr _ _ _ none htn
    · right; right
      have hk1 : kept [x] = [] := by simp [kept, hcx]
      have hd1 : due [x] = [x] := by simp [due, not_lt.mp hcx]
      rw [hk1, List.append_nil] at esx
      rw [hd1] at etx hthx
      rw [deleteKeys_append] at etx
      refine ⟨hp, hcx, hthx, by rw [esx, es], by omega, by omega, by omega,
        ejx.trans (hj.trans ej.symm), ?_, ?_, ?_⟩
      · intro k hk
        rw [etx, et]
        simp only [deleteKeys, List.foldl_cons, List.foldl_nil]
        rw [delete_other _ (Ne.symm hk)]
        exact deleteKeys_congr _ _ _ k (htm k hk)
      · rw [etx, et]
        simp only [deleteKeys, List.foldl_cons, List.foldl_nil]
        split
        · rename_i hkn
          rw [mapDelete_apply, if_neg (Ne.symm hkn)]
          exact deleteKeys_congr _ _ _ none htn
        · exact deleteKeys_congr _ _ _ none htn
      · intro hkn
        rw [etx]
        simp only [deleteKeys, List.foldl_cons, List.foldl_nil, if_pos hkn, mapDelete_apply,
          if_true]
  · left
    rw [slotAt_setSlot_ne _ _ hpos0 (Ne.symm hp), hlp] at hlq
    cases hlq
    refine ⟨hp, hthx, l, ?_, ?_, by omega, by omega, by omega,
      ejx.trans (hj.trans ej.symm), ?_, ?_⟩
    · rw [es, slotAt_setSlot_ne _ _ hp0 hp]; exact hl
    · rw [esx, es]
      exact setSlot_comm _ _ _ hpos0 hp0 (Ne.symm hp)
    · intro k hk
      rw [etx, et]
      exact deleteKeys_congr _ _ _ k (htm k hk)
    · rw [etx, et]
      exact deleteKeys_congr _ _ _ none htn

theorem ticks_succ (m : Nat) : (ticks (m + 1) : List (Op κ δ)) = Op.tick :: ticks m := by
  simp [ticks, List.replicate_succ]

theorem run_tick_cons [DecidableEq κ] {tw tw1 : TimeWheel κ δ ι} {log : List (Task κ δ)}
    (h : ticketHandle tw = (some tw1, log)) (ops : List (Op κ δ)) :
    run tw (Op.tick :: ops) = ((run tw1 ops).1, log :: (run tw1 ops).2) := by
  have hs : step tw Op.tick = (some tw1, log) := h
  simp only [run, hs]

theorem dist_advance {cur pos n : Int} (h0 : 0 ≤ cur) (h1 : cur < n) (hp0 : 0 ≤ pos)
    (hp1 : pos < n) :
    1 ≤ dist cur pos n ∧ dist cur pos n ≤ n ∧
    ((if cur = n - 1 then 0 else cur + 1) = pos → dist cur pos n = 1) ∧
    ((if cur = n - 1 then 0 else cur + 1) ≠ pos →
      dist (if cur = n - 1 then 0 else cur + 1) pos n = dist cur pos n - 1) ∧
    dist pos pos n = n := by
  unfold dist
  refine ⟨?_, ?_, ?_, ?_, ?_⟩
  · split <;> omega
  · split <;> omega
  · intro h; split at h <;> split <;> omega
  · intro h; split at h <;> split <;> split <;> omega
  · simp

theorem fire_after [DecidableEq κ] (x0 : Task κ δ) (hx : x0.cyclic = false) (pos : Int) :
    ∀ (m : Nat) (tw twx : TimeWheel κ δ ι) (c : Int), WF tw → NoCyclic tw → 0 ≤ c →
      Extra { x0 with circle := c } pos tw twx →
      (m : Int) + 1 = dist tw.currentPos pos tw.slotNum + c * tw.slotNum →
      ∃ twB twA logs last, run tw (ticks (m + 1)) = (some twB, logs ++ [last]) ∧
        run twx (ticks (m + 1)) = (some twA, logs ++ [last ++ [{ x0 with circle := 0 }]]) ∧
        logs.length = m ∧ Same x0.key twB twA := by
  intro m
  induction m with
  | zero =>
    intro tw twx c hw hnc hc hE hm
    have hpr : 0 ≤ pos ∧ pos < tw.slotNum := by
      obtain ⟨l, hl, _⟩ := hE
      obtain ⟨h0, h1, _⟩ := slotAt_eq_some hl
      have := hw.2.2.1
      omega
    obtain ⟨hd1, _, hd3, hd4, _⟩ := dist_advance hw.2.2.2.1 hw.2.2.2.2 hpr.1 hpr.2
    have hcn : 0 ≤ c * tw.slotNum := Int.mul_nonneg hc (le_of_lt hw.2.1)
    obtain ⟨tw1, twx1, log, hth, hw1, hnc1, ec, en, hcase⟩ := tick_sim { x0 with circle := c } hw hnc hx hE
    have hadv : (advance tw).currentPos
        = if tw.currentPos = tw.slotNum - 1 then 0 else tw.currentPos + 1 := rfl
    have hwn := hw.2.1
    have hw0 := hw.2.2.2.1
    have hw1c := hw.2.2.2.2
    rcases hcase with ⟨hp, _, _⟩ | ⟨hp, hcx, _, _⟩ | ⟨hp, hcx, hthx, hS⟩
    · rw [hadv] at hp
      have := hd4 hp
      have h2 := (@dist_advance (if tw.currentPos = tw.slotNum - 1 then 0
        else tw.currentPos + 1) pos tw.slotNum
        (by split <;> omega) (by split <;> omega) hpr.1 hpr.2).1
      omega
    · have hcx2 : 0 < c := hcx
      have : tw.slotNum ≤ c * tw.slotNum := by nlinarith
      omega
    · have hc0 : c = 0 := by
        have : ¬ 0 < c := hcx
        omega
      subst hc0
      refine ⟨tw1, twx1, [], log, ?_, ?_, rfl, hS⟩
      · rw [ticks_succ, run_tick_cons hth]; rfl
      · rw [ticks_succ, run_tick_cons hthx]; rfl
  | succ m ih =>
    intro tw twx c hw hnc hc hE hm
    have hpr : 0 ≤ pos ∧ pos < tw.slotNum := by
      obtain ⟨l, hl, _⟩ := hE
      obtain ⟨h0, h1, _⟩ := slotAt_eq_some hl
      have := hw.2.2.1
      omega
    obtain ⟨hd1, _, hd3, hd4, hd5⟩ := dist_advance hw.2.2.2.1 hw.2.2.2.2 hpr.1 hpr.2
    obtain ⟨tw1, twx1, log, hth, hw1, hnc1, ec, en, hcase⟩ := tick_sim { x0 with circle := c } hw hnc hx hE
    have hadv : (advance tw).currentPos
        = if tw.currentPos = tw.slotNum - 1 then 0 else tw.currentPos + 1 := rfl
    have hfin : ∀ twy1 : TimeWheel κ δ ι,
        (∃ twB twA logs last, run tw1 (ticks (m + 1)) = (some twB, logs ++ [last]) ∧
          run twy1 (ticks (m + 1)) = (some twA, logs ++ [last ++ [{ x0 with circle := 0 }]]) ∧
          logs.length = m ∧ Same x0.key twB twA) →
        ticketHandle twx = (some twy1, log) →
        ∃ twB twA logs last, run tw (ticks (m + 1 + 1)) = (some twB, logs ++ [last]) ∧
          run twx (ticks (m + 1 + 1)) =
            (some twA, logs ++ [last ++ [{ x0 with circle := 0 }]]) ∧
          logs.length = m + 1 ∧ Same x0.key twB twA := by
      intro twy1 ⟨twB, twA, logs, last, h1, h2, h3, h4⟩ hthx
      refine ⟨twB, twA, log :: logs, last, ?_, ?_, by simp [h3], h4⟩
      · rw [ticks_succ, run_tick_cons hth, h1]; rfl
      · rw [ticks_succ, run_tick_cons hthx, h2]; rfl
    push_cast at hm
    rcases hcase with ⟨hp, hthx, hE1⟩ | ⟨hp, hcx, hthx, hE1⟩ | ⟨hp, hcx, _, _⟩
    · refine hfin twx1 (ih tw1 twx1 c hw1 hnc1 hc hE1 ?_) hthx
      rw [hadv] at hp
      have := hd4 hp
      rw [ec, en, hadv, this]
      omega
    · have hcx2 : 0 < c := hcx
      refine hfin twx1 (ih tw1 twx1 (c - 1) hw1 hnc1 (by omega) hE1 ?_) hthx
      have := hd3 (hadv ▸ hp)
      have e : (c - 1) * tw.slotNum = c * tw.slotNum - tw.slotNum := by ring
      rw [ec, en, hp, hd5, e]
      omega
    · have hc0 : c = 0 := by
        have : ¬ 0 < c := hcx
        omega
      subst hc0
      rw [hadv] at hp
      have := hd3 hp
      simp only [zero_mul] at hm
      omega

theorem dist_init {cur n K : Int} (h0 : 0 ≤ cur) (h1 : cur < n) (hK : K % n ≠ 0) :
    dist cur ((cur + K) % n) n + (K / n) * n = K := by
  have hn : 0 < n := by omega
  have hr0 := Int.emod_nonneg K (ne_of_gt hn)
  have hr1 := Int.emod_lt_of_pos K hn
  have hdiv := Int.emod_add_ediv K n
  have e1 : (cur + K) % n = (cur + K % n) % n := by
    have e0 : cur + K = (cur + K % n) + n * (K / n) := by omega
    rw [e0, Int.add_mul_emod_self_left]
  have e2 : n * (K / n) = K / n * n := by ring
  rw [e1]
  by_cases hlt : cur + K % n < n
  · rw [Int.emod_eq_of_lt (by omega) hlt]
    unfold dist
    split <;> omega
  · have e3 : (cur + K % n) % n = cur + K % n - n := by
      rw [Int.emod_eq_sub_self_emod, Int.emod_eq_of_lt (by omega) (by omega)]
    rw [e3]
    unfold dist
    split <;> omega

/-! ## Failure and no-op paths -/

/-- C11 (as stated, refuted): a non-positive interval, a non-positive slot
count and a missing job all make `New` return the same `nil` wheel. -/
theorem New_failures_coincide :
    (New 0 5 (some ()) : Option (TimeWheel String Nat Unit)) = New Second 0 (some ()) ∧
    (New Second 0 (some ()) : Option (TimeWheel String Nat Unit)) = New Second 5 none ∧
    (New 0 5 (some ()) : Option (TimeWheel String Nat Unit)) = none := by
  refine ⟨?_, ?_, ?_⟩ <;> simp [New, Second]

/-- C11 (amended): whenever a precondition of `New` is violated the result is
the `nil` wheel, so the results for any two invalid inputs are equal, whichever
preconditions they violate. -/
theorem New_failure_is_nil (interval slotNum interval2 slotNum2 : Int) (job job2 : Option ι)
    (h : interval ≤ 0 ∨ slotNum ≤ 0 ∨ job = none)
    (h2 : interval2 ≤ 0 ∨ slotNum2 ≤ 0 ∨ job2 = none) :
    (New interval slotNum job : Option (TimeWheel κ δ ι)) = none ∧
      (New interval slotNum job : Option (TimeWheel κ δ ι)) = New interval2 slotNum2 job2 := by
  have e1 : (New interval slotNum job : Option (TimeWheel κ δ ι)) = none := by
    unfold New
    rw [if_pos (by simpa [Option.isNone_iff_eq_none] using h)]
  have e2 : (New interval2 slotNum2 job2 : Option (TimeWheel κ δ ι)) = none := by
    unfold New
    rw [if_pos (by simpa [Option.isNone_iff_eq_none] using h2)]
  exact ⟨e1, e1.trans e2.symm⟩

/-- C11 witness: a zero interval and a missing job give the same result. -/
theorem New_failure_is_nil_witness :
    (((0 : Int) ≤ 0 ∨ (5 : Int) ≤ 0 ∨ (some () : Option Unit) = none) ∧
      (Second ≤ 0 ∨ (5 : Int) ≤ 0 ∨ (none : Option Unit) = none)) ∧
    (New 0 5 (some ()) : Option (TimeWheel String Nat Unit)) = none ∧
    (New 0 5 (some ()) : Option (TimeWheel String Nat Unit)) = New Second 5 none :=
  ⟨⟨Or.inl (le_refl _), Or.inr (Or.inr rfl)⟩,
   New_failure_is_nil 0 5 Second 5 (some ()) none (Or.inl (le_refl _)) (Or.inr (Or.inr rfl))⟩

/-- C12: for `interval > 0`, `slotNum > 0` and a non-nil job, `New` returns a
wheel whose ring has exactly `slotNum` slots, all empty, whose key index is
empty, whose cursor is `0`, and which stores the given interval, slot count
and job. -/
theorem New_result (interval slotNum : Int) (j : ι) (hi : 0 < interval) (hn : 0 < slotNum) :
    ∃ tw : TimeWheel κ δ ι, New interval slotNum (some j) = some tw ∧
      (tw.slots.length : Int) = slotNum ∧
      (∀ l ∈ tw.slots, l = []) ∧
      (∀ i, 0 ≤ i → i < slotNum → slotAt tw.slots i = some []) ∧
      (∀ k, tw.timer k = none) ∧
      tw.currentPos = 0 ∧ tw.interval = interval ∧ tw.slotNum = slotNum ∧
      tw.job = some j := by
  refine ⟨{ interval := interval, slots := List.replicate slotNum.toNat [],
            timer := fun _ => none, currentPos := 0, slotNum := slotNum, job := some j },
    ?_, ?_, ?_, ?_, fun _ => rfl, rfl, rfl, rfl, rfl⟩
  · unfold New
    rw [if_neg (by simp; omega)]
  · simp only [List.length_replicate]; omega
  · intro l hl
    exact List.eq_of_mem_replicate hl
  · intro i h0 h1
    have hlt : i.toNat < slotNum.toNat := by omega
    simp [slotAt, h0, List.getElem?_replicate, hlt]

/-- C12 witness: `New(1s, 5, job)` is the empty five-slot wheel. -/
theorem New_result_witness :
    ((0 : Int) < Second ∧ (0 : Int) < 5) ∧
    ∃ tw : TimeWheel String Nat Unit, New Second 5 (some ()) = some tw ∧
      (tw.slots.length : Int) = 5 ∧
      (∀ l ∈ tw.slots, l = []) ∧
      (∀ i, 0 ≤ i → i < 5 → slotAt tw.slots i = some []) ∧
      (∀ k, tw.timer k = none) ∧
      tw.currentPos = 0 ∧ tw.interval = Second ∧ tw.slotNum = 5 ∧
      tw.job = some () :=
  ⟨⟨by decide, by decide⟩, New_result Second 5 () (by decide) (by decide)⟩

/-- C13: `AddTask` with a negative delay returns before anything is sent to
the loop: the wheel (ring, key index, cursor) is unchanged, no job is started
and nothing fails. -/
theorem AddTask_negative_delay [DecidableEq κ] (tw : TimeWheel κ δ ι) (delay : Int)
    (cyclic : Bool) (key : Option κ) (data : δ) (h : delay < 0) :
    AddTask tw delay cyclic key data = some tw ∧
      step tw (Op.add delay cyclic key data) = (some tw, []) ∧
      run tw [Op.add delay cyclic key data] = (some tw, [[]]) := by
  have e : AddTask tw delay cyclic key data = some tw := by
    simp only [AddTask, if_pos h]
  refine ⟨e, by simp only [step, e], by simp only [run, step, e]⟩

/-- C13 witness: `AddTask(-1s, ...)` on the five-slot wheel. -/
theorem AddTask_negative_delay_witness :
    ((-1000000000 : Int) < 0) ∧
    AddTask wheel5 (-1000000000) true (some "a") 7 = some wheel5 ∧
      step wheel5 (Op.add (-1000000000) true (some "a") 7) = (some wheel5, []) ∧
      run wheel5 [Op.add (-1000000000) true (some "a") 7] = (some wheel5, [[]]) :=
  ⟨by decide, AddTask_negative_delay wheel5 (-1000000000) true (some "a") 7 (by decide)⟩

/-- C14: `RemoveTask` with a nil key, or with a key that is not in the key
index, leaves the wheel (ring, key index, cursor) unchanged, starts no job and
does not fail. -/
theorem RemoveTask_absent [DecidableEq κ] (tw : TimeWheel κ δ ι) (key : Option κ)
    (h : key = none ∨ tw.timer key = none) :
    RemoveTask tw key = some tw ∧ step tw (Op.remove key) = (some tw, []) ∧
      run tw [Op.remove key] = (some tw, [[]]) := by
  have e : RemoveTask tw key = some tw := by
    unfold RemoveTask
    split
    · rfl
    · rcases h with h | h
      · contradiction
      · simp only [removeTask, h]
  refine ⟨e, by simp only [step, e], by simp only [run, step, e]⟩

/-- C14 witness: `RemoveTask("missing")` on the empty five-slot wheel. -/
theorem RemoveTask_absent_witness :
    ((some "missing" : Option String) = none ∨ wheel5.timer (some "missing") = none) ∧
    RemoveTask wheel5 (some "missing") = some wheel5 ∧
      step wheel5 (Op.remove (some "missing")) = (some wheel5, []) ∧
      run wheel5 [Op.remove (some "missing")] = (some wheel5, [[]]) :=
  ⟨Or.inr rfl, RemoveTask_absent wheel5 (some "missing") (Or.inr rfl)⟩

/-! ## Whole-second truncation -/

theorem tick_count_eq {interval d : Int} (hi : 0 < interval) (hs : Second ∣ interval)
    (hd : 0 ≤ d) : (secondsTrunc d).tdiv (secondsTrunc interval) = d / interval := by
  have hi1 : Second ≤ interval := Int.le_of_dvd hi hs
  rw [Int.tdiv_eq_ediv (secondsTrunc_nonneg hd) (le_of_lt (secondsTrunc_pos hi1))]
  obtain ⟨s, rfl⟩ := hs
  have hs0 : 0 < s := by unfold Second at hi; omega
  have hi0 : (0:Int) ≤ Second * s := le_of_lt hi
  rw [secondsTrunc_of_nonneg hd, secondsTrunc_of_nonneg hi0,
    Int.mul_ediv_cancel_left _ (by decide : Second ≠ 0), ediv_ediv_mul _ _ _ (by decide) hs0]

theorem getPositionAndCircle_of_ticks (tw : TimeWheel κ δ ι) {d : Int} (hi : 0 < tw.interval)
    (hs : Second ∣ tw.interval) (hn : 0 < tw.slotNum) (hd : 0 ≤ d) :
    getPositionAndCircleWith secondsTrunc tw d =
      some ((tw.currentPos + d / tw.interval).tmod tw.slotNum,
        (d / tw.interval).tdiv tw.slotNum) := by
  have hi1 : Second ≤ tw.interval := Int.le_of_dvd hi hs
  simp only [getPositionAndCircleWith, if_neg (ne_of_gt (secondsTrunc_pos hi1)),
    if_neg (ne_of_gt hn), tick_count_eq hi hs hd]

/-- C15: on a wheel whose interval is a whole number of seconds (at least one
second) with `slotNum > 0`, for every `delay ≥ 0` in nanoseconds, with
`int(d.Seconds())` read as integer division by `10^9` (`secondsTrunc`), the tick
count of the code, whole seconds of the delay divided by whole seconds of the
interval, equals `floor(delay / interval)`; the result of
`getPositionAndCircle` is computed from that quotient alone, so two delays with
the same `floor(delay / interval)` get the same `(pos, circle)`.  For a delay
below `2^24` seconds this reading is the `float64` conversion of the code:
`getPositionAndCircle` returns the same pair. -/
theorem whole_second_truncation (tw : TimeWheel κ δ ι) (d : Int) (hi : 0 < tw.interval)
    (hs : Second ∣ tw.interval) (hn : 0 < tw.slotNum) (hd : 0 ≤ d) :
    (secondsTrunc d).tdiv (secondsTrunc tw.interval) = d / tw.interval ∧
      getPositionAndCircleWith secondsTrunc tw d =
        some ((tw.currentPos + d / tw.interval).tmod tw.slotNum,
          (d / tw.interval).tdiv tw.slotNum) ∧
      (∀ d2, 0 ≤ d2 → d2 / tw.interval = d / tw.interval →
        getPositionAndCircleWith secondsTrunc tw d2 =
          getPositionAndCircleWith secondsTrunc tw d) ∧
      (d < 16777216 * Second → tw.interval ≤ maxDuration →
        getPositionAndCircle tw d = getPositionAndCircleWith secondsTrunc tw d) := by
  refine ⟨tick_count_eq hi hs hd, getPositionAndCircle_of_ticks tw hi hs hn hd, ?_, ?_⟩
  · intro d2 hd2 he
    rw [getPositionAndCircle_of_ticks tw hi hs hn hd2,
      getPositionAndCircle_of_ticks tw hi hs hn hd, he]
  · intro hlt hmax
    simp only [getPositionAndCircle, getPositionAndCircleWith, seconds_exact hd hlt,
      seconds_whole (le_of_lt hi) hs hmax, secondsTrunc_of_nonneg hd,
      secondsTrunc_of_nonneg (le_of_lt hi)]

/-- C15 witness: on the five-slot one-second wheel the delays 3s and
3.999999999s both count three ticks and get `(3, 0)`. -/
theorem whole_second_truncation_witness :
    (0 < wheel5.interval ∧ Second ∣ wheel5.interval ∧ 0 < wheel5.slotNum ∧
      (0 : Int) ≤ 3999999999 ∧ (3999999999 : Int) < 16777216 * Second ∧
      wheel5.interval ≤ maxDuration) ∧
    ((secondsTrunc 3999999999).tdiv (secondsTrunc wheel5.interval) =
        3999999999 / wheel5.interval ∧
      getPositionAndCircleWith secondsTrunc wheel5 3999999999 =
        some ((wheel5.currentPos + 3999999999 / wheel5.interval).tmod wheel5.slotNum,
          (3999999999 / wheel5.interval).tdiv wheel5.slotNum) ∧
      (∀ d2, 0 ≤ d2 → d2 / wheel5.interval = 3999999999 / wheel5.interval →
        getPositionAndCircleWith secondsTrunc wheel5 d2 =
          getPositionAndCircleWith secondsTrunc wheel5 3999999999) ∧
      ((3999999999 : Int) < 16777216 * Second → wheel5.interval ≤ maxDuration →
        getPositionAndCircle wheel5 3999999999 =
          getPositionAndCircleWith secondsTrunc wheel5 3999999999)) ∧
    getPositionAndCircle wheel5 3999999999 = some (3, 0) ∧
    getPositionAndCircle wheel5 3000000000 = some (3, 0) :=
  ⟨⟨by decide, dvd_refl _, by decide, by decide, by decide, by decide⟩,
   whole_second_truncation wheel5 3999999999 (by decide) (dvd_refl _) (by decide) (by decide),
   by decide, by decide⟩

/-! ## Out-of-range accesses -/

/-- C18 (code defect): with the cursor at 4 on a five-slot wheel and a due
cyclic task in slot 0, the tick moves the cursor to 0, starts the job, and
re-inserts at `getPreviousTickIndex() + 1 = 5`, which is outside `[0, 5)`: the
tick panics.  The state is reached from the empty wheel by a cyclic
`AddTask(5s)` and nine ticks.  On a one-slot wheel the re-insert index is `1`,
outside `[0, 1)`; that state is reached from `New(1s, 1, job)` by a cyclic
`AddTask(1s)` and one tick. -/
theorem reinsert_index_out_of_range :
    (WF wheelCyclicDue ∧ (advance wheelCyclicDue).currentPos = 0 ∧
      getPreviousTickIndex (advance wheelCyclicDue) + 1 = 5 ∧
      slotAt wheelCyclicDue.slots 5 = none ∧
      (ticketHandle wheelCyclicDue).1.isSome = false ∧
      (ticketHandle wheelCyclicDue).2 = [⟨5000000000, 0, some "c", 1, true⟩] ∧
      (run wheel5 (Op.add 5000000000 true (some "c") 1 :: ticks 9)).1.map
          (fun tw => (tw.slots, tw.currentPos, tw.timer (some "c"))) =
        some (wheelCyclicDue.slots, wheelCyclicDue.currentPos,
          wheelCyclicDue.timer (some "c"))) ∧
    (WF wheelOneSlot ∧ (advance wheelOneSlot).currentPos = 0 ∧
      getPreviousTickIndex (advance wheelOneSlot) + 1 = 1 ∧
      slotAt wheelOneSlot.slots 1 = none ∧
      (ticketHandle wheelOneSlot).1.isSome = false ∧
      ((New Second 1 (some ()) : Option (TimeWheel String Nat Unit)).bind
          (fun tw => (run tw [Op.add 1000000000 true none 1, Op.tick]).1)).map
          (fun tw => (tw.slots, tw.currentPos, tw.slotNum)) =
        some (wheelOneSlot.slots, wheelOneSlot.currentPos, wheelOneSlot.slotNum)) := by
  refine ⟨⟨by decide, by decide, by decide, by decide, by decide, by decide, by decide⟩,
    ⟨by decide, by decide, by decide, by decide, by decide, by decide⟩⟩

/-- C19 (code defect): `New` accepts the interval 500ms; on that wheel
`int(interval.Seconds())` is `0`, so `getPositionAndCircle` divides by zero for
every delay and the loop panics on the first `AddTask`. -/
theorem subsecond_interval_divides_by_zero :
    (New 500000000 5 (some ()) = some wheelHalfSecond) ∧
    seconds wheelHalfSecond.interval = 0 ∧
    getPositionAndCircle wheelHalfSecond 1000000000 = none ∧
    getPositionAndCircle wheelHalfSecond 0 = none ∧
    (run wheelHalfSecond [Op.add 1000000000 false (some "a") 1]).1.isSome = false := by
  refine ⟨rfl, by decide, by decide, by decide, by decide⟩

/-! ## The key index is never stale -/

theorem KeyInvAt_setSlot {slots : List (List (Task κ δ))} {tm : Option κ → Option Int}
    {p : Int} {l : List (Task κ δ)} (hJ : KeyInvAt slots tm) (h : slotAt slots p = some l)
    (l2 : List (Task κ δ)) (tm2 : Option κ → Option Int) (hnone : tm2 none = none)
    (hupd : ∀ k q, tm2 k = some q →
      (tm k = some q ∧ ((∃ t ∈ l, t.key = k) → ∃ t ∈ l2, t.key = k)) ∨
        (q = p ∧ ∃ t ∈ l2, t.key = k)) :
    KeyInvAt (setSlot slots p l2) tm2 := by
  refine ⟨hnone, fun k q hkq => ?_⟩
  rcases hupd k q hkq with ⟨hold, hmem⟩ | ⟨rfl, hmem⟩
  · obtain ⟨m, hm, hex⟩ := hJ.2 k q hold
    by_cases hq : q = p
    · subst hq
      rw [h] at hm
      cases hm
      exact ⟨l2, slotAt_setSlot_same _ h, hmem hex⟩
    · refine ⟨m, ?_, hex⟩
      rw [slotAt_setSlot_ne _ _ (slotAt_eq_some h).1 (Ne.symm hq)]
      exact hm
  · exact ⟨l2, slotAt_setSlot_same _ h, hmem⟩

theorem delete_eq_some [DecidableEq κ] {tm : Option κ → Option Int} {key k : Option κ}
    {q : Int} (hn : tm none = none)
    (h : (if key ≠ none then mapDelete tm key else tm) k = some q) :
    tm k = some q ∧ k ≠ key := by
  split at h
  · rw [mapDelete_apply] at h
    split at h
    · cases h
    · rename_i hne; exact ⟨h, hne⟩
  · rename_i hkey
    simp only [ne_eq, not_not] at hkey
    refine ⟨h, fun hk => ?_⟩
    rw [hk, hkey, hn] at h
    cases h

theorem delete_none [DecidableEq κ] {tm : Option κ → Option Int} (key : Option κ)
    (hn : tm none = none) : (if key ≠ none then mapDelete tm key else tm) none = none := by
  split
  · rw [mapDelete_apply]; split <;> simp [hn]
  · exact hn

theorem reinsert_none [DecidableEq κ] {tm : Option κ → Option Int} (key : Option κ) (v : Int)
    (hn : tm none = none) :
    (if key ≠ none then
        mapSet (if key ≠ none then mapDelete tm key else tm) key v
      else (if key ≠ none then mapDelete tm key else tm)) none = none := by
  by_cases hkey : key = none
  · simp [hkey, hn]
  · simp only [ne_eq, hkey, not_false_eq_true, if_true, mapSet_apply, mapDelete_apply]
    rw [if_neg (Ne.symm hkey), if_neg (Ne.symm hkey)]
    exact hn

theorem reinsert_eq_some [DecidableEq κ] {tm : Option κ → Option Int} {key k : Option κ}
    {v q : Int}
    (h : (if key ≠ none then
        mapSet (if key ≠ none then mapDelete tm key else tm) key v
      else (if key ≠ none then mapDelete tm key else tm)) k = some q) :
    (k = key ∧ q = v) ∨ tm k = some q := by
  by_cases hkey : key = none
  · right; simpa [hkey] using h
  · simp only [ne_eq, hkey, not_false_eq_true, if_true, mapSet_apply, mapDelete_apply] at h
    split at h
    · rename_i hk
      simp only [Option.some.injEq] at h
      exact Or.inl ⟨hk, h.symm⟩
    · exact Or.inr h

theorem scanLoop_KeyInv [DecidableEq κ] (p : Int) :
    ∀ (rest : List (Task κ δ)) (tw : TimeWheel κ δ ι) (pre l0 : List (Task κ δ)),
      PosOK tw p → slotAt tw.slots p = some l0 →
      KeyInvAt (setSlot tw.slots p (pre ++ rest)) tw.timer →
      ∀ {tw1 : TimeWheel κ δ ι} {log : List (Task κ δ)},
        scanLoop p tw pre rest = (some tw1, log) → KeyInvAt tw1.slots tw1.timer := by
  intro rest
  induction rest with
  | nil =>
    intro tw pre l0 _ _ hJ tw1 log h
    simp only [scanLoop, Prod.mk.injEq, Option.some.injEq] at h
    obtain ⟨rfl, _⟩ := h
    simpa using hJ
  | cons t rest ih =>
    intro tw pre l0 hpos hl hJ tw1 log h
    have hS : slotAt (setSlot tw.slots p (pre ++ t :: rest)) p = some (pre ++ t :: rest) :=
      slotAt_setSlot_same _ hl
    have next : ∀ (tm2 : Option κ → Option Int) (pre2 lg : List (Task κ δ)),
        tm2 none = none →
        (∀ k q, tm2 k = some q →
          (tw.timer k = some q ∧
            ((∃ u ∈ pre ++ t :: rest, u.key = k) → ∃ u ∈ pre2 ++ rest, u.key = k)) ∨
          (q = p ∧ ∃ u ∈ pre2 ++ rest, u.key = k)) →
        scanLoop p { tw with timer := tm2 } pre2 rest = (some tw1, lg) →
        KeyInvAt tw1.slots tw1.timer := by
      intro tm2 pre2 lg h1 h2 hs
      have := KeyInvAt_setSlot hJ hS (pre2 ++ rest) tm2 h1 h2
      rw [setSlot_setSlot] at this
      exact ih { tw with timer := tm2 } pre2 l0 hpos hl this hs
    simp only [scanLoop] at h
    split at h
    · refine next tw.timer _ _ hJ.1 (fun k q hkq => Or.inl ⟨hkq, ?_⟩) h
      rintro ⟨u, hu, huk⟩
      rcases List.mem_append.mp hu with hu | hu
      · exact ⟨u, List.mem_append_left _ (List.mem_append_left _ hu), huk⟩
      · rcases List.mem_cons.mp hu with rfl | hu
        · exact ⟨_, List.mem_append_left _ (List.mem_append_right _
            (List.mem_singleton_self _)), huk⟩
        · exact ⟨u, List.mem_append_right _ hu, huk⟩
    · split at h
      · split at h
        · rename_i hpp
          simp only [Prod.mk.injEq] at h
          refine next _ (t :: pre) _ (reinsert_none _ _ hJ.1) ?_ (Prod.ext h.1 rfl)
          intro k q hkq
          have hsub : (∃ u ∈ pre ++ t :: rest, u.key = k) →
              ∃ u ∈ (t :: pre) ++ rest, u.key = k := by
            rintro ⟨u, hu, huk⟩
            refine ⟨u, ?_, huk⟩
            simp only [List.mem_append, List.mem_cons] at hu ⊢
            tauto
          rcases reinsert_eq_some hkq with ⟨hk, hq⟩ | hold
          · right
            exact ⟨by rw [hq, hpp], t, by simp, hk.symm⟩
          · exact Or.inl ⟨hold, hsub⟩
        · rename_i hpp
          split at h
          · simp at h
          · rename_i q hq
            rcases hpos with hpos | hpos
            · exact absurd hpos hpp
            · rw [hpos] at hq; cases hq
      · simp only [Prod.mk.injEq] at h
        refine next _ pre _ (delete_none _ hJ.1) ?_ (Prod.ext h.1 rfl)
        intro k q hkq
        obtain ⟨hold, hne⟩ := delete_eq_some hJ.1 hkq
        refine Or.inl ⟨hold, ?_⟩
        rintro ⟨u, hu, huk⟩
        refine ⟨u, ?_, huk⟩
        simp only [List.mem_append, List.mem_cons] at hu ⊢
        rcases hu with hu | rfl | hu
        · exact Or.inl hu
        · exact absurd huk.symm hne
        · exact Or.inr hu

theorem ticketHandle_KeyInv [DecidableEq κ] {tw tw1 : TimeWheel κ δ ι}
    {log : List (Task κ δ)} (hw : WF tw) (hJ : KeyInv tw)
    (h : ticketHandle tw = (some tw1, log)) : KeyInv tw1 := by
  simp only [ticketHandle] at h
  split at h
  · simp at h
  · rename_i l hl
    have hJ2 : KeyInvAt (setSlot (advance tw).slots (advance tw).currentPos ([] ++ l))
        (advance tw).timer := by
      rw [List.nil_append, setSlot_self hl]; exact hJ
    exact scanLoop_KeyInv _ l (advance tw) [] l (PosOK_advance hw) hl hJ2 h

theorem step_KeyInv [DecidableEq κ] {tw tw1 : TimeWheel κ δ ι} {op : Op κ δ}
    {log : List (Task κ δ)} (hw : WF tw) (hi : Second ≤ tw.interval) (hJ : KeyInv tw)
    (hop : delayOK op = true) (h : step tw op = (some tw1, log)) : KeyInv tw1 := by
  cases op with
  | add delay cyclic key data =>
    simp only [delayOK, decide_eq_true_eq] at hop
    obtain ⟨tw2, h2, hJ2, _⟩ := AddTask_KeyInv hw hi hJ hop cyclic key data
    simp only [step, h2, Prod.mk.injEq, Option.some.injEq] at h
    exact h.1 ▸ hJ2
  | remove key =>
    obtain ⟨tw2, h2, hJ2, _⟩ := RemoveTask_KeyInv hJ key
    simp only [step, h2, Prod.mk.injEq, Option.some.injEq] at h
    exact h.1 ▸ hJ2
  | tick => exact ticketHandle_KeyInv hw hJ h

theorem run_KeyInv [DecidableEq κ] : ∀ (ops : List (Op κ δ)) (tw tw1 : TimeWheel κ δ ι)
    (logs : List (List (Task κ δ))), WF tw → Second ≤ tw.interval → KeyInv tw →
    (∀ op ∈ ops, delayOK op = true) → run tw ops = (some tw1, logs) →
    WF tw1 ∧ KeyInv tw1 := by
  intro ops
  induction ops with
  | nil =>
    intro tw tw1 logs hw _ hJ _ h
    simp only [run, Prod.mk.injEq, Option.some.injEq] at h
    obtain ⟨rfl, _⟩ := h
    exact ⟨hw, hJ⟩
  | cons op ops ih =>
    intro tw tw1 logs hw hi hJ hops h
    cases hs : step tw op with
    | mk r lg =>
      cases r with
      | none => simp [run, hs] at h
      | some tw2 =>
        simp only [run, hs, Prod.mk.injEq] at h
        refine ih tw2 tw1 _ (step_WF hw hs) ?_
          (step_KeyInv hw hi hJ (hops op (List.mem_cons_self _ _)) hs)
          (fun o ho => hops o (List.mem_cons_of_mem _ ho)) (Prod.ext h.1 rfl)
        rw [(step_fields hs).2.2.1]
        exact hi

/-- C20: from a wheel built by `New` with an interval that is a whole number
of seconds, after every sequence of `AddTask` (with `delay ≥ 0`), `RemoveTask`
and tick events that the loop handles without a panic, every key `k` of the
key index with `keyIndex[k] = p` has `0 ≤ p < slotNum` and slot `p` holds at
least one task whose key is `k`. -/
theorem key_index_never_stale [DecidableEq κ] (interval slotNum : Int) (job : Option ι)
    (tw0 tw1 : TimeWheel κ δ ι) (ops : List (Op κ δ)) (logs : List (List (Task κ δ)))
    (h0 : New interval slotNum job = some tw0) (hs : Second ∣ interval)
    (hops : ∀ op ∈ ops, delayOK op = true) (hr : run tw0 ops = (some tw1, logs)) :
    ∀ k p, tw1.timer k = some p →
      0 ≤ p ∧ p < tw1.slotNum ∧ ∃ l, slotAt tw1.slots p = some l ∧ ∃ t ∈ l, t.key = k := by
  have hw := New_WF h0
  obtain ⟨hk, _, hint⟩ := New_fresh h0
  have hi1 : Second ≤ tw0.interval := by
    rw [hint]; exact Int.le_of_dvd (New_eq_some h0).1 hs
  obtain ⟨hw1, hJ1⟩ := run_KeyInv ops tw0 tw1 logs hw hi1 hk hops hr
  intro k p hkp
  obtain ⟨l, hl, hex⟩ := hJ1.2 k p hkp
  obtain ⟨hp0, hp1, _⟩ := slotAt_eq_some hl
  have := hw1.2.2.1
  exact ⟨hp0, by omega, l, hl, hex⟩

/-- C20 witness: a cyclic task and two tasks under one key on the five-slot
wheel, seven ticks and a removal: the key index ends with `"c"` at slot 2,
where the cyclic task sits, and without `"a"`. -/
theorem key_index_never_stale_witness :
    (New Second 5 (some ()) = some wheel5 ∧ Second ∣ Second ∧
      (∀ op ∈ opsCyclicAndDuplicates, delayOK op = true) ∧
      run wheel5 opsCyclicAndDuplicates =
        (some wheelAfterOps, (run wheel5 opsCyclicAndDuplicates).2)) ∧
    (∀ k p, wheelAfterOps.timer k = some p →
      0 ≤ p ∧ p < wheelAfterOps.slotNum ∧
        ∃ l, slotAt wheelAfterOps.slots p = some l ∧ ∃ t ∈ l, t.key = k) ∧
    (wheelAfterOps.slots, wheelAfterOps.timer (some "c"), wheelAfterOps.timer (some "a")) =
      ([[], [], [⟨2000000000, 0, some "c", 1, true⟩], [], []], some 2, none) :=
  ⟨⟨rfl, dvd_refl _, by decide, rfl⟩,
   key_index_never_stale Second 5 (some ()) wheel5 wheelAfterOps opsCyclicAndDuplicates
     (run wheel5 opsCyclicAndDuplicates).2 rfl (dvd_refl _) (by decide) rfl,
   by decide⟩

/-! ## The exact firing tick -/

theorem tick_same [DecidableEq κ] {key : Option κ} {tw twx : TimeWheel κ δ ι}
    (hw : WF tw) (hnc : NoCyclic tw) (hS : Same key tw twx) :
    ∃ tw1 twx1 log, ticketHandle tw = (some tw1, log) ∧
      ticketHandle twx = (some twx1, log) ∧ WF tw1 ∧ NoCyclic tw1 ∧ Same key tw1 twx1 := by
  obtain ⟨hxs, hi, hc, hn, hj, htm, htn, hkey⟩ := hS
  have hwx : WF twx := by
    obtain ⟨h1, h2, h3, h4, h5⟩ := hw
    refine ⟨by omega, by omega, ?_, by omega, by omega⟩
    rw [hxs, hn]; exact h3
  have hncx : NoCyclic twx := by
    intro m hm
    rw [hxs] at hm
    exact hnc m hm
  obtain ⟨lp, tw1, hlp, hth, hw1, hnc1, es, et, ei, ec, en, ej⟩ := tick_base hw hnc
  obtain ⟨lq, twx1, hlq, hthx, _, _, esx, etx, eix, ecx, enx, ejx⟩ := tick_base hwx hncx
  have hadv : (advance twx).currentPos = (advance tw).currentPos := by
    simp [advance, hc, hn]
  rw [hadv, hxs] at hlq esx
  rw [hadv] at ecx
  rw [hlp] at hlq
  cases hlq
  refine ⟨tw1, twx1, due lp, hth, hthx, hw1, hnc1, by rw [esx, es], by omega, by omega,
    by omega, ejx.trans (hj.trans ej.symm), ?_, ?_, ?_⟩
  · intro k hk
    rw [etx, et]
    exact deleteKeys_congr _ _ _ k (htm k hk)
  · rw [etx, et]
    exact deleteKeys_congr _ _ _ none htn
  · intro hk
    rw [etx]
    exact deleteKeys_none _ _ _ (hkey hk)

theorem run_same [DecidableEq κ] {key : Option κ} :
    ∀ (j : Nat) (tw twx : TimeWheel κ δ ι), WF tw → NoCyclic tw → Same key tw twx →
      ∃ twB twA rest, run tw (ticks j) = (some twB, rest) ∧
        run twx (ticks j) = (some twA, rest) ∧ rest.length = j ∧ Same key twB twA := by
  intro j
  induction j with
  | zero =>
    intro tw twx _ _ hS
    exact ⟨tw, twx, [], rfl, rfl, rfl, hS⟩
  | succ j ih =>
    intro tw twx hw hnc hS
    obtain ⟨tw1, twx1, log, hth, hthx, hw1, hnc1, hS1⟩ := tick_same hw hnc hS
    obtain ⟨twB, twA, rest, hB, hA, hlen, hS2⟩ := ih tw1 twx1 hw1 hnc1 hS1
    refine ⟨twB, twA, log :: rest, ?_, ?_, by simp [hlen], hS2⟩
    · rw [ticks_succ, run_tick_cons hth, hB]
    · rw [ticks_succ, run_tick_cons hthx, hA]

theorem run_ticks_NoCyclic [DecidableEq κ] : ∀ (m : Nat) (tw : TimeWheel κ δ ι),
    WF tw → NoCyclic tw → ∀ {twB : TimeWheel κ δ ι} {logs : List (List (Task κ δ))},
      run tw (ticks m) = (some twB, logs) → NoCyclic twB := by
  intro m
  induction m with
  | zero =>
    intro tw _ hnc twB logs h
    simp only [ticks, List.replicate_zero, run, Prod.mk.injEq, Option.some.injEq] at h
    exact h.1 ▸ hnc
  | succ m ih =>
    intro tw hw hnc twB logs h
    obtain ⟨l, tw1, _, hth, hw1, hnc1, _⟩ := tick_base hw hnc
    rw [ticks_succ, run_tick_cons hth, Prod.mk.injEq] at h
    exact ih tw1 hw1 hnc1 (Prod.ext h.1 rfl)

theorem dist_init_all {cur n K : Int} (h0 : 0 ≤ cur) (h1 : cur < n) :
    dist cur ((cur + K) % n) n + (K / n) * n = if K % n = 0 then K + n else K := by
  split
  · rename_i hK
    have hdiv := Int.emod_add_ediv K n
    have e0 : cur + K = cur + n * (K / n) := by omega
    have e2 : n * (K / n) = K / n * n := by ring
    rw [e0, Int.add_mul_emod_self_left, Int.emod_eq_of_lt h0 h1]
    unfold dist
    rw [if_neg (lt_irrefl _)]
    omega
  · rename_i hK
    exact dist_init h0 h1 hK

/-! ## The tick scan as a function of the scanned list -/

theorem scanLoop_eq_scanPure [DecidableEq κ] (p : Int) :
    ∀ (rest pre : List (Task κ δ)) (tw : TimeWheel κ δ ι), PosOK tw p →
      scanLoop p tw pre rest =
        ((scanPure (decide (getPreviousTickIndex tw + 1 = p)) p tw.timer pre rest).1.map
            (fun r => { tw with slots := setSlot tw.slots p r.2, timer := r.1 }),
          (scanPure (decide (getPreviousTickIndex tw + 1 = p)) p tw.timer pre rest).2) := by
  intro rest
  induction rest with
  | nil => intro pre tw _; simp [scanLoop, scanPure]
  | cons t rest ih =>
    intro pre tw hp
    simp only [scanLoop, scanPure]
    split
    · exact ih _ _ hp
    · generalize (if t.key ≠ none then mapDelete tw.timer t.key else tw.timer) = tm1
      split
      · by_cases hpos : getPreviousTickIndex tw + 1 = p
        · simp only [hpos, if_true, decide_True]
          generalize (if t.key ≠ none then mapSet tm1 t.key p else tm1) = tm2
          have h := ih (t :: pre) { tw with timer := tm2 } hp
          have e : getPreviousTickIndex { tw with timer := tm2 } + 1 = p := hpos
          simp only [e, decide_True] at h
          rw [h]
        · have hnone : slotAt tw.slots (getPreviousTickIndex tw + 1) = none := by
            rcases hp with hp | hp
            · exact absurd hp hpos
            · exact hp
          simp only [hpos, if_false, decide_False, hnone, Bool.false_eq_true, Option.map_none']
      · have h := ih pre { tw with timer := tm1 } hp
        have e : getPreviousTickIndex { tw with timer := tm1 } = getPreviousTickIndex tw := rfl
        rw [e] at h
        rw [h]

theorem scanPure_append [DecidableEq κ] (ok : Bool) (p : Int) :
    ∀ (a b pre : List (Task κ δ)) (tm : Option κ → Option Int),
      scanPure ok p tm pre (a ++ b) =
        match scanPure ok p tm pre a with
        | (none, log) => (none, log)
        | (some r, log) => ((scanPure ok p r.1 r.2 b).1, log ++ (scanPure ok p r.1 r.2 b).2) := by
  intro a
  induction a with
  | nil => intro b pre tm; simp [scanPure]
  | cons t a ih =>
    intro b pre tm
    simp only [List.cons_append, scanPure]
    split
    · exact ih _ _ _
    · split
      · split
        · rw [List.append_eq, ih]
          generalize (if t.key ≠ none then mapDelete tm t.key else tm) = tm1
          generalize (if t.key ≠ none then mapSet tm1 t.key p else tm1) = tm2
          cases h : scanPure ok p tm2 (t :: pre) a with
          | mk o log => cases o <;> simp
        · rfl
      · rw [List.append_eq, ih]
        generalize (if t.key ≠ none then mapDelete tm t.key else tm) = tm1
        cases h : scanPure ok p tm1 pre a with
        | mk o log => cases o <;> simp

theorem delete_congr [DecidableEq κ] {tm tm2 : Option κ → Option Int} {k : Option κ}
    (key : Option κ) (h : tm2 k = tm k) :
    (if key ≠ none then mapDelete tm2 key else tm2) k =
      (if key ≠ none then mapDelete tm key else tm) k := by
  split
  · simp only [mapDelete_apply, h]
  · exact h

theorem set_congr [DecidableEq κ] {tm tm2 : Option κ → Option Int} {k : Option κ}
    (key : Option κ) (v : Int) (h : tm2 k = tm k) :
    (if key ≠ none then mapSet tm2 key v else tm2) k =
      (if key ≠ none then mapSet tm key v else tm) k := by
  split
  · simp only [mapSet_apply, h]
  · exact h

/-- The scan does the same to two key indexes, entry by entry. -/
theorem scanPure_congr [DecidableEq κ] (ok : Bool) (p : Int) :
    ∀ (rest pre : List (Task κ δ)) (tm tm2 : Option κ → Option Int),
      (scanPure ok p tm2 pre rest).2 = (scanPure ok p tm pre rest).2 ∧
      ((scanPure ok p tm pre rest).1 = none → (scanPure ok p tm2 pre rest).1 = none) ∧
      ∀ r, (scanPure ok p tm pre rest).1 = some r →
        ∃ r2, (scanPure ok p tm2 pre rest).1 = some r2 ∧ r2.2 = r.2 ∧
          ∀ k, tm2 k = tm k → r2.1 k = r.1 k := by
  intro rest
  induction rest with
  | nil =>
    intro pre tm tm2
    refine ⟨rfl, fun h => by simp [scanPure] at h, fun r hr => ?_⟩
    simp only [scanPure, Option.some.injEq] at hr
    subst hr
    exact ⟨(tm2, pre), rfl, rfl, fun k hk => hk⟩
  | cons t rest ih =>
    intro pre tm tm2
    simp only [scanPure]
    split
    · exact ih _ _ _
    · split
      · split
        · obtain ⟨h1, h2, h3⟩ := ih (t :: pre)
            (if t.key ≠ none then
              mapSet (if t.key ≠ none then mapDelete tm t.key else tm) t.key p
              else (if t.key ≠ none then mapDelete tm t.key else tm))
            (if t.key ≠ none then
              mapSet (if t.key ≠ none then mapDelete tm2 t.key else tm2) t.key p
              else (if t.key ≠ none then mapDelete tm2 t.key else tm2))
          refine ⟨by rw [h1], h2, fun r hr => ?_⟩
          obtain ⟨r2, e1, e2, e3⟩ := h3 r hr
          exact ⟨r2, e1, e2, fun k hk => e3 k (set_congr _ _ (delete_congr _ hk))⟩
        · exact ⟨rfl, fun _ => rfl, fun r hr => by cases hr⟩
      · obtain ⟨h1, h2, h3⟩ := ih pre
          (if t.key ≠ none then mapDelete tm t.key else tm)
          (if t.key ≠ none then mapDelete tm2 t.key else tm2)
        refine ⟨by rw [h1], h2, fun r hr => ?_⟩
        obtain ⟨r2, e1, e2, e3⟩ := h3 r hr
        exact ⟨r2, e1, e2, fun k hk => e3 k (delete_congr _ hk)⟩

/-- A key that the scan leaves pointing at another slot pointed there before. -/
theorem scanPure_timer_other [DecidableEq κ] (ok : Bool) (p : Int) :
    ∀ (rest pre : List (Task κ δ)) (tm : Option κ → Option Int)
      (r : (Option κ → Option Int) × List (Task κ δ)),
      (scanPure ok p tm pre rest).1 = some r →
      ∀ k q, r.1 k = some q → q ≠ p → tm k = some q := by
  intro rest
  induction rest with
  | nil =>
    intro pre tm r hr k q hq _
    simp only [scanPure, Option.some.injEq] at hr
    rw [← hr] at hq; exact hq
  | cons t rest ih =>
    intro pre tm r hr k q hq hqp
    simp only [scanPure] at hr
    split at hr
    · exact ih _ _ _ hr k q hq hqp
    · split at hr
      · split at hr
        · have h := ih _ _ _ hr k q hq hqp
          by_cases hk : t.key ≠ none
          · simp only [if_pos hk, mapSet_apply, mapDelete_apply] at h
            split at h
            · simp only [Option.some.injEq] at h
              exact absurd h.symm hqp
            · exact h
          · simp only [if_neg hk] at h
            exact h
        · cases hr
      · have h := ih _ _ _ hr k q hq hqp
        by_cases hk : t.key ≠ none
        · simp only [if_pos hk, mapDelete_apply] at h
          split at h
          · cases h
          · exact h
        · simp only [if_neg hk] at h
          exact h

/-- A key that the scan leaves pointing at the scanned slot has a task in it. -/
theorem scanPure_keyinv [DecidableEq κ] (ok : Bool) (p : Int) {k : Option κ} (hk : k ≠ none) :
    ∀ (rest pre : List (Task κ δ)) (tm : Option κ → Option Int)
      (r : (Option κ → Option Int) × List (Task κ δ)),
      (scanPure ok p tm pre rest).1 = some r →
      (tm k = some p → (∃ t ∈ pre, t.key = k) ∨ (∃ t ∈ rest, t.key = k)) →
      r.1 k = some p → ∃ t ∈ r.2, t.key = k := by
  intro rest
  induction rest with
  | nil =>
    intro pre tm r hr hP hq
    simp only [scanPure, Option.some.injEq] at hr
    subst hr
    rcases hP hq with h | ⟨t, ht, _⟩
    · exact h
    · simp at ht
  | cons t rest ih =>
    intro pre tm r hr hP hq
    simp only [scanPure] at hr
    split at hr
    · refine ih _ _ _ hr (fun h => ?_) hq
      rcases hP h with ⟨u, hu, huk⟩ | ⟨u, hu, huk⟩
      · exact Or.inl ⟨u, List.mem_append_left _ hu, huk⟩
      · rcases List.mem_cons.mp hu with rfl | hu
        · exact Or.inl ⟨{ u with circle := u.circle - 1 },
            List.mem_append_right _ (List.mem_singleton_self _), huk⟩
        · exact Or.inr ⟨u, hu, huk⟩
    · by_cases htk : t.key = k
      · subst htk
        split at hr
        · split at hr
          · exact ih _ _ _ hr (fun _ => Or.inl ⟨t, List.mem_cons_self _ _, rfl⟩) hq
          · cases hr
        · refine ih _ _ _ hr (fun h => ?_) hq
          simp only [if_pos hk, mapDelete_apply, if_true] at h
          cases h
      · have hdel : (if t.key ≠ none then mapDelete tm t.key else tm) k = tm k := by
          split
          · simp only [mapDelete_apply, if_neg (Ne.symm htk)]
          · rfl
        have hrest : tm k = some p → (∃ u ∈ pre, u.key = k) ∨ (∃ u ∈ rest, u.key = k) := by
          intro h
          rcases hP h with h1 | ⟨u, hu, huk⟩
          · exact Or.inl h1
          · rcases List.mem_cons.mp hu with rfl | hu
            · exact absurd huk htk
            · exact Or.inr ⟨u, hu, huk⟩
        split at hr
        · split at hr
          · refine ih _ _ _ hr (fun h => ?_) hq
            have h2 : tm k = some p := by
              by_cases hne : t.key ≠ none
              · simp only [if_pos hne, mapSet_apply, if_neg (Ne.symm htk),
                  mapDelete_apply] at h
                exact h
              · simp only [if_neg hne] at h
                exact h
            rcases hrest h2 with ⟨u, hu, huk⟩ | h3
            · exact Or.inl ⟨u, List.mem_cons_of_mem _ hu, huk⟩
            · exact Or.inr h3
          · cases hr
        · refine ih _ _ _ hr (fun h => ?_) hq
          rw [hdel] at h
          exact hrest h

theorem scanPure_single [DecidableEq κ] (ok : Bool) (p : Int) (tm : Option κ → Option Int)
    (L : List (Task κ δ)) (x : Task κ δ) (hx : x.cyclic = false) :
    scanPure ok p tm L [x] =
      if 0 < x.circle then (some (tm, L ++ [{ x with circle := x.circle - 1 }]), [])
      else (some (if x.key ≠ none then mapDelete tm x.key else tm, L), [x]) := by
  simp only [scanPure, hx, gt_iff_lt, Bool.false_eq_true, if_false]

/-- The scan of a list with one more non-cyclic task `x` at its tail: the scan
of the list, then `x`. -/
theorem scanPure_extra [DecidableEq κ] (ok : Bool) (p : Int) (x : Task κ δ)
    (hx : x.cyclic = false) (l : List (Task κ δ)) (tm tm2 : Option κ → Option Int) :
    (∀ log, scanPure ok p tm [] l = (none, log) →
      scanPure ok p tm2 [] l = (none, log) ∧ scanPure ok p tm2 [] (l ++ [x]) = (none, log)) ∧
    (∀ r log, scanPure ok p tm [] l = (some r, log) →
      ∃ tmB, (∀ k, tm2 k = tm k → tmB k = r.1 k) ∧
        scanPure ok p tm2 [] l = (some (tmB, r.2), log) ∧
        scanPure ok p tm2 [] (l ++ [x]) =
          if 0 < x.circle then (some (tmB, r.2 ++ [{ x with circle := x.circle - 1 }]), log)
          else (some (if x.key ≠ none then mapDelete tmB x.key else tmB, r.2), log ++ [x])) := by
  obtain ⟨h1, h2, h3⟩ := scanPure_congr ok p l [] tm tm2
  constructor
  · intro log h
    have e : scanPure ok p tm2 [] l = (none, log) := by
      apply Prod.ext
      · exact h2 (by rw [h])
      · rw [h1, h]
    refine ⟨e, ?_⟩
    rw [scanPure_append, e]
  · intro r log h
    obtain ⟨r2, e1, e2, e3⟩ := h3 r (by rw [h])
    have e : scanPure ok p tm2 [] l = (some (r2.1, r.2), log) := by
      apply Prod.ext
      · rw [e1, ← e2]
      · rw [h1, h]
    refine ⟨r2.1, e3, e, ?_⟩
    rw [scanPure_append, e]
    simp only
    rw [scanPure_single ok p _ _ x hx]
    split <;> simp

/-- One tick on a well-formed wheel is the scan `scanPure` of the slot under
the advanced cursor. -/
theorem ticketHandle_scanPure [DecidableEq κ] {tw : TimeWheel κ δ ι} (hw : WF tw) :
    ∃ l, slotAt tw.slots (advance tw).currentPos = some l ∧
      ((∃ log, scanPure (reinsertOK tw) (advance tw).currentPos tw.timer [] l = (none, log) ∧
          ticketHandle tw = (none, log)) ∨
       (∃ r log, scanPure (reinsertOK tw) (advance tw).currentPos tw.timer [] l =
            (some r, log) ∧
          ticketHandle tw = (some { advance tw with
            slots := setSlot tw.slots (advance tw).currentPos r.2
            timer := r.1 }, log))) := by
  have hr := advance_currentPos_range tw hw.2.2.2.1 hw.2.2.2.2
  obtain ⟨l, hl⟩ := slotAt_isSome tw.slots hr.1 (by rw [hw.2.2.1]; exact hr.2)
  have hl2 : slotAt (advance tw).slots (advance tw).currentPos = some l := hl
  have hT : ticketHandle tw =
      ((scanPure (reinsertOK tw) (advance tw).currentPos tw.timer [] l).1.map
        (fun r => { advance tw with
          slots := setSlot tw.slots (advance tw).currentPos r.2
          timer := r.1 }),
       (scanPure (reinsertOK tw) (advance tw).currentPos tw.timer [] l).2) := by
    simp only [ticketHandle, hl2, scanAndRunTask]
    rw [scanLoop_eq_scanPure _ _ _ _ (PosOK_advance hw)]
    rfl
  refine ⟨l, hl, ?_⟩
  cases h : scanPure (reinsertOK tw) (advance tw).currentPos tw.timer [] l with
  | mk o log =>
    cases o with
    | none => exact Or.inl ⟨log, rfl, by rw [hT, h]; rfl⟩
    | some r => exact Or.inr ⟨r, log, rfl, by rw [hT, h]; rfl⟩

theorem Extra_WF {x : Task κ δ} {pos : Int} {tw twx : TimeWheel κ δ ι} (hw : WF tw)
    (hE : Extra x pos tw twx) : WF twx := by
  obtain ⟨l, hl, hxs, hi, hc, hn, hj, htm, htn⟩ := hE
  obtain ⟨h1, h2, h3, h4, h5⟩ := hw
  refine ⟨by omega, by omega, ?_, by omega, by omega⟩
  rw [hxs, length_setSlot, hn]; exact h3

/-- One tick on a wheel and on the same wheel with one more non-cyclic task `x`
at the tail of slot `pos`: both panic after starting the same jobs, or both
complete, starting the same jobs, and `x` stays, has its `circle` decreased, or
is started last. -/
theorem tick_extra [DecidableEq κ] (x : Task κ δ) {pos : Int} {tw twx : TimeWheel κ δ ι}
    (hw : WF tw) (hx : x.cyclic = false) (hE : Extra x pos tw twx) :
    (∃ log, ticketHandle tw = (none, log) ∧ ticketHandle twx = (none, log)) ∨
    ∃ tw1 twx1 log, ticketHandle tw = (some tw1, log) ∧ WF tw1 ∧
      tw1.currentPos = (advance tw).currentPos ∧ tw1.slotNum = tw.slotNum ∧
      (((advance tw).currentPos ≠ pos ∧ ticketHandle twx = (some twx1, log) ∧
          Extra x pos tw1 twx1) ∨
        ((advance tw).currentPos = pos ∧ 0 < x.circle ∧
          ticketHandle twx = (some twx1, log) ∧
          Extra { x with circle := x.circle - 1 } pos tw1 twx1) ∨
        ((advance tw).currentPos = pos ∧ ¬ 0 < x.circle ∧
          ticketHandle twx = (some twx1, log ++ [x]) ∧ Same x.key tw1 twx1)) := by
  have hwx := Extra_WF hw hE
  obtain ⟨l, hl, hxs, hi, hc, hn, hj, htm, htn⟩ := hE
  have hpos0 := (slotAt_eq_some hl).1
  have hadv : (advance twx).currentPos = (advance tw).currentPos := by
    simp [advance, hc, hn]
  have hok : reinsertOK twx = reinsertOK tw := by
    simp [reinsertOK, getPreviousTickIndex, advance, hc, hn]
  obtain ⟨lp, hlp, hT⟩ := ticketHandle_scanPure hw
  obtain ⟨lq, hlq, hTx⟩ := ticketHandle_scanPure hwx
  rw [hadv, hok] at hTx
  rw [hadv, hxs] at hlq
  have hp0 := (slotAt_eq_some hlp).1
  by_cases hp : (advance tw).currentPos = pos
  · rw [hp, hl] at hlp
    cases hlp
    rw [hp, slotAt_setSlot_same _ hl] at hlq
    cases hlq
    obtain ⟨hX1, hX2⟩ := scanPure_extra (reinsertOK tw) (advance tw).currentPos x hx l
      tw.timer twx.timer
    rcases hT with ⟨log, hs, hth⟩ | ⟨r, log, hs, hth⟩
    · left
      refine ⟨log, hth, ?_⟩
      rcases hTx with ⟨logx, hsx, hthx⟩ | ⟨rx, logx, hsx, hthx⟩
      · rw [(hX1 log hs).2] at hsx
        cases hsx
        exact hthx
      · rw [(hX1 log hs).2] at hsx
        cases hsx
    · right
      obtain ⟨tmB, hB1, hB2, hB3⟩ := hX2 r log hs
      have hw1 : WF _ := @step_WF _ _ _ _ _ _ Op.tick _ hw hth
      have hsl : slotAt (setSlot tw.slots (advance tw).currentPos r.2) pos = some r.2 := by
        rw [hp]; exact slotAt_setSlot_same _ hl
      by_cases hcx : 0 < x.circle
      · rw [if_pos hcx] at hB3
        rcases hTx with ⟨logx, hsx, hthx⟩ | ⟨rx, logx, hsx, hthx⟩
        · rw [hB3] at hsx
          cases hsx
        · rw [hB3] at hsx
          cases hsx
          refine ⟨_, _, log, hth, hw1, rfl, rfl, Or.inr (Or.inl ⟨hp, hcx, hthx, r.2, hsl, ?_,
            ?_, ?_, ?_, ?_, ?_, ?_⟩)⟩
          · show setSlot twx.slots (advance tw).currentPos _ =
              setSlot (setSlot tw.slots (advance tw).currentPos r.2) pos _
            rw [hxs, hp, setSlot_setSlot, setSlot_setSlot]
          · exact hi
          · show (advance twx).currentPos = (advance tw).currentPos
            exact hadv
          · exact hn
          · exact hj
          · intro k hk
            exact hB1 k (htm k hk)
          · exact hB1 none htn
      · rw [if_neg hcx] at hB3
        rcases hTx with ⟨logx, hsx, hthx⟩ | ⟨rx, logx, hsx, hthx⟩
        · rw [hB3] at hsx
          cases hsx
        · rw [hB3] at hsx
          cases hsx
          refine ⟨_, _, log, hth, hw1, rfl, rfl, Or.inr (Or.inr ⟨hp, hcx, hthx, ?_, hi, ?_,
            hn, hj, ?_, ?_, ?_⟩)⟩
          · show setSlot twx.slots (advance tw).currentPos _ =
              setSlot tw.slots (advance tw).currentPos r.2
            rw [hxs, hp, setSlot_setSlot]
          · show (advance twx).currentPos = (advance tw).currentPos
            exact hadv
          · intro k hk
            show (if x.key ≠ none then mapDelete tmB x.key else tmB) k = r.1 k
            rw [delete_other _ (Ne.symm hk)]
            exact hB1 k (htm k hk)
          · show (if x.key ≠ none then mapDelete tmB x.key else tmB) none = r.1 none
            by_cases hkn : x.key = none
            · rw [if_neg (by simpa using hkn)]
              exact hB1 none htn
            · rw [delete_other _ hkn]
              exact hB1 none htn
          · intro hkn
            show (if x.key ≠ none then mapDelete tmB x.key else tmB) x.key = none
            rw [if_pos hkn, mapDelete_apply, if_pos rfl]
  · rw [slotAt_setSlot_ne _ _ hpos0 (Ne.symm hp), hlp] at hlq
    cases hlq
    obtain ⟨h1, h2, h3⟩ := scanPure_congr (reinsertOK tw) (advance tw).currentPos lp []
      tw.timer twx.timer
    rcases hT with ⟨log, hs, hth⟩ | ⟨r, log, hs, hth⟩
    · left
      refine ⟨log, hth, ?_⟩
      have e : scanPure (reinsertOK tw) (advance tw).currentPos twx.timer [] lp = (none, log) := by
        apply Prod.ext
        · exact h2 (by rw [hs])
        · rw [h1, hs]
      rcases hTx with ⟨logx, hsx, hthx⟩ | ⟨rx, logx, hsx, hthx⟩
      · rw [e] at hsx
        cases hsx
        exact hthx
      · rw [e] at hsx
        cases hsx
    · right
      obtain ⟨r2, e1, e2, e3⟩ := h3 r (by rw [hs])
      have e : scanPure (reinsertOK tw) (advance tw).currentPos twx.timer [] lp =
          (some (r2.1, r.2), log) := by
        apply Prod.ext
        · rw [e1, ← e2]
        · rw [h1, hs]
      have hw1 : WF _ := @step_WF _ _ _ _ _ _ Op.tick _ hw hth
      rcases hTx with ⟨logx, hsx, hthx⟩ | ⟨rx, logx, hsx, hthx⟩
      · rw [e] at hsx
        cases hsx
      · rw [e] at hsx
        cases hsx
        refine ⟨_, _, log, hth, hw1, rfl, rfl, Or.inl ⟨hp, hthx, l, ?_, ?_, hi, ?_, hn, hj,
          ?_, ?_⟩⟩
        · show slotAt (setSlot tw.slots (advance tw).currentPos r.2) pos = some l
          rw [slotAt_setSlot_ne _ _ hp0 hp]
          exact hl
        · show setSlot twx.slots (advance tw).currentPos r.2 =
            setSlot (setSlot tw.slots (advance tw).currentPos r.2) pos (l ++ [x])
          rw [hxs]
          exact setSlot_comm _ _ _ hpos0 hp0 (Ne.symm hp)
        · show (advance twx).currentPos = (advance tw).currentPos
          exact hadv
        · intro k hk
          exact e3 k (htm k hk)
        · exact e3 none htn

theorem run_tick_none [DecidableEq κ] {tw : TimeWheel κ δ ι} {log : List (Task κ δ)}
    (h : ticketHandle tw = (none, log)) (ops : List (Op κ δ)) :
    run tw (Op.tick :: ops) = (none, [log]) := by
  have hs : step tw Op.tick = (none, log) := h
  simp only [run, hs]

/-- A non-cyclic task with `circle = c` at the tail of slot `pos`, on any
wheel: the ticks up to the one that brings the cursor onto `pos` for the
`(c + 1)`-th time start the same jobs with and without the task, and that tick
starts the job of the task last; or a tick panics, with and without the task
alike. -/
theorem fire_general [DecidableEq κ] (x0 : Task κ δ) (hx : x0.cyclic = false) (pos : Int) :
    ∀ (m : Nat) (tw twx : TimeWheel κ δ ι) (c : Int), WF tw → 0 ≤ c →
      Extra { x0 with circle := c } pos tw twx →
      (m : Int) + 1 = dist tw.currentPos pos tw.slotNum + c * tw.slotNum →
      (∃ logs, run tw (ticks (m + 1)) = (none, logs) ∧
        run twx (ticks (m + 1)) = (none, logs)) ∨
      ∃ twB twA logs last, run tw (ticks (m + 1)) = (some twB, logs ++ [last]) ∧
        run twx (ticks (m + 1)) = (some twA, logs ++ [last ++ [{ x0 with circle := 0 }]]) ∧
        logs.length = m ∧ Same x0.key twB twA := by
  intro m
  induction m with
  | zero =>
    intro tw twx c hw hc hE hm
    have hpr : 0 ≤ pos ∧ pos < tw.slotNum := by
      obtain ⟨l, hl, _⟩ := hE
      obtain ⟨h0, h1, _⟩ := slotAt_eq_some hl
      have := hw.2.2.1
      omega
    obtain ⟨hd1, _, hd3, hd4, _⟩ := dist_advance hw.2.2.2.1 hw.2.2.2.2 hpr.1 hpr.2
    have hcn : 0 ≤ c * tw.slotNum := Int.mul_nonneg hc (le_of_lt hw.2.1)
    have hadv : (advance tw).currentPos
        = if tw.currentPos = tw.slotNum - 1 then 0 else tw.currentPos + 1 := rfl
    have hwn := hw.2.1
    have hw0 := hw.2.2.2.1
    have hw1c := hw.2.2.2.2
    rcases tick_extra { x0 with circle := c } hw hx hE with
      ⟨log, hth, hthx⟩ | ⟨tw1, twx1, log, hth, hw1, ec, en, hcase⟩
    · left
      exact ⟨[log], by rw [ticks_succ, run_tick_none hth],
        by rw [ticks_succ, run_tick_none hthx]⟩
    · right
      rcases hcase with ⟨hp, _, _⟩ | ⟨hp, hcx, _, _⟩ | ⟨hp, hcx, hthx, hS⟩
      · rw [hadv] at hp
        have := hd4 hp
        have h2 := (@dist_advance (if tw.currentPos = tw.slotNum - 1 then 0
          else tw.currentPos + 1) pos tw.slotNum
          (by split <;> omega) (by split <;> omega) hpr.1 hpr.2).1
        omega
      · have hcx2 : 0 < c := hcx
        have : tw.slotNum ≤ c * tw.slotNum := by nlinarith
        omega
      · have hc0 : c = 0 := by
          have : ¬ 0 < c := hcx
          omega
        subst hc0
        refine ⟨tw1, twx1, [], log, ?_, ?_, rfl, hS⟩
        · rw [ticks_succ, run_tick_cons hth]; rfl
        · rw [ticks_succ, run_tick_cons hthx]; rfl
  | succ m ih =>
    intro tw twx c hw hc hE hm
    have hpr : 0 ≤ pos ∧ pos < tw.slotNum := by
      obtain ⟨l, hl, _⟩ := hE
      obtain ⟨h0, h1, _⟩ := slotAt_eq_some hl
      have := hw.2.2.1
      omega
    obtain ⟨hd1, _, hd3, hd4, hd5⟩ := dist_advance hw.2.2.2.1 hw.2.2.2.2 hpr.1 hpr.2
    have hadv : (advance tw).currentPos
        = if tw.currentPos = tw.slotNum - 1 then 0 else tw.currentPos + 1 := rfl
    rcases tick_extra { x0 with circle := c } hw hx hE with
      ⟨log, hth, hthx⟩ | ⟨tw1, twx1, log, hth, hw1, ec, en, hcase⟩
    · left
      exact ⟨[log], by rw [ticks_succ, run_tick_none hth],
        by rw [ticks_succ, run_tick_none hthx]⟩
    · have hfin : ∀ twy1 : TimeWheel κ δ ι,
          ((∃ logs, run tw1 (ticks (m + 1)) = (none, logs) ∧
              run twy1 (ticks (m + 1)) = (none, logs)) ∨
            ∃ twB twA logs last, run tw1 (ticks (m + 1)) = (some twB, logs ++ [last]) ∧
              run twy1 (ticks (m + 1)) =
                (some twA, logs ++ [last ++ [{ x0 with circle := 0 }]]) ∧
              logs.length = m ∧ Same x0.key twB twA) →
          ticketHandle twx = (some twy1, log) →
          (∃ logs, run tw (ticks (m + 1 + 1)) = (none, logs) ∧
              run twx (ticks (m + 1 + 1)) = (none, logs)) ∨
          ∃ twB twA logs last, run tw (ticks (m + 1 + 1)) = (some twB, logs ++ [last]) ∧
            run twx (ticks (m + 1 + 1)) =
              (some twA, logs ++ [last ++ [{ x0 with circle := 0 }]]) ∧
            logs.length = m + 1 ∧ Same x0.key twB twA := by
        intro twy1 hres hthx
        rcases hres with ⟨logs, h1, h2⟩ | ⟨twB, twA, logs, last, h1, h2, h3, h4⟩
        · left
          refine ⟨log :: logs, ?_, ?_⟩
          · rw [ticks_succ, run_tick_cons hth, h1]
          · rw [ticks_succ, run_tick_cons hthx, h2]
        · right
          refine ⟨twB, twA, log :: logs, last, ?_, ?_, by simp [h3], h4⟩
          · rw [ticks_succ, run_tick_cons hth, h1]; rfl
          · rw [ticks_succ, run_tick_cons hthx, h2]; rfl
      push_cast at hm
      rcases hcase with ⟨hp, hthx, hE1⟩ | ⟨hp, hcx, hthx, hE1⟩ | ⟨hp, hcx, _, _⟩
      · refine hfin twx1 (ih tw1 twx1 c hw1 hc hE1 ?_) hthx
        rw [hadv] at hp
        have := hd4 hp
        rw [ec, en, hadv, this]
        omega
      · have hcx2 : 0 < c := hcx
        refine hfin twx1 (ih tw1 twx1 (c - 1) hw1 (by omega) hE1 ?_) hthx
        have := hd3 (hadv ▸ hp)
        have e : (c - 1) * tw.slotNum = c * tw.slotNum - tw.slotNum := by ring
        rw [ec, en, hp, hd5, e]
        omega
      · have hc0 : c = 0 := by
          have : ¬ 0 < c := hcx
          omega
        subst hc0
        rw [hadv] at hp
        have := hd3 hp
        simp only [zero_mul] at hm
        omega

/-! ## Adding a task, in terms of the tick count of the code -/

theorem AddTask_explicit [DecidableEq κ] (tw : TimeWheel κ δ ι) (hw : WF tw)
    (hi : Second ≤ tw.interval) (d : Int) (hd : 0 ≤ d) (cyclic : Bool) (key : Option κ)
    (x : δ) :
    ∃ l, slotAt tw.slots ((tw.currentPos + delayTicks tw d) % tw.slotNum) = some l ∧
      0 ≤ delayTicks tw d / tw.slotNum ∧ 0 ≤ delayTicks tw d ∧
      AddTask tw d cyclic key x = some { tw with
        slots := setSlot tw.slots ((tw.currentPos + delayTicks tw d) % tw.slotNum)
          (l ++ [⟨d, delayTicks tw d / tw.slotNum, key, x, cyclic⟩])
        timer := if key ≠ none then
          mapSet tw.timer key ((tw.currentPos + delayTicks tw d) % tw.slotNum)
          else tw.timer } := by
  have hw2 := hw
  obtain ⟨_, hn, hlen, h0, h1⟩ := hw2
  have hpc := getPositionAndCircle_ticks tw d hi hn h0 hd
  obtain ⟨hp0, hp1, hc0⟩ := getPositionAndCircle_range hw hd hpc
  obtain ⟨l, hl⟩ := slotAt_isSome tw.slots hp0 (by rw [hlen]; exact hp1)
  refine ⟨l, hl, hc0, (delayTicks_eq_ediv tw hi hd).2, ?_⟩
  simp only [AddTask, if_neg (not_lt.mpr hd)]
  exact addTask_eq ⟨d, 0, key, x, cyclic⟩ hpc hl

theorem AddTask_Extra [DecidableEq κ] (tw : TimeWheel κ δ ι) (hw : WF tw)
    (hi : Second ≤ tw.interval) (d : Int) (hd : 0 ≤ d) (key : Option κ) (x : δ) :
    ∃ tw1, AddTask tw d false key x = some tw1 ∧
      Extra { (⟨d, 0, key, x, false⟩ : Task κ δ) with circle := delayTicks tw d / tw.slotNum }
        ((tw.currentPos + delayTicks tw d) % tw.slotNum) tw tw1 ∧
      0 ≤ delayTicks tw d / tw.slotNum ∧ 0 ≤ delayTicks tw d := by
  obtain ⟨l, hl, hc0, hK0, hadd⟩ := AddTask_explicit tw hw hi d hd false key x
  refine ⟨_, hadd, ⟨l, hl, rfl, rfl, rfl, rfl, rfl, ?_, ?_⟩, hc0, hK0⟩
  · intro k hkk
    exact set_other _ _ (Ne.symm hkk)
  · by_cases hkn : key = none
    · simp [hkn]
    · exact set_other _ _ hkn

theorem AddTask_fields_eq [DecidableEq κ] (tw : TimeWheel κ δ ι) (hw : WF tw)
    (hi : Second ≤ tw.interval) (d : Int) (hd : 0 ≤ d) (cyclic : Bool) (k : κ) (x : δ) :
    ∃ l tw1, slotAt tw.slots ((tw.currentPos + delayTicks tw d) % tw.slotNum) = some l ∧
      0 ≤ delayTicks tw d / tw.slotNum ∧ 0 ≤ delayTicks tw d ∧
      AddTask tw d cyclic (some k) x = some tw1 ∧ WF tw1 ∧
      tw1.slots = setSlot tw.slots ((tw.currentPos + delayTicks tw d) % tw.slotNum)
        (l ++ [⟨d, delayTicks tw d / tw.slotNum, some k, x, cyclic⟩]) ∧
      tw1.timer = mapSet tw.timer (some k) ((tw.currentPos + delayTicks tw d) % tw.slotNum) ∧
      tw1.interval = tw.interval ∧ tw1.currentPos = tw.currentPos ∧
      tw1.slotNum = tw.slotNum ∧ tw1.job = tw.job := by
  obtain ⟨l, hl, hc, hK, hadd⟩ := AddTask_explicit tw hw hi d hd cyclic (some k) x
  refine ⟨l, _, hl, hc, hK, hadd, ?_, rfl, ?_, rfl, rfl, rfl, rfl⟩
  · refine ⟨hw.1, hw.2.1, ?_, hw.2.2.2.1, hw.2.2.2.2⟩
    simp only [length_setSlot]
    exact hw.2.2.1
  · simp

theorem firingTick_dist (tw : TimeWheel κ δ ι) (hw : WF tw) {d : Int}
    (hK : 0 ≤ delayTicks tw d) :
    firingTick tw d - 1 + 1 = firingTick tw d ∧
      ((firingTick tw d - 1 : Nat) : Int) + 1 =
        dist tw.currentPos ((tw.currentPos + delayTicks tw d) % tw.slotNum) tw.slotNum +
          delayTicks tw d / tw.slotNum * tw.slotNum := by
  have hn := hw.2.1
  have hpos : 1 ≤ firingTick tw d ∧ ((firingTick tw d : Nat) : Int) =
      if delayTicks tw d % tw.slotNum = 0 then delayTicks tw d + tw.slotNum
        else delayTicks tw d := by
    unfold firingTick
    split
    · omega
    · rename_i hk
      have : delayTicks tw d ≠ 0 := by
        intro h
        rw [h] at hk
        simp at hk
      omega
  refine ⟨by omega, ?_⟩
  rw [dist_init_all hw.2.2.2.1 hw.2.2.2.2, ← hpos.2]
  omega

theorem run_add_cons [DecidableEq κ] {tw tw1 : TimeWheel κ δ ι} {d : Int} {cyclic : Bool}
    {key : Option κ} {x : δ} (h : AddTask tw d cyclic key x = some tw1) (ops : List (Op κ δ)) :
    run tw (Op.add d cyclic key x :: ops) = ((run tw1 ops).1, [] :: (run tw1 ops).2) := by
  have hs : step tw (Op.add d cyclic key x) = (some tw1, []) := by
    simp only [step, h]
  simp only [run, hs]

/-- On a wheel with empty slots the ticks start no job. -/
theorem run_ticks_empty [DecidableEq κ] : ∀ (m : Nat) (tw : TimeWheel κ δ ι), WF tw →
    (∀ l ∈ tw.slots, l = []) →
    ∃ tw1, run tw (ticks m) = (some tw1, List.replicate m []) := by
  intro m
  induction m with
  | zero => intro tw _ _; exact ⟨tw, rfl⟩
  | succ m ih =>
    intro tw hw he
    have hnc : NoCyclic tw := by
      intro l hl t ht
      rw [he l hl] at ht
      simp at ht
    obtain ⟨l, tw1, hl, hth, hw1, _, es, _⟩ := tick_base hw hnc
    have hle : l = [] := he l (List.getElem?_mem (slotAt_eq_some hl).2.2)
    subst hle
    have he1 : ∀ l ∈ tw1.slots, l = [] := by
      intro m1 hm1
      rw [es] at hm1
      rcases mem_setSlot hm1 with rfl | h
      · rfl
      · exact he m1 h
    obtain ⟨tw2, h2⟩ := ih tw1 hw1 he1
    refine ⟨tw2, ?_⟩
    rw [ticks_succ, run_tick_cons hth, h2]
    rfl

/-- On the five-slot one-second wheel the delay `16777216999999999` ns counts
`16777217` ticks: the task is started on tick `16777217`, and the `16777216`
ticks before it start nothing. -/
theorem rounded_delay_fires_late :
    ∃ tw1, AddTask wheel5 16777216999999999 false (some "a") 42 = some tw1 ∧
      (run tw1 (ticks 16777217)).2 =
        List.replicate 16777216 [] ++ [[⟨16777216999999999, 0, some "a", 42, false⟩]] := by
  have hw : WF wheel5 := by decide
  have hK : delayTicks wheel5 16777216999999999 = 16777217 := by decide
  obtain ⟨tw1, hadd, hE, _, _⟩ :=
    AddTask_Extra wheel5 hw (by decide) 16777216999999999 (by decide) (some "a") 42
  rw [hK] at hE
  have hpos : ((wheel5.currentPos + 16777217) % wheel5.slotNum : Int) = 2 := by decide
  have hcirc : ((16777217 : Int) / wheel5.slotNum) = 3355443 := by decide
  rw [hpos, hcirc] at hE
  have hm : ((16777216 : Nat) : Int) + 1 =
      dist wheel5.currentPos 2 wheel5.slotNum + 3355443 * wheel5.slotNum := by decide
  obtain ⟨twB, twA, logs, last, hB, hA, hlen, _⟩ :=
    fire_after ⟨16777216999999999, 0, some "a", 42, false⟩ rfl 2 16777216 wheel5 tw1 3355443
      hw (by decide) (by decide) hE hm
  obtain ⟨tw2, h2⟩ := run_ticks_empty (16777216 + 1) wheel5 hw (by decide)
  rw [h2, List.replicate_succ', Prod.mk.injEq] at hB
  have hlen2 : (List.replicate 16777216 ([] : List (Task String Nat))).length = logs.length := by
    rw [List.length_replicate, hlen]
  obtain ⟨e1, e2⟩ := List.append_inj hB.2 hlen2
  simp only [List.cons.injEq, and_true] at e2
  refine ⟨tw1, hadd, ?_⟩
  rw [hA, ← e1, ← e2]
  rfl

/-! ## Single-fire delivery -/

/-- C2 (as stated, refuted), at four inputs.
Interval 1.5s, delay 3s: `k = floor(3 / 1.5) = 2`, yet the two ticks after the
add start nothing; the job is started on tick 3.
Interval 1s, five slots, delay 5s: `k = 5`, yet the five ticks after the add
start nothing; the job is started on tick 10.
Interval 1s, five slots, cursor at 3, a cyclic task resident in slot 0, delay
3s: tick 2 panics and the job of the added task is never started.
Interval 1s, five slots, delay `16777216999999999` ns: `k = 16777216`, which
is not a multiple of 5, yet the `16777216` ticks after the add start nothing;
the job is started on tick `16777217`. -/
theorem single_fire_not_on_tick_k :
    ((3000000000 : Int) / wheelFractional.interval = 2 ∧
      (run wheelFractional (Op.add 3000000000 false (some "a") 42 :: ticks 2)).2 =
        [[], [], []] ∧
      (run wheelFractional (Op.add 3000000000 false (some "a") 42 :: ticks 3)).2 =
        [[], [], [], [⟨3000000000, 0, some "a", 42, false⟩]]) ∧
    ((5000000000 : Int) / wheel5.interval = 5 ∧
      (run wheel5 (Op.add 5000000000 false (some "a") 42 :: ticks 5)).2 =
        [[], [], [], [], [], []] ∧
      (run wheel5 (Op.add 5000000000 false (some "a") 42 :: ticks 10)).2 =
        [[], [], [], [], [], [], [], [], [], [], [⟨5000000000, 0, some "a", 42, false⟩]]) ∧
    ((3000000000 : Int) / wheel5At3.interval = 3 ∧
      (run wheel5At3 (Op.add 2000000000 true (some "c") 1 ::
        Op.add 3000000000 false (some "a") 42 :: ticks 3)).1.isSome = false ∧
      (run wheel5At3 (Op.add 2000000000 true (some "c") 1 ::
        Op.add 3000000000 false (some "a") 42 :: ticks 3)).2 =
        [[], [], [], [⟨2000000000, 0, some "c", 1, true⟩]]) ∧
    ((16777216999999999 : Int) / wheel5.interval = 16777216 ∧
      (16777216 : Int) % wheel5.slotNum ≠ 0 ∧
      ∃ tw1, AddTask wheel5 16777216999999999 false (some "a") 42 = some tw1 ∧
        (run tw1 (ticks 16777217)).2 =
          List.replicate 16777216 [] ++
            [[⟨16777216999999999, 0, some "a", 42, false⟩]]) := by
  refine ⟨⟨by decide, by decide, by decide⟩, ⟨by decide, by decide, by decide⟩,
    ⟨by decide, by decide, by decide⟩, ⟨by decide, by decide, rounded_delay_fires_late⟩⟩

/-- C2 (amended): on a well-formed wheel, whatever tasks it holds, let a
non-cyclic task be added with `delay = d ≥ 0`, key `key` and payload `x`, and
let `k = int(d.Seconds()) / int(interval.Seconds())`, the tick count of the
code, with `k mod slotNum ≠ 0`; let the add and the `k` ticks after it complete
(the add does not divide by zero, which needs an interval of at least one
second, and no tick panics on the re-insert of a due cyclic task).  Handling
`k` ticks after the add starts, tick by tick, exactly the jobs that the same
`k` ticks start on the wheel without the task, and in addition, at the end of
tick `k`, the job of the added task with payload `x`, once.  After these ticks
the ring is the ring of the wheel without the task (the task is in no slot),
and a non-nil `key` is not in the key index.  When the interval is a whole
number of seconds and `d` is below `2^24` seconds, `k = floor(d / interval)`. -/
theorem single_fire [DecidableEq κ] (tw : TimeWheel κ δ ι) (hw : WF tw)
    (d : Int) (hd : 0 ≤ d) (key : Option κ) (x : δ)
    (hk : delayTicks tw d % tw.slotNum ≠ 0)
    (hrun : (run tw (Op.add d false key x :: ticks (delayTicks tw d).toNat)).1.isSome = true) :
    (∃ tw1 twA twB logs last, AddTask tw d false key x = some tw1 ∧
      run tw1 (ticks (delayTicks tw d).toNat) =
        (some twA, logs ++ [last ++ [⟨d, 0, key, x, false⟩]]) ∧
      run tw (ticks (delayTicks tw d).toNat) = (some twB, logs ++ [last]) ∧
      logs.length + 1 = (delayTicks tw d).toNat ∧
      twA.slots = twB.slots ∧ twA.currentPos = twB.currentPos ∧
      (∀ k, k ≠ key → twA.timer k = twB.timer k) ∧
      (key ≠ none → twA.timer key = none)) ∧
    (Second ∣ tw.interval → tw.interval ≤ maxDuration → d < 16777216 * Second →
      delayTicks tw d = d / tw.interval) := by
  have hw2 := hw
  obtain ⟨hi0, hn, hlen, h0, h1⟩ := hw2
  refine ⟨?_, fun hs hmax hlt => delayTicks_floor tw hd hi0 hs hmax hlt⟩
  have hi : Second ≤ tw.interval := by
    by_contra hlt
    have hlt2 : tw.interval < Second := not_le.mp hlt
    have hz : seconds tw.interval = 0 := by
      rw [seconds_exact (le_of_lt hi0) (lt_trans hlt2 (by decide))]
      exact Int.ediv_eq_zero_of_lt (le_of_lt hi0) hlt2
    have hnone : AddTask tw d false key x = none := by
      simp only [AddTask, if_neg (not_lt.mpr hd), addTask, getPositionAndCircle,
        getPositionAndCircleWith, hz, if_true]
    have hs : step tw (Op.add d false key x) = (none, []) := by
      simp only [step, hnone]
    simp only [run, hs] at hrun
    simp at hrun
  obtain ⟨tw1, hadd, hE, hc0, hK0⟩ := AddTask_Extra tw hw hi d hd key x
  have hK1 : delayTicks tw d ≠ 0 := by
    intro h
    rw [h] at hk
    simp at hk
  have hm : (((delayTicks tw d).toNat - 1 : Nat) : Int) + 1 =
      dist tw.currentPos ((tw.currentPos + delayTicks tw d) % tw.slotNum) tw.slotNum +
        delayTicks tw d / tw.slotNum * tw.slotNum := by
    rw [dist_init h0 h1 hk]
    omega
  have hsucc : (delayTicks tw d).toNat - 1 + 1 = (delayTicks tw d).toNat := by omega
  rw [run_add_cons hadd] at hrun
  rcases fire_general ⟨d, 0, key, x, false⟩ rfl _ ((delayTicks tw d).toNat - 1) tw tw1 _ hw hc0
    hE hm with ⟨logs, _, hA⟩ | ⟨twB, twA, logs, last, hB, hA, hlog, hS⟩
  · rw [hsucc] at hA
    rw [hA] at hrun
    simp at hrun
  · rw [hsucc] at hB hA
    exact ⟨tw1, twA, twB, logs, last, hadd, hA, hB, by omega, hS.1, hS.2.2.1, hS.2.2.2.2.2.1,
      hS.2.2.2.2.2.2.2⟩

/-- C2 witness: on the five-slot one-second wheel with a cyclic task resident
in slot 2, a task with delay 3s is started once, on the third tick, after the
cyclic task was started on the second.  On the empty wheel a task with delay 3s
is started on tick 3, and a task with delay 12s on tick 12 and on none of the
ticks before. -/
theorem single_fire_witness :
    (WF wheelCyclicSlot2 ∧ (0 : Int) ≤ 3000000000 ∧
      delayTicks wheelCyclicSlot2 3000000000 % wheelCyclicSlot2.slotNum ≠ 0 ∧
      (run wheelCyclicSlot2 (Op.add 3000000000 false (some "a") 42 ::
        ticks (delayTicks wheelCyclicSlot2 3000000000).toNat)).1.isSome = true ∧
      Second ∣ wheelCyclicSlot2.interval ∧ wheelCyclicSlot2.interval ≤ maxDuration ∧
      (3000000000 : Int) < 16777216 * Second) ∧
    (∃ tw1 twA twB logs last,
      AddTask wheelCyclicSlot2 3000000000 false (some "a") 42 = some tw1 ∧
      run tw1 (ticks (delayTicks wheelCyclicSlot2 3000000000).toNat) =
        (some twA, logs ++ [last ++ [⟨3000000000, 0, some "a", 42, false⟩]]) ∧
      run wheelCyclicSlot2 (ticks (delayTicks wheelCyclicSlot2 3000000000).toNat) =
        (some twB, logs ++ [last]) ∧
      logs.length + 1 = (delayTicks wheelCyclicSlot2 3000000000).toNat ∧
      twA.slots = twB.slots ∧ twA.currentPos = twB.currentPos ∧
      (∀ k, k ≠ some "a" → twA.timer k = twB.timer k) ∧
      (some "a" ≠ none → twA.timer (some "a") = none)) ∧
    delayTicks wheelCyclicSlot2 3000000000 = 3000000000 / wheelCyclicSlot2.interval ∧
    (run wheelCyclicSlot2 (Op.add 3000000000 false (some "a") 42 :: ticks 3)).2 =
      [[], [], [⟨2000000000, 0, some "c", 1, true⟩],
        [⟨3000000000, 0, some "a", 42, false⟩]] ∧
    (run wheel5 (Op.add 3000000000 false (some "a") 42 :: ticks 3)).2 =
      [[], [], [], [⟨3000000000, 0, some "a", 42, false⟩]] ∧
    (run wheel5 (Op.add 12000000000 false (some "b") 7 :: ticks 12)).2 =
      [[], [], [], [], [], [], [], [], [], [], [], [],
        [⟨12000000000, 0, some "b", 7, false⟩]] :=
  ⟨⟨by decide, by decide, by decide, by decide, dvd_refl _, by decide, by decide⟩,
   (single_fire wheelCyclicSlot2 (by decide) 3000000000 (by decide)
     (some "a") 42 (by decide) (by decide)).1,
   (single_fire wheelCyclicSlot2 (by decide) 3000000000 (by decide)
     (some "a") 42 (by decide) (by decide)).2 (dvd_refl _) (by decide) (by decide),
   by decide, by decide, by decide⟩

/-! ## A task that the key index does not reach -/

theorem RemoveTask_fields [DecidableEq κ] {tw tw1 : TimeWheel κ δ ι} {key : Option κ}
    (h : RemoveTask tw key = some tw1) :
    tw1.currentPos = tw.currentPos ∧ tw1.slotNum = tw.slotNum := by
  unfold RemoveTask at h
  split at h
  · simp only [Option.some.injEq] at h
    subst h
    exact ⟨rfl, rfl⟩
  · have := removeTask_fields h
    exact ⟨this.1, this.2.1⟩

/-- `RemoveTask`, for any key, does not remove a task that the key index does
not reach. -/
theorem RemoveTask_Shadowed [DecidableEq κ] {x : Task κ δ} {pos : Int}
    {tw tw1 : TimeWheel κ δ ι} (key : Option κ) (hS : Shadowed x pos tw)
    (h : RemoveTask tw key = some tw1) : Shadowed x pos tw1 := by
  obtain ⟨l, hl, hsh⟩ := hS
  unfold RemoveTask at h
  split at h
  · simp only [Option.some.injEq] at h
    subst h
    exact ⟨l, hl, hsh⟩
  · unfold removeTask at h
    split at h
    · simp only [Option.some.injEq] at h
      subst h
      exact ⟨l, hl, hsh⟩
    · rename_i q hq
      split at h
      · cases h
      · rename_i lq hlq
        simp only [Option.some.injEq] at h
        subst h
        have hq0 := (slotAt_eq_some hlq).1
        by_cases hqp : q = pos
        · subst hqp
          rw [hl] at hlq
          cases hlq
          by_cases hm : ∃ t ∈ l, t.key = key
          · obtain ⟨t, ht, htk⟩ := hm
            rw [removeLoop_of_mem key tw.timer _ [] ⟨t, List.mem_append_left _ ht, htk⟩]
            have he : (l ++ [x]).eraseP (fun t => decide (t.key = key)) =
                l.eraseP (fun t => decide (t.key = key)) ++ [x] :=
              List.eraseP_append_left (by simpa using htk) _ ht
            refine ⟨l.eraseP (fun t => decide (t.key = key)), ?_, ?_⟩
            · show slotAt (setSlot tw.slots q _) q = _
              rw [slotAt_setSlot_same _ hl, List.nil_append, he]
            · intro h2
              have h3 : mapDelete tw.timer key x.key = some q := h2
              rw [mapDelete_apply] at h3
              split at h3
              · cases h3
              · rename_i hxk
                obtain ⟨u, hu, huk⟩ := hsh h3
                refine ⟨u, ?_, huk⟩
                rw [List.mem_eraseP_of_neg (by simpa [huk] using hxk)]
                exact hu
          · have hxk : x.key ≠ key := by
              intro hxk
              rw [← hxk] at hq
              obtain ⟨u, hu, huk⟩ := hsh hq
              exact hm ⟨u, hu, huk.trans hxk⟩
            have hall : ∀ t ∈ l ++ [x], t.key ≠ key := by
              intro t ht
              rcases List.mem_append.mp ht with ht | ht
              · exact fun htk => hm ⟨t, ht, htk⟩
              · rw [List.mem_singleton.mp ht]; exact hxk
            rw [removeLoop_of_not_mem key tw.timer _ [] hall]
            refine ⟨l, ?_, hsh⟩
            show slotAt (setSlot tw.slots q _) q = _
            rw [slotAt_setSlot_same _ hl, List.nil_append]
        · refine ⟨l, ?_, ?_⟩
          · show slotAt (setSlot tw.slots q _) pos = _
            rw [slotAt_setSlot_ne _ _ hq0 hqp]
            exact hl
          · intro h2
            apply hsh
            by_cases hm : ∃ t ∈ lq, t.key = key
            · rw [removeLoop_of_mem key tw.timer _ [] hm] at h2
              have h3 : mapDelete tw.timer key x.key = some pos := h2
              rw [mapDelete_apply] at h3
              split at h3
              · cases h3
              · exact h3
            · rw [removeLoop_of_not_mem key tw.timer _ []
                (fun t ht htk => hm ⟨t, ht, htk⟩)] at h2
              exact h2

/-- One tick that completes leaves a non-cyclic task that the key index does
not reach in place, decreases its `circle`, or starts it last. -/
theorem tick_Shadowed [DecidableEq κ] (x : Task κ δ) {pos : Int} {tw tw1 : TimeWheel κ δ ι}
    {log : List (Task κ δ)} (hw : WF tw) (hx : x.cyclic = false) (hk : x.key ≠ none)
    (hS : Shadowed x pos tw) (h : ticketHandle tw = (some tw1, log)) :
    ((advance tw).currentPos ≠ pos ∧ Shadowed x pos tw1) ∨
    ((advance tw).currentPos = pos ∧ 0 < x.circle ∧
      Shadowed { x with circle := x.circle - 1 } pos tw1) ∨
    ((advance tw).currentPos = pos ∧ ¬ 0 < x.circle ∧ ∃ last, log = last ++ [x]) := by
  obtain ⟨l, hl, hsh⟩ := hS
  obtain ⟨lp, hlp, hT⟩ := ticketHandle_scanPure hw
  have hp0 := (slotAt_eq_some hlp).1
  rcases hT with ⟨log1, _, hth⟩ | ⟨r, log1, hs, hth⟩
  · rw [hth] at h
    cases h
  · rw [hth] at h
    simp only [Prod.mk.injEq, Option.some.injEq] at h
    obtain ⟨h1, h2⟩ := h
    subst h1 h2
    by_cases hp : (advance tw).currentPos = pos
    · rw [hp, hl] at hlp
      cases hlp
      obtain ⟨hX1, hX2⟩ := scanPure_extra (reinsertOK tw) (advance tw).currentPos x hx l
        tw.timer tw.timer
      cases hA : scanPure (reinsertOK tw) (advance tw).currentPos tw.timer [] l with
      | mk o logA =>
        cases o with
        | none =>
          rw [(hX1 logA hA).2] at hs
          cases hs
        | some rA =>
          obtain ⟨tmB, _, hB2, hB3⟩ := hX2 rA logA hA
          rw [hA] at hB2
          simp only [Prod.mk.injEq, Option.some.injEq, and_true] at hB2
          have hkey : tmB x.key = some (advance tw).currentPos → ∃ t ∈ rA.2, t.key = x.key := by
            intro hq
            have := scanPure_keyinv (reinsertOK tw) (advance tw).currentPos hk l [] tw.timer rA
              (by rw [hA]) (fun h1 => Or.inr (hsh (hp ▸ h1))) (by rw [hB2]; exact hq)
            exact this
          by_cases hcx : 0 < x.circle
          · rw [if_pos hcx, hs] at hB3
            simp only [Prod.mk.injEq, Option.some.injEq] at hB3
            obtain ⟨hr, _⟩ := hB3
            subst hr
            refine Or.inr (Or.inl ⟨hp, hcx, rA.2, ?_, ?_⟩)
            · show slotAt (setSlot tw.slots (advance tw).currentPos _) pos = _
              rw [hp]
              exact slotAt_setSlot_same _ hl
            · intro hq
              exact hkey (hp ▸ hq)
          · rw [if_neg hcx, hs] at hB3
            simp only [Prod.mk.injEq, Option.some.injEq] at hB3
            exact Or.inr (Or.inr ⟨hp, hcx, logA, hB3.2⟩)
    · refine Or.inl ⟨hp, l, ?_, ?_⟩
      · show slotAt (setSlot tw.slots (advance tw).currentPos _) pos = _
        rw [slotAt_setSlot_ne _ _ hp0 hp]
        exact hl
      · intro hq
        apply hsh
        exact scanPure_timer_other (reinsertOK tw) (advance tw).currentPos lp [] tw.timer r
          (by rw [hs]) x.key pos hq (Ne.symm hp)

theorem run_cons_some [DecidableEq κ] {tw tw2 : TimeWheel κ δ ι} {op : Op κ δ}
    {ops : List (Op κ δ)} {logs : List (List (Task κ δ))}
    (h : run tw (op :: ops) = (some tw2, logs)) :
    ∃ tw1 log rest, step tw op = (some tw1, log) ∧ run tw1 ops = (some tw2, rest) ∧
      logs = log :: rest := by
  simp only [run] at h
  split at h
  · simp at h
  · rename_i tw1 log hs
    simp only [Prod.mk.injEq] at h
    exact ⟨tw1, log, _, hs, Prod.ext h.1 rfl, h.2.symm⟩

/-- Over events that are ticks and `RemoveTask` calls, with fewer ticks than
bring the cursor onto slot `pos` for the `(c + 1)`-th time, a non-cyclic task
with `circle = c` that the key index does not reach stays the last task of
slot `pos`. -/
theorem run_Shadowed [DecidableEq κ] (x0 : Task κ δ) (hx : x0.cyclic = false)
    (hk : x0.key ≠ none) (pos : Int) :
    ∀ (ops : List (Op κ δ)) (tw tw1 : TimeWheel κ δ ι) (c : Int)
      (logs : List (List (Task κ δ))), WF tw → 0 ≤ c →
      Shadowed { x0 with circle := c } pos tw → ops.all notAdd = true →
      (tickCount ops : Int) < dist tw.currentPos pos tw.slotNum + c * tw.slotNum →
      run tw ops = (some tw1, logs) →
      ∃ c1, 0 ≤ c1 ∧ WF tw1 ∧ Shadowed { x0 with circle := c1 } pos tw1 ∧
        dist tw1.currentPos pos tw1.slotNum + c1 * tw1.slotNum =
          dist tw.currentPos pos tw.slotNum + c * tw.slotNum - (tickCount ops : Int) := by
  intro ops
  induction ops with
  | nil =>
    intro tw tw1 c logs hw hc hS _ _ hr
    simp only [run, Prod.mk.injEq, Option.some.injEq] at hr
    obtain ⟨rfl, _⟩ := hr
    exact ⟨c, hc, hw, hS, by simp [tickCount]⟩
  | cons op ops ih =>
    intro tw tw1 c logs hw hc hS hall hlt hr
    simp only [List.all_cons, Bool.and_eq_true] at hall
    obtain ⟨tw2, log, rest, hs, hr2, _⟩ := run_cons_some hr
    have hw2 : WF tw2 := step_WF hw hs
    have hpr : 0 ≤ pos ∧ pos < tw.slotNum := by
      obtain ⟨l, hl, _⟩ := hS
      obtain ⟨h0, h1, _⟩ := slotAt_eq_some hl
      have := hw.2.2.1
      omega
    obtain ⟨hd1, _, hd3, hd4, hd5⟩ := dist_advance hw.2.2.2.1 hw.2.2.2.2 hpr.1 hpr.2
    cases op with
    | add delay cyclic key data => simp [notAdd] at hall
    | remove key =>
      have hrm : RemoveTask tw key = some tw2 := by
        simp only [step, Prod.mk.injEq] at hs
        exact hs.1
      obtain ⟨ec, en⟩ := RemoveTask_fields hrm
      have hS2 := RemoveTask_Shadowed key hS hrm
      have ht : tickCount (Op.remove key :: ops) = tickCount ops := rfl
      rw [ht] at hlt ⊢
      obtain ⟨c1, h1, h2, h3, h4⟩ := ih tw2 tw1 c rest hw2 hc hS2 hall.2
        (by rw [ec, en]; exact hlt) hr2
      exact ⟨c1, h1, h2, h3, by rw [h4, ec, en]⟩
    | tick =>
      have hth : ticketHandle tw = (some tw2, log) := hs
      obtain ⟨ec, en, _⟩ := ticketHandle_fields hth
      have hadv : (advance tw).currentPos
          = if tw.currentPos = tw.slotNum - 1 then 0 else tw.currentPos + 1 := rfl
      have ht : tickCount (Op.tick :: ops) = tickCount ops + 1 := rfl
      rw [ht] at hlt ⊢
      push_cast at hlt ⊢
      have hn := hw.2.1
      rcases tick_Shadowed { x0 with circle := c } hw hx hk hS hth with ⟨hp, hS2⟩ | ⟨hp, hcx, hS2⟩ | ⟨hp, hcx, _⟩
      · rw [hadv] at hp
        have h5 := hd4 hp
        obtain ⟨c1, h1, h2, h3, h4⟩ := ih tw2 tw1 c rest hw2 hc hS2 hall.2
          (by rw [ec, en, hadv, h5]; omega) hr2
        exact ⟨c1, h1, h2, h3, by rw [h4, ec, en, hadv, h5]; omega⟩
      · have hcx2 : 0 < c := hcx
        have h5 := hd3 (hadv ▸ hp)
        have e : (c - 1) * tw.slotNum = c * tw.slotNum - tw.slotNum := by ring
        obtain ⟨c1, h1, h2, h3, h4⟩ := ih tw2 tw1 (c - 1) rest hw2 (by omega) hS2 hall.2
          (by rw [ec, en, hp, hd5, e]; omega) hr2
        exact ⟨c1, h1, h2, h3, by rw [h4, ec, en, hp, hd5, e]; omega⟩
      · have hc0 : c = 0 := by
          have : ¬ 0 < c := hcx
          omega
        subst hc0
        have h5 := hd3 (hadv ▸ hp)
        simp only [zero_mul] at hlt
        omega

/-- Over ticks and `RemoveTask` calls, the tick that brings the cursor onto
slot `pos` for the `(c + 1)`-th time starts, last, the job of a non-cyclic task
with `circle = c` that the key index did not reach. -/
theorem fire_Shadowed [DecidableEq κ] (x0 : Task κ δ) (hx : x0.cyclic = false)
    (hk : x0.key ≠ none) (pos : Int) (ops : List (Op κ δ)) (tw tw1 : TimeWheel κ δ ι)
    (c : Int) (logs : List (List (Task κ δ))) (hw : WF tw) (hc : 0 ≤ c)
    (hS : Shadowed { x0 with circle := c } pos tw) (hall : ops.all notAdd = true)
    (hT : (tickCount ops : Int) + 1 = dist tw.currentPos pos tw.slotNum + c * tw.slotNum)
    (hr : run tw (ops ++ [Op.tick]) = (some tw1, logs)) :
    ∃ logs0 last, logs = logs0 ++ [last ++ [{ x0 with circle := 0 }]] := by
  rw [run_append] at hr
  cases hr1 : run tw ops with
  | mk o la =>
    rw [hr1] at hr
    cases o with
    | none => simp at hr
    | some tw2 =>
      simp only [Prod.mk.injEq] at hr
      obtain ⟨hr2, hr3⟩ := hr
      obtain ⟨c1, hc1, hw2, hS2, h4⟩ := run_Shadowed x0 hx hk pos ops tw tw2 c la hw hc hS hall
        (by omega) hr1
      have hpr : 0 ≤ pos ∧ pos < tw2.slotNum := by
        obtain ⟨l, hl, _⟩ := hS2
        obtain ⟨h0, h1, _⟩ := slotAt_eq_some hl
        have := hw2.2.2.1
        omega
      obtain ⟨hd1, _, hd3, hd4, hd5⟩ := dist_advance hw2.2.2.2.1 hw2.2.2.2.2 hpr.1 hpr.2
      have hn := hw2.2.1
      have hw0 := hw2.2.2.2.1
      have hw1c := hw2.2.2.2.2
      have hcn : 0 ≤ c1 * tw2.slotNum := Int.mul_nonneg hc1 (le_of_lt hn)
      have hdist : dist tw2.currentPos pos tw2.slotNum = 1 ∧ c1 * tw2.slotNum = 0 := by
        constructor <;> omega
      have hc10 : c1 = 0 := by
        rcases Int.mul_eq_zero.mp hdist.2 with h | h
        · exact h
        · omega
      subst hc10
      cases hst : ticketHandle tw2 with
      | mk o2 log =>
        have hrun1 : run tw2 [Op.tick] = (match o2 with
            | none => (none, [log])
            | some tw3 => (some tw3, [log])) := by
          have hs : step tw2 Op.tick = (o2, log) := hst
          cases o2 <;> simp [run, hs]
        cases o2 with
        | none =>
          rw [hrun1] at hr2
          simp at hr2
        | some tw3 =>
          rw [hrun1] at hr3
          simp only at hr3
          have hadv : (advance tw2).currentPos
              = if tw2.currentPos = tw2.slotNum - 1 then 0 else tw2.currentPos + 1 := rfl
          rcases tick_Shadowed { x0 with circle := 0 } hw2 hx hk hS2 hst with ⟨hp, _⟩ | ⟨_, hcx, _⟩ | ⟨_, _, last, hlast⟩
          · rw [hadv] at hp
            have h5 := hd4 hp
            have h6 := (@dist_advance (if tw2.currentPos = tw2.slotNum - 1 then 0
              else tw2.currentPos + 1) pos tw2.slotNum
              (by split <;> omega) (by split <;> omega) hpr.1 hpr.2).1
            omega
          · have : (0 : Int) < 0 := hcx
            omega
          · exact ⟨la, last, by rw [← hr3, hlast]⟩

/-! ## The exact firing tick, from the tick count of the code -/

theorem firingTick_cast (tw : TimeWheel κ δ ι) (hw : WF tw) {d : Int}
    (hK : 0 ≤ delayTicks tw d) :
    ((firingTick tw d : Nat) : Int) =
      if delayTicks tw d % tw.slotNum = 0 then delayTicks tw d + tw.slotNum
        else delayTicks tw d := by
  have hn := hw.2.1
  unfold firingTick
  split <;> omega

/-- C17 (as stated, refuted): on the five-slot one-second wheel, which holds no
task, let a non-cyclic task be added with the delay `16777216999999999` ns.
`k = floor(delay / interval) = 16777216` and `k mod 5 = 1`, so the claim puts
the job on tick `16777216`.  `int(delay.Seconds())` is `16777217`: the task
lands in slot 2 with `circle = 3355443`, the `16777216` ticks after the add
start nothing, and the job is started on tick `16777217`. -/
theorem firing_tick_rounded_up :
    WF wheel5 ∧ Second ∣ wheel5.interval ∧ NoCyclic wheel5 ∧
    (16777216999999999 : Int) / wheel5.interval = 16777216 ∧
    (16777216 : Int) % wheel5.slotNum = 1 ∧
    seconds 16777216999999999 = 16777217 ∧
    getPositionAndCircle wheel5 16777216999999999 = some (2, 3355443) ∧
    ∃ tw1, AddTask wheel5 16777216999999999 false (some "a") 42 = some tw1 ∧
      (run tw1 (ticks 16777217)).2 =
        List.replicate 16777216 [] ++
          [[⟨16777216999999999, 0, some "a", 42, false⟩]] :=
  ⟨by decide, dvd_refl _, by decide, by decide, by decide, by decide, by decide,
    rounded_delay_fires_late⟩

/-- C17 (amended): on a well-formed wheel whose interval is at least one
second and that holds no cyclic task, a non-cyclic task added with
`delay = d ≥ 0` is started exactly once, on tick `firingTick` after the add
(`k` when `k mod slotNum ≠ 0`, `k + slotNum` when `k mod slotNum = 0`, for the
tick count `k = int(d.Seconds()) / int(interval.Seconds())` of the code), and on
no other tick: over `firingTick + j` ticks, for every `j`, the jobs started
are, tick by tick, those started on the wheel without the task, plus the job of
the added task at the end of tick `firingTick`.  When the interval is a whole
number of seconds and `d` is below `2^24` seconds, `k = floor(d / interval)`. -/
theorem exact_firing_tick [DecidableEq κ] (tw : TimeWheel κ δ ι) (hw : WF tw)
    (hi : Second ≤ tw.interval) (hnc : NoCyclic tw) (d : Int) (hd : 0 ≤ d)
    (key : Option κ) (x : δ) (j : Nat) :
    (∃ tw1 twA twB logs last rest, AddTask tw d false key x = some tw1 ∧
      run tw1 (ticks (firingTick tw d + j)) =
        (some twA, (logs ++ [last ++ [⟨d, 0, key, x, false⟩]]) ++ rest) ∧
      run tw (ticks (firingTick tw d + j)) = (some twB, (logs ++ [last]) ++ rest) ∧
      logs.length + 1 = firingTick tw d ∧ rest.length = j ∧ twA.slots = twB.slots) ∧
    ((firingTick tw d : Int) =
      if delayTicks tw d % tw.slotNum = 0 then delayTicks tw d + tw.slotNum
        else delayTicks tw d) ∧
    (Second ∣ tw.interval → tw.interval ≤ maxDuration → d < 16777216 * Second →
      delayTicks tw d = d / tw.interval) := by
  obtain ⟨tw1, hadd, hE, hc0, hK0⟩ := AddTask_Extra tw hw hi d hd key x
  refine ⟨?_, firingTick_cast tw hw hK0,
    fun hs hmax hlt => delayTicks_floor tw hd hw.1 hs hmax hlt⟩
  obtain ⟨hT1, hT⟩ := firingTick_dist tw hw hK0
  obtain ⟨twB, twA, logs, last, hB, hA, hlog, hS⟩ :=
    fire_after ⟨d, 0, key, x, false⟩ rfl _ (firingTick tw d - 1) tw tw1 _ hw hnc hc0 hE hT
  rw [hT1] at hB hA
  have hwB : WF twB := run_WF _ hw hB
  have hncB : NoCyclic twB := run_ticks_NoCyclic _ tw hw hnc hB
  obtain ⟨twB2, twA2, rest, hB2, hA2, hlen, hS2⟩ := run_same j twB twA hwB hncB hS
  have hsplit : (ticks (firingTick tw d + j) : List (Op κ δ)) =
      ticks (firingTick tw d) ++ ticks j := by
    unfold ticks
    rw [List.replicate_add]
  refine ⟨tw1, twA2, twB2, logs, last, rest, hadd, ?_, ?_, by omega, hlen, hS2.1⟩
  · rw [hsplit, run_append, hA]
    simp only [hA2]
  · rw [hsplit, run_append, hB]
    simp only [hB2]

/-- C17 witness: on the five-slot one-second wheel a task with delay 0 is
started on tick 5 and on no other of the first seven ticks; delays below one
second fire on tick 5, delay 3s on tick 3, delay 5s on tick 10. -/
theorem exact_firing_tick_witness :
    (WF wheel5 ∧ Second ≤ wheel5.interval ∧ NoCyclic wheel5 ∧ (0 : Int) ≤ 0 ∧
      Second ∣ wheel5.interval ∧ wheel5.interval ≤ maxDuration ∧
      (0 : Int) < 16777216 * Second) ∧
    (∃ tw1 twA twB logs last rest, AddTask wheel5 0 false (some "a") 42 = some tw1 ∧
      run tw1 (ticks (firingTick wheel5 0 + 2)) =
        (some twA, (logs ++ [last ++ [⟨0, 0, some "a", 42, false⟩]]) ++ rest) ∧
      run wheel5 (ticks (firingTick wheel5 0 + 2)) = (some twB, (logs ++ [last]) ++ rest) ∧
      logs.length + 1 = firingTick wheel5 0 ∧ rest.length = 2 ∧ twA.slots = twB.slots) ∧
    ((firingTick wheel5 0 : Int) =
      if delayTicks wheel5 0 % wheel5.slotNum = 0 then delayTicks wheel5 0 + wheel5.slotNum
        else delayTicks wheel5 0) ∧
    delayTicks wheel5 0 = 0 / wheel5.interval ∧
    (firingTick wheel5 0 = 5 ∧ firingTick wheel5 500000000 = 5 ∧
      firingTick wheel5 3000000000 = 3 ∧ firingTick wheel5 5000000000 = 10) ∧
    (run wheel5 (Op.add 0 false (some "a") 42 :: ticks 7)).2 =
      [[], [], [], [], [], [⟨0, 0, some "a", 42, false⟩], [], []] ∧
    (run wheel5 (Op.add 5000000000 false (some "a") 42 :: ticks 11)).2 =
      [[], [], [], [], [], [], [], [], [], [], [⟨5000000000, 0, some "a", 42, false⟩], []] :=
  ⟨⟨by decide, by decide, by decide, by decide, dvd_refl _, by decide, by decide⟩,
   (exact_firing_tick wheel5 (by decide) (by decide) (by decide) 0 (by decide)
     (some "a") 42 2).1,
   (exact_firing_tick wheel5 (by decide) (by decide) (by decide) 0 (by decide)
     (some "a") 42 2).2.1,
   (exact_firing_tick wheel5 (by decide) (by decide) (by decide) 0 (by decide)
     (some "a") 42 2).2.2 (dvd_refl _) (by decide) (by decide),
   ⟨by decide, by decide, by decide, by decide⟩, by decide, by decide⟩

/-! ## Two tasks under one key -/

/-- C16 (as stated, refuted), at six inputs on the five-slot wheel; the
interval is one second in the first five.
Two tasks under `"a"`, both with delay 3s, share slot 3: `RemoveTask("a")`
removes the older one (payload 1) and leaves the most recently added one
(payload 2).
A cyclic task under `"a"` (delay 2s) and a later task under `"a"` (delay 4s):
`RemoveTask("a")` removes the later one; after two ticks the older, cyclic task
has been started and is in the key index again, and a further `RemoveTask("a")`
removes it.
A task under `"a"` is resident in slot 4; tasks under `"a"` are added with
delays 3s and 4s: `RemoveTask("a")` removes the resident task, the front-most of
slot 4, and leaves both added tasks.
With the cursor at 3 and a cyclic task in slot 0, tasks under `"a"` are added
with delays 3s and 4s and `"a"` is removed: the second tick panics, and the
older task is never started.
The second `AddTask` has the delay -1s: it adds nothing, and `RemoveTask("a")`
removes the task of the first.
On the wheel with interval 500ms the first `AddTask` panics. -/
theorem duplicate_key_same_slot_removes_older :
    ((run wheel5 [Op.add 3000000000 false (some "a") 1, Op.add 3000000000 false (some "a") 2,
        Op.remove (some "a")]).1.map (fun tw => tw.slots) =
      some [[], [], [], [⟨3000000000, 0, some "a", 2, false⟩], []]) ∧
    ((run wheel5 [Op.add 2000000000 true (some "a") 1, Op.add 4000000000 false (some "a") 2,
        Op.remove (some "a"), Op.tick, Op.tick]).1.map
          (fun tw => (tw.slots, tw.timer (some "a"))) =
      some ([[], [], [⟨2000000000, 0, some "a", 1, true⟩], [], []], some 2)) ∧
    ((run wheel5 [Op.add 2000000000 true (some "a") 1, Op.add 4000000000 false (some "a") 2,
        Op.remove (some "a"), Op.tick, Op.tick, Op.remove (some "a")]).1.map
          (fun tw => tw.slots) =
      some [[], [], [], [], []]) ∧
    ((run wheelKeySlot4 [Op.add 3000000000 false (some "a") 1,
        Op.add 4000000000 false (some "a") 2, Op.remove (some "a")]).1.map
          (fun tw => tw.slots) =
      some [[], [], [], [⟨3000000000, 0, some "a", 1, false⟩],
        [⟨4000000000, 0, some "a", 2, false⟩]]) ∧
    ((run wheel5At3 (Op.add 2000000000 true (some "c") 1 ::
        Op.add 3000000000 false (some "a") 1 :: Op.add 4000000000 false (some "a") 2 ::
        Op.remove (some "a") :: ticks 3)).1.isSome = false ∧
      (run wheel5At3 (Op.add 2000000000 true (some "c") 1 ::
        Op.add 3000000000 false (some "a") 1 :: Op.add 4000000000 false (some "a") 2 ::
        Op.remove (some "a") :: ticks 3)).2 =
        [[], [], [], [], [], [⟨2000000000, 0, some "c", 1, true⟩]]) ∧
    ((run wheel5 [Op.add 3000000000 false (some "a") 1,
        Op.add (-1000000000) false (some "a") 2, Op.remove (some "a")]).1.map
          (fun tw => tw.slots) =
      some [[], [], [], [], []]) ∧
    ((run wheelHalfSecond [Op.add 3000000000 false (some "a") 1]).1.isSome = false) := by
  refine ⟨by decide, by decide, by decide, by decide, ⟨by decide, by decide⟩, by decide,
    by decide⟩

/-- C16 (amended): on a well-formed wheel whose interval is at least one
second, let a non-cyclic task and then a task that may be cyclic be added one
after the other under the same non-nil key `k`, with delays `d1, d2 ≥ 0`, into
different slots `p1 ≠ p2` (the slots that `getPositionAndCircle` computes),
where slot `p2` held no task with key `k`.
Then the key index maps `k` to the slot `p2` of the most recently added task
and both tasks are resident, each at the tail of its slot.  A following
`RemoveTask(k)` removes the most recently added task, leaves the older one in
its slot and deletes `k` from the key index; a further `RemoveTask(k)` changes
nothing.  From then on, over every sequence of ticks and `RemoveTask` calls
(of `k` or of any other key) that the loop handles without a panic: while
fewer ticks than the firing tick of the older task (counted from its add) have
passed, the older task is the last task of its slot; and the tick with the
number of that firing tick starts its job, last.  Over ticks alone, these
ticks start the jobs that they start on the wheel without the two tasks, plus
the job of the older task at the end of its firing tick. -/
theorem duplicate_key_orphans_older [DecidableEq κ] (tw : TimeWheel κ δ ι) (hw : WF tw)
    (hi : Second ≤ tw.interval) (k : κ) (d1 d2 : Int) (hd1 : 0 ≤ d1) (hd2 : 0 ≤ d2)
    (x1 x2 : δ) (c2 : Bool) (p1 p2 : Int)
    (hp1 : p1 = (tw.currentPos + delayTicks tw d1) % tw.slotNum)
    (hp2 : p2 = (tw.currentPos + delayTicks tw d2) % tw.slotNum)
    (hne : p1 ≠ p2)
    (hfree : ∀ l, slotAt tw.slots p2 = some l → cnt (some k) l = 0) :
    ∃ tw1 tw2 tw3 l1 l2,
      AddTask tw d1 false (some k) x1 = some tw1 ∧
      AddTask tw1 d2 c2 (some k) x2 = some tw2 ∧
      slotAt tw.slots p1 = some l1 ∧ slotAt tw.slots p2 = some l2 ∧
      tw2.timer (some k) = some p2 ∧
      slotAt tw2.slots p1 =
        some (l1 ++ [⟨d1, delayTicks tw d1 / tw.slotNum, some k, x1, false⟩]) ∧
      slotAt tw2.slots p2 =
        some (l2 ++ [⟨d2, delayTicks tw d2 / tw.slotNum, some k, x2, c2⟩]) ∧
      RemoveTask tw2 (some k) = some tw3 ∧
      slotAt tw3.slots p2 = some l2 ∧
      slotAt tw3.slots p1 =
        some (l1 ++ [⟨d1, delayTicks tw d1 / tw.slotNum, some k, x1, false⟩]) ∧
      tw3.timer (some k) = none ∧
      RemoveTask tw3 (some k) = some tw3 ∧
      (∀ ops tw4 logs, ops.all notAdd = true → tickCount ops < firingTick tw d1 →
        run tw3 ops = (some tw4, logs) →
        ∃ l c, slotAt tw4.slots p1 = some (l ++ [⟨d1, c, some k, x1, false⟩])) ∧
      (∀ ops tw4 logs, ops.all notAdd = true → tickCount ops + 1 = firingTick tw d1 →
        run tw3 (ops ++ [Op.tick]) = (some tw4, logs) →
        ∃ logs0 last, logs = logs0 ++ [last ++ [⟨d1, 0, some k, x1, false⟩]]) ∧
      (∀ twA logsA, run tw3 (ticks (firingTick tw d1)) = (some twA, logsA) →
        ∃ twB logs last, logsA = logs ++ [last ++ [⟨d1, 0, some k, x1, false⟩]] ∧
          run tw (ticks (firingTick tw d1)) = (some twB, logs ++ [last]) ∧
          logs.length + 1 = firingTick tw d1) := by
  obtain ⟨l1, tw1, hl1, hc1, hK1, hadd1, hw1, es1, et1, ei1, ec1, en1, ej1⟩ :=
    AddTask_fields_eq tw hw hi d1 hd1 false k x1
  rw [← hp1] at hl1 es1 et1
  have hdt : delayTicks tw1 d2 = delayTicks tw d2 := by
    unfold delayTicks
    rw [ei1]
  obtain ⟨l2, tw2, hl2, hc2, _, hadd2, hw2, es2, et2, ei2, ec2, en2, ej2⟩ :=
    AddTask_fields_eq tw1 hw1 (ei1.symm ▸ hi) d2 hd2 c2 k x2
  rw [ec1, en1, hdt, ← hp2] at hl2 es2 et2
  have hp10 := (slotAt_eq_some hl1).1
  have hl2tw : slotAt tw.slots p2 = some l2 := by
    rw [es1, slotAt_setSlot_ne _ _ hp10 hne] at hl2
    exact hl2
  have hp20 := (slotAt_eq_some hl2tw).1
  have hfree2 := hfree l2 hl2tw
  have htm2 : tw2.timer (some k) = some p2 := by
    rw [et2, mapSet_apply, if_pos rfl]
  have hs2a : slotAt tw2.slots p2 =
      some (l2 ++ [⟨d2, delayTicks tw d2 / tw.slotNum, some k, x2, c2⟩]) := by
    rw [es2]; exact slotAt_setSlot_same _ hl2
  have hs2b : slotAt tw2.slots p1 =
      some (l1 ++ [⟨d1, delayTicks tw d1 / tw.slotNum, some k, x1, false⟩]) := by
    rw [es2, slotAt_setSlot_ne _ _ hp20 (Ne.symm hne), es1]
    exact slotAt_setSlot_same _ hl1
  have herase : (l2 ++ [(⟨d2, delayTicks tw d2 / tw.slotNum, some k, x2, c2⟩ :
      Task κ δ)]).eraseP (fun t => decide (t.key = some k)) = l2 := by
    rw [List.eraseP_append_right _ (by
      intro b hb
      simpa using cnt_eq_zero hfree2 b hb)]
    simp
  have hne0 : (some k : Option κ) ≠ none := by simp
  have hrem0 : RemoveTask tw2 (some k) = some { tw2 with
      slots := setSlot tw2.slots p2 l2
      timer := mapDelete tw2.timer (some k) } := by
    simp only [RemoveTask, if_neg hne0, removeTask, htm2, hs2a]
    rw [removeLoop_of_mem (some k) tw2.timer _ []
      ⟨_, List.mem_append_right _ (List.mem_singleton_self _), rfl⟩]
    simp only [List.nil_append, herase]
  obtain ⟨tw3, hrem, es3, et3, ei3, ec3, en3, ej3⟩ : ∃ tw3 : TimeWheel κ δ ι,
      RemoveTask tw2 (some k) = some tw3 ∧ tw3.slots = setSlot tw2.slots p2 l2 ∧
      tw3.timer = mapDelete tw2.timer (some k) ∧ tw3.interval = tw2.interval ∧
      tw3.currentPos = tw2.currentPos ∧ tw3.slotNum = tw2.slotNum ∧ tw3.job = tw2.job :=
    ⟨_, hrem0, rfl, rfl, rfl, rfl, rfl, rfl⟩
  have es4 : tw3.slots =
      setSlot tw.slots p1
        (l1 ++ [⟨d1, delayTicks tw d1 / tw.slotNum, some k, x1, false⟩]) := by
    rw [es3, es2, setSlot_setSlot, setSlot_self hl2, es1]
  have ht3 : tw3.timer (some k) = none := by
    rw [et3, mapDelete_apply, if_pos rfl]
  have hs3b : slotAt tw3.slots p1 =
      some (l1 ++ [⟨d1, delayTicks tw d1 / tw.slotNum, some k, x1, false⟩]) := by
    rw [es3, slotAt_setSlot_ne _ _ hp20 (Ne.symm hne)]
    exact hs2b
  have hE : Extra { (⟨d1, 0, some k, x1, false⟩ : Task κ δ) with
        circle := delayTicks tw d1 / tw.slotNum } p1 tw tw3 := by
    refine ⟨l1, hl1, es4, by rw [ei3, ei2, ei1], by rw [ec3, ec2, ec1],
      by rw [en3, en2, en1], by rw [ej3, ej2, ej1], ?_, ?_⟩
    · intro k2 hk2
      have hk3 : k2 ≠ some k := hk2
      rw [et3, mapDelete_apply, if_neg hk3, et2, mapSet_apply, if_neg hk3, et1, mapSet_apply,
        if_neg hk3]
    · have hk3 : (none : Option κ) ≠ some k := by simp
      rw [et3, mapDelete_apply, if_neg hk3, et2, mapSet_apply, if_neg hk3, et1, mapSet_apply,
        if_neg hk3]
  have hw3 : WF tw3 := by
    refine ⟨by rw [ei3]; exact hw2.1, by rw [en3]; exact hw2.2.1, ?_,
      by rw [ec3]; exact hw2.2.2.2.1, by rw [ec3, en3]; exact hw2.2.2.2.2⟩
    rw [es3, length_setSlot, en3]
    exact hw2.2.2.1
  have hS : Shadowed { (⟨d1, 0, some k, x1, false⟩ : Task κ δ) with
        circle := delayTicks tw d1 / tw.slotNum } p1 tw3 := by
    refine ⟨l1, hs3b, fun h => ?_⟩
    have h2 : tw3.timer (some k) = some p1 := h
    rw [ht3] at h2
    cases h2
  have hcur : tw3.currentPos = tw.currentPos := by rw [ec3, ec2, ec1]
  have hnum : tw3.slotNum = tw.slotNum := by rw [en3, en2, en1]
  obtain ⟨hT1, hT⟩ := firingTick_dist tw hw hK1
  rw [← hp1] at hT
  have hrem3 : RemoveTask tw3 (some k) = some tw3 := by
    simp only [RemoveTask, if_neg hne0, removeTask, ht3]
  refine ⟨tw1, tw2, tw3, l1, l2, hadd1, hadd2, hl1, hl2tw, htm2, hs2b, hs2a, hrem,
    ?_, hs3b, ht3, hrem3, ?_, ?_, ?_⟩
  · rw [es3]; exact slotAt_setSlot_same _ hs2a
  · intro ops tw4 logs hall hlt hr
    obtain ⟨c, _, _, ⟨l, hl, _⟩, _⟩ := run_Shadowed ⟨d1, 0, some k, x1, false⟩ rfl hne0 p1 ops
      tw3 tw4 _ logs hw3 hc1 hS hall (by rw [hcur, hnum]; omega) hr
    exact ⟨l, c, hl⟩
  · intro ops tw4 logs hall hlt hr
    exact fire_Shadowed ⟨d1, 0, some k, x1, false⟩ rfl hne0 p1 ops tw3 tw4 _ logs hw3 hc1 hS
      hall (by rw [hcur, hnum]; omega) hr
  · intro twA logsA hr
    rcases fire_general ⟨d1, 0, some k, x1, false⟩ rfl p1 (firingTick tw d1 - 1) tw tw3 _ hw hc1
      hE hT with ⟨logs, _, hA⟩ | ⟨twB, twA2, logs, last, hB, hA, hlog, _⟩
    · rw [hT1, hr] at hA
      simp at hA
    · rw [hT1] at hB hA
      rw [hr] at hA
      simp only [Prod.mk.injEq] at hA
      exact ⟨twB, logs, last, hA.2, hB, by omega⟩

/-- C16 witness: on the five-slot one-second wheel with a cyclic task resident
in slot 2, a task under `"a"` with delay 3s and a cyclic task under `"a"` with
delay 4s land in slots 3 and 4; `RemoveTask("a")` takes the task of slot 4
away, a further `RemoveTask("a")` after one tick changes nothing, and the task
of slot 3 is started on tick 3, after the resident cyclic task on tick 2. -/
theorem duplicate_key_orphans_older_witness :
    (WF wheelCyclicSlot2 ∧ Second ≤ wheelCyclicSlot2.interval ∧
      (0 : Int) ≤ 3000000000 ∧ (0 : Int) ≤ 4000000000 ∧
      (3 : Int) = (wheelCyclicSlot2.currentPos + delayTicks wheelCyclicSlot2 3000000000) %
        wheelCyclicSlot2.slotNum ∧
      (4 : Int) = (wheelCyclicSlot2.currentPos + delayTicks wheelCyclicSlot2 4000000000) %
        wheelCyclicSlot2.slotNum ∧
      (3 : Int) ≠ 4 ∧
      ∀ l, slotAt wheelCyclicSlot2.slots 4 = some l → cnt (some "a") l = 0) ∧
    (∃ tw1 tw2 tw3 l1 l2,
      AddTask wheelCyclicSlot2 3000000000 false (some "a") 1 = some tw1 ∧
      AddTask tw1 4000000000 true (some "a") 2 = some tw2 ∧
      slotAt wheelCyclicSlot2.slots 3 = some l1 ∧ slotAt wheelCyclicSlot2.slots 4 = some l2 ∧
      tw2.timer (some "a") = some 4 ∧
      slotAt tw2.slots 3 = some (l1 ++ [⟨3000000000,
        delayTicks wheelCyclicSlot2 3000000000 / wheelCyclicSlot2.slotNum,
        some "a", 1, false⟩]) ∧
      slotAt tw2.slots 4 = some (l2 ++ [⟨4000000000,
        delayTicks wheelCyclicSlot2 4000000000 / wheelCyclicSlot2.slotNum,
        some "a", 2, true⟩]) ∧
      RemoveTask tw2 (some "a") = some tw3 ∧
      slotAt tw3.slots 4 = some l2 ∧
      slotAt tw3.slots 3 = some (l1 ++ [⟨3000000000,
        delayTicks wheelCyclicSlot2 3000000000 / wheelCyclicSlot2.slotNum,
        some "a", 1, false⟩]) ∧
      tw3.timer (some "a") = none ∧
      RemoveTask tw3 (some "a") = some tw3 ∧
      (∀ ops tw4 logs, ops.all notAdd = true →
        tickCount ops < firingTick wheelCyclicSlot2 3000000000 →
        run tw3 ops = (some tw4, logs) →
        ∃ l c, slotAt tw4.slots 3 = some (l ++ [⟨3000000000, c, some "a", 1, false⟩])) ∧
      (∀ ops tw4 logs, ops.all notAdd = true →
        tickCount ops + 1 = firingTick wheelCyclicSlot2 3000000000 →
        run tw3 (ops ++ [Op.tick]) = (some tw4, logs) →
        ∃ logs0 last, logs = logs0 ++ [last ++ [⟨3000000000, 0, some "a", 1, false⟩]]) ∧
      (∀ twA logsA,
        run tw3 (ticks (firingTick wheelCyclicSlot2 3000000000)) = (some twA, logsA) →
        ∃ twB logs last, logsA = logs ++ [last ++ [⟨3000000000, 0, some "a", 1, false⟩]] ∧
          run wheelCyclicSlot2 (ticks (firingTick wheelCyclicSlot2 3000000000)) =
            (some twB, logs ++ [last]) ∧
          logs.length + 1 = firingTick wheelCyclicSlot2 3000000000)) ∧
    firingTick wheelCyclicSlot2 3000000000 = 3 ∧
    (run wheelCyclicSlot2 [Op.add 3000000000 false (some "a") 1,
        Op.add 4000000000 true (some "a") 2, Op.remove (some "a")]).1.map
          (fun tw => (tw.slots, tw.timer (some "a"))) =
      some ([[], [], [⟨2000000000, 0, some "c", 1, true⟩],
        [⟨3000000000, 0, some "a", 1, false⟩], []], none) ∧
    (run wheelCyclicSlot2 (Op.add 3000000000 false (some "a") 1 ::
        Op.add 4000000000 true (some "a") 2 :: Op.remove (some "a") :: Op.tick ::
        Op.remove (some "a") :: ticks 2)).2 =
      [[], [], [], [], [], [⟨2000000000, 0, some "c", 1, true⟩],
        [⟨3000000000, 0, some "a", 1, false⟩]] :=
  ⟨⟨by decide, by decide, by decide, by decide, by decide, by decide, by decide,
     fun l h => by cases h; rfl⟩,
   duplicate_key_orphans_older wheelCyclicSlot2 (by decide) (by decide) "a"
     3000000000 4000000000 (by decide) (by decide) 1 2 true 3 4 (by decide) (by decide)
     (by decide) (fun l h => by cases h; rfl),
   by decide, by decide, by decide⟩

end timewheel
